import Mathlib

/-!
The typehero code samples: connection pool, shutdown handler and utilities.

A shallow embedding of `code-samples/solutions/problem-94.go` (a bounded
connection pool over a buffered channel, with a periodic health monitor),
`code-samples/solutions/problem-100.go` (a shutdown handler running cleanup
hooks under a deadline) and of the routines of `problem-19.go` (padString),
`problem-37.go` (LRUCache), `problem-57.go` (RateLimiter), `problem-8.go`
(maxValue) and `problem-65.go` (validateJWTStructure), followed by the
properties proved about them.

Conventions of the embedding:

* a buffered channel `chan *Connection` of capacity `maxSize` is the list of the
  values it buffers, oldest first; a receive takes the head; a send hands the
  value to a receiver that is waiting, and otherwise appends and needs
  `length < maxSize`;
* the caller-supplied closures `factory` and `healthCheck` may be stateful: they
  read and update an environment of an arbitrary type `σ`;
* a Go result pair `(*Connection, error)` is an `Except`: either the connection
  with a `nil` error, or the error with a `nil` connection;
* every call of a closure is appended to a ghost log `calls`, so that "is called
  exactly once" can be stated;
* a call of `Wait` is a state machine over the steps of its goroutines: a hook
  returns, the deadline elapses, `done` is closed, `Wait` reaches its `select`,
  closes `errChan`, logs an error; a schedule is the order of these steps;
* a Go string is the list of its bytes; instants and durations are integers.
-/

namespace TypeHero

/-! ## problem-94.go : data model -/

/-- The Go struct `Connection`. -/
structure Connection where
  ID : Int
  Healthy : Bool
deriving DecidableEq, Repr

/-- Errors a caller of `Get` can receive: the timeout error created inside `Get`
by `errors.New`, or an error value produced by the factory. -/
inductive PoolError where
  | timeout
  | factory (msg : String)
deriving DecidableEq, Repr

/-- One call of a caller-supplied closure, with what it returned. -/
inductive Call where
  | factory (r : Except String Connection)
  | healthCheck (c : Connection) (ok : Bool)

/-- The Go struct `ConnectionPool`. The mutex field is never used by the
source and is left out. -/
structure ConnectionPool (σ : Type) where
  conns : List Connection
  factory : σ → Except String Connection × σ
  healthCheck : Connection → σ → Bool × σ
  maxSize : Nat

/-- A pool together with the environment its closures act on and the log of
closure calls made so far. -/
structure World (σ : Type) where
  pool : ConnectionPool σ
  env : σ
  calls : List Call

/-- The connections buffered in the channel: the idle connections. -/
def World.idle {σ : Type} (w : World σ) : List Connection := w.pool.conns

/-- Replace the channel contents. -/
def World.setConns {σ : Type} (w : World σ) (cs : List Connection) : World σ :=
  { w with pool := { w.pool with conns := cs } }

/-- Call `factory()`: thread the environment and log the call. -/
def callFactory {σ : Type} (w : World σ) : Except String Connection × World σ :=
  let r := w.pool.factory w.env
  (r.1, { w with env := r.2, calls := w.calls ++ [Call.factory r.1] })

/-- Call `healthCheck(conn)`: thread the environment and log the call. -/
def callHealthCheck {σ : Type} (w : World σ) (conn : Connection) : Bool × World σ :=
  let r := w.pool.healthCheck conn w.env
  (r.1, { w with env := r.2, calls := w.calls ++ [Call.healthCheck conn r.1] })

/-! ## problem-94.go : operations -/

/-- The seeding loop of `NewPool`: `for i := 0; i < size; i++`, calling the
factory and sending the connection to the channel when `err == nil`. -/
def seed {σ : Type} : Nat → World σ → World σ
  | 0, w => w
  | n + 1, w =>
    match callFactory w with
    | (Except.ok conn, w1) => seed n (w1.setConns (w1.pool.conns ++ [conn]))
    | (Except.error _, w1) => seed n w1

/-- `NewPool(size, factory, healthCheck)`, run in environment `env`. The channel
is made with capacity `size` and `maxSize` is `size`. -/
def NewPool {σ : Type} (size : Nat) (factory : σ → Except String Connection × σ)
    (healthCheck : Connection → σ → Bool × σ) (env : σ) : World σ :=
  seed size
    { pool := { conns := [], factory := factory, healthCheck := healthCheck, maxSize := size }
      env := env
      calls := [] }

/-- `p.reconnect()`: the result of the factory, passed through. -/
def reconnect {σ : Type} (w : World σ) : Except PoolError Connection × World σ :=
  match callFactory w with
  | (Except.ok conn, w1) => (Except.ok conn, w1)
  | (Except.error e, w1) => (Except.error (PoolError.factory e), w1)

/-- `p.Get()`. The receive case fires on the oldest buffered connection; with an
empty channel for the whole five seconds the timeout case fires. -/
def Get {σ : Type} (w : World σ) : Except PoolError Connection × World σ :=
  match w.pool.conns with
  | [] => (Except.error PoolError.timeout, w)
  | conn :: rest =>
    match callHealthCheck (w.setConns rest) conn with
    | (true, w1) => (Except.ok conn, w1)
    | (false, w1) => reconnect w1

/-- The receive case of the `select` of `Get`, once `conn` has been received: the
health check, and the reconnect when it fails. -/
def receiveCase {σ : Type} (w : World σ) (conn : Connection) :
    Except PoolError Connection × World σ :=
  match callHealthCheck w conn with
  | (true, w1) => (Except.ok conn, w1)
  | (false, w1) => reconnect w1

/-- `p.Put(conn)`. `receiverWaiting` says whether a `Get` is blocked in its
receive when the `select` runs (the channel is then empty). The send case fires
when a receiver is waiting, and hands the connection to it without touching the
buffer, or when the channel has room, and appends the connection; otherwise the
`default` case drops the connection. The second component is the connection
handed to the waiting receiver, if any. -/
def Put {σ : Type} (w : World σ) (conn : Connection) (receiverWaiting : Bool) :
    World σ × Option Connection :=
  if receiverWaiting then (w, some conn)
  else if w.pool.conns.length < w.pool.maxSize then (w.setConns (w.pool.conns ++ [conn]), none)
  else (w, none)

/-- First half of one iteration of the `monitor` loop body: the non-blocking
receive, the health check and the reconnect. The second component is the
connection the monitor goes on to send back, if any. -/
def monitorTake {σ : Type} (w : World σ) : World σ × Option Connection :=
  match w.pool.conns with
  | [] => (w, none)
  | conn :: rest =>
    match callHealthCheck (w.setConns rest) conn with
    | (true, w1) => (w1, some conn)
    | (false, w1) =>
      match callFactory w1 with
      | (Except.ok newConn, w2) => (w2, some newConn)
      | (Except.error _, w2) => (w2, none)

/-- The blocking send `p.conns <- c` of the monitor: `none` while the channel is
full (the send has not happened). -/
def monitorSend {σ : Type} (w : World σ) (c : Connection) : Option (World σ) :=
  if w.pool.conns.length < w.pool.maxSize then some (w.setConns (w.pool.conns ++ [c])) else none

/-- One whole iteration of the `monitor` loop body with no other goroutine
running in between; `none` if its send blocks. -/
def monitorTick {σ : Type} (w : World σ) : Option (World σ) :=
  match monitorTake w with
  | (w1, none) => some w1
  | (w1, some c) => monitorSend w1 c

/-! ## problem-94.go : the pool shared by several goroutines

Callers and the monitor goroutine interleave. A `Get` touches the channel once
(its receive), a `Put` once (its send); the monitor touches it twice per tick,
and other goroutines may run between its receive and its send. -/

/-- The pool with its users: `leased` are the connections callers hold from a
successful `Get` and have not yet released (oldest lease last), `held` is the
local variable of the monitor between its receive and its send. -/
structure System (σ : Type) where
  world : World σ
  leased : List Connection
  held : Option Connection

/-- The steps goroutines take. `put c` is a `Put` while no `Get` is blocked in its
receive, `putToWaiting c` a `Put` while one is: that `Get` is handed `c` and goes
on with its receive case. `env e` is the outside world changing the environment
of the closures (a connection going bad, say). -/
inductive Action (σ : Type) where
  | get
  | put (c : Connection)
  | putToWaiting (c : Connection)
  | monitorTake
  | monitorSend
  | env (e : σ)

/-- A freshly built pool: nothing leased, the monitor waiting for its ticker. -/
def System.init {σ : Type} (w : World σ) : System σ :=
  { world := w, leased := [], held := none }

/-- Effect of one step; `none` when the step cannot be taken now (the monitor
is one goroutine and is in the other half of its tick, or its send is blocked, or
no `Get` can be blocked because the channel is not empty). -/
def System.step {σ : Type} (s : System σ) : Action σ → Option (System σ)
  | Action.get =>
    match Get s.world with
    | (Except.ok c, w) => some { s with world := w, leased := c :: s.leased }
    | (Except.error _, w) => some { s with world := w }
  | Action.put c => some { s with world := (Put s.world c false).1, leased := s.leased.erase c }
  | Action.putToWaiting c =>
    if s.world.pool.conns = [] then
      match Put s.world c true with
      | (w, some handed) =>
        match receiveCase w handed with
        | (Except.ok d, w1) => some { s with world := w1, leased := d :: s.leased.erase c }
        | (Except.error _, w1) => some { s with world := w1, leased := s.leased.erase c }
      | (w, none) => some { s with world := w, leased := s.leased.erase c }
    else none
  | Action.monitorTake =>
    match s.held with
    | some _ => none
    | none => some { s with world := (monitorTake s.world).1, held := (monitorTake s.world).2 }
  | Action.monitorSend =>
    match s.held with
    | none => none
    | some c =>
      match monitorSend s.world c with
      | none => none
      | some w => some { s with world := w, held := none }
  | Action.env e => some { s with world := { s.world with env := e } }

/-- Which steps callers are allowed: a policy on `Put`. -/
abbrev Policy (σ : Type) := System σ → Action σ → Bool

/-- Any connection may be handed to `Put`, as the signature of `Put` allows. -/
def anyPut {σ : Type} : Policy σ := fun _ _ => true

/-- The caller contract: `Put` is applied only to a connection currently
leased, which ends that lease. -/
def leasedPut {σ : Type} : Policy σ := fun s a =>
  match a with
  | Action.put c => decide (c ∈ s.leased)
  | Action.putToWaiting c => decide (c ∈ s.leased)
  | _ => true

/-- Run a sequence of steps under a policy; `none` if one of them is not allowed
or cannot be taken. -/
def System.run {σ : Type} (ok : Policy σ) : System σ → List (Action σ) → Option (System σ)
  | s, [] => some s
  | s, a :: as =>
    if ok s a then
      match s.step a with
      | some s1 => System.run ok s1 as
      | none => none
    else none

/-- The monitor is about to send and the channel is full: its tick cannot
complete until some `Get` makes room. -/
def System.monitorBlocked {σ : Type} (s : System σ) : Bool :=
  match s.held with
  | none => false
  | some c => (monitorSend s.world c).isNone

/-! ## problem-100.go : shutdown handler -/

/-- What a hook can observe of the `context.Context` it is given: whether the
deadline has passed. -/
structure Context where
  done : Bool
deriving DecidableEq, Repr

/-- A cleanup hook `func(context.Context) error`; `none` is the `nil` error. -/
abbrev Hook := Context → Option String

/-- The Go struct `ShutdownHandler` (the mutex guards `hooks` and has no state
of its own here). `timeout` is a `time.Duration`. -/
structure ShutdownHandler where
  timeout : Int
  hooks : List Hook

/-- `NewShutdownHandler(timeout)`. -/
def NewShutdownHandler (timeout : Int) : ShutdownHandler :=
  { timeout := timeout, hooks := [] }

/-- `h.RegisterHook(hook)`. -/
def ShutdownHandler.RegisterHook (h : ShutdownHandler) (hook : Hook) : ShutdownHandler :=
  { h with hooks := h.hooks ++ [hook] }

/-- Which case of the `select` in `Wait` fired: `done` closed ("Graceful
shutdown completed") or `ctx.Done()` ("Shutdown timeout exceeded, forcing
exit"). -/
inductive Verdict where
  | graceful
  | forced
deriving DecidableEq, Repr

/-- What happens in one call of `Wait` once its goroutines are started, each
event being one step of one goroutine:

* `returns i`: the goroutine of hook `i` returns from `fn(ctx)`, sends the error
  if there is one, and leaves the wait group;
* `deadline`: the deadline of `ctx` elapses, `ctx.Done()` is closed;
* `closeDone`: the goroutine `wg.Wait(); close(done)` closes `done`;
* `reachSelect pick`: the goroutine of `Wait` reaches its `select`; `pick` is
  the case Go chooses when both are ready;
* `closeErrChan`: the goroutine of `Wait` runs `close(errChan)`;
* `logError`: one iteration of the loop `for err := range errChan`. -/
inductive Event where
  | returns (i : Nat)
  | deadline
  | closeDone
  | reachSelect (pick : Verdict)
  | closeErrChan
  | logError
deriving DecidableEq, Repr

/-- State of one call of `Wait` from the point where its goroutines are started.
`running` are the indices of the hook goroutines that have not returned (the
wait group counter is its length); `ctxDone` and `doneClosed` say whether
`ctx.Done()` and `done` are closed; `inSelect` whether the goroutine of `Wait`
is blocked in its `select`; `errChan` holds the buffered errors; `verdict` is the
case the `select` took; `reported` are the "Cleanup error" lines logged;
`panicked` whether a goroutine sent on the closed `errChan`. -/
structure Session where
  hooks : List Hook
  running : List Nat
  ctxDone : Bool
  doneClosed : Bool
  inSelect : Bool
  errChan : List String
  errChanClosed : Bool
  verdict : Option Verdict
  reported : List String
  panicked : Bool

/-- `errChan <- err` in a hook goroutine: a send on a closed channel panics;
the channel has one slot per hook, so an open one always has room. -/
def Session.sendErr (s : Session) (e : String) : Session :=
  if s.errChanClosed then { s with panicked := true } else { s with errChan := s.errChan ++ [e] }

/-- The snapshot `hooks := h.hooks`, one goroutine started per hook, the
goroutine closing `done` started, the goroutine of `Wait` on its way to the
`select`. `context.WithTimeout` gives a context that is done from the start
when the timeout is not positive. -/
def Session.start (h : ShutdownHandler) : Session :=
  { hooks := h.hooks, running := List.range h.hooks.length, ctxDone := decide (h.timeout ≤ 0),
    doneClosed := false, inSelect := false, errChan := [], errChanClosed := false,
    verdict := none, reported := [], panicked := false }

/-- The goroutine of `Wait` arrives at its `select`: it takes the case that is
ready, `pick` when both are, and blocks when none is. -/
def Session.arrive (s : Session) (pick : Verdict) : Session :=
  match s.doneClosed, s.ctxDone with
  | true, true => { s with verdict := some pick }
  | true, false => { s with verdict := some Verdict.graceful }
  | false, true => { s with verdict := some Verdict.forced }
  | false, false => { s with inSelect := true }

/-- One event. A hook returns at most once, so `returns i` for a hook that is
not running is no event, and its result is read off the context as it is when
the hook returns; `done` is closed once, when no hook is running; a
goroutine of `Wait` blocked in its `select` is woken by the first of the two
channels to be closed and takes that case; `close(errChan)` comes after the
`select`; after a panic the process is gone. -/
def Session.step (s : Session) : Event → Session
  | Event.returns i =>
    if s.panicked then s
    else if i ∈ s.running then
      match s.hooks[i]? with
      | none => s
      | some fn =>
        match fn { done := s.ctxDone } with
        | none => { s with running := s.running.filter (fun j => j != i) }
        | some e => Session.sendErr { s with running := s.running.filter (fun j => j != i) } e
    else s
  | Event.deadline =>
    if s.panicked then s
    else
      match s.verdict with
      | none =>
        if s.inSelect then
          { s with ctxDone := true, inSelect := false, verdict := some Verdict.forced }
        else { s with ctxDone := true }
      | some _ => { s with ctxDone := true }
  | Event.closeDone =>
    if s.panicked then s
    else if s.running = [] ∧ s.doneClosed = false then
      match s.verdict with
      | none =>
        if s.inSelect then
          { s with doneClosed := true, inSelect := false, verdict := some Verdict.graceful }
        else { s with doneClosed := true }
      | some _ => { s with doneClosed := true }
    else s
  | Event.reachSelect pick =>
    if s.panicked then s
    else
      match s.verdict with
      | none => if s.inSelect then s else s.arrive pick
      | some _ => s
  | Event.closeErrChan =>
    if s.panicked then s
    else
      match s.verdict with
      | none => s
      | some _ => { s with errChanClosed := true }
  | Event.logError =>
    if s.panicked then s
    else if s.errChanClosed then
      match s.errChan with
      | [] => s
      | e :: rest => { s with errChan := rest, reported := s.reported ++ [e] }
    else s

/-- `h.Wait()` from the arrival of the signal on, under a schedule of events. The
schedule says in which order the goroutines take their steps and where among
them the deadline elapses. -/
def ShutdownHandler.Wait (h : ShutdownHandler) (schedule : List Event) : Session :=
  schedule.foldl Session.step (Session.start h)

/-- `Wait` has returned: the error channel is closed and the logging loop has
emptied it. -/
def Session.returned (s : Session) : Bool :=
  s.errChanClosed && s.errChan.isEmpty

/-! ## problem-100.go : a handler and the calls of `Wait` on it -/

/-- Apply `f` to the element at position `k` of a list, if there is one. -/
def modifyAt {α : Type} (f : α → α) : Nat → List α → List α
  | _, [] => []
  | 0, a :: l => f a :: l
  | k + 1, a :: l => a :: modifyAt f k l

/-- A handler shared by the goroutines of a process, with one session per call of
`Wait` whose signal has arrived, oldest first. `Wait` never writes to the
handler, so the handler changes through `RegisterHook` only. -/
structure Process where
  handler : ShutdownHandler
  sessions : List Session

/-- What happens in the process: a call of `RegisterHook`; a call of `Wait`
receiving its signal, taking its snapshot and starting its goroutines; an
event in the session of the `k`-th such call. -/
inductive ProcessEvent where
  | register (hook : Hook)
  | signal
  | inSession (k : Nat) (e : Event)

/-- A handler on which `Wait` has not been called. -/
def Process.init (h : ShutdownHandler) : Process :=
  { handler := h, sessions := [] }

/-- Effect of one event of the process. -/
def Process.step (p : Process) : ProcessEvent → Process
  | ProcessEvent.register hook => { p with handler := p.handler.RegisterHook hook }
  | ProcessEvent.signal => { p with sessions := p.sessions ++ [Session.start p.handler] }
  | ProcessEvent.inSession k e =>
    { p with sessions := modifyAt (fun s => s.step e) k p.sessions }

/-- Effect of a sequence of events of the process. -/
def Process.run (p : Process) (events : List ProcessEvent) : Process :=
  events.foldl Process.step p

/-- The states of the coordinator named by the design. -/
inductive Phase where
  | idle
  | triggered
  | completed
  | timedOut
deriving DecidableEq, Repr

/-- The state of one call of `Wait`: still in its `select`, or past it with the
verdict it logged. -/
def Session.phase (s : Session) : Phase :=
  match s.verdict with
  | none => Phase.triggered
  | some Verdict.graceful => Phase.completed
  | some Verdict.forced => Phase.timedOut

/-- The state of a handler instance: idle until the first call of `Wait` gets its
signal, then the state of the latest call. -/
def Process.phase (p : Process) : Phase :=
  match p.sessions.getLast? with
  | none => Phase.idle
  | some s => s.phase

/-! ## problem-19.go : padString

A Go string is the list of its bytes; `len(s)` is the length of that list. -/

/-- A Go string, as its bytes. -/
abbrev GoString := List Nat

/-- The Go conversion `string(r)` of a rune to a string: the UTF-8 encoding of
`r`, or of U+FFFD when `r` is not a valid code point. -/
def runeString (r : Int) : GoString :=
  if 0 ≤ r ∧ r < 0x80 then [r.toNat]
  else if 0x80 ≤ r ∧ r < 0x800 then [0xC0 + r.toNat / 64, 0x80 + r.toNat % 64]
  else if (0x800 ≤ r ∧ r < 0xD800) ∨ (0xE000 ≤ r ∧ r < 0x10000) then
    [0xE0 + r.toNat / 4096, 0x80 + r.toNat / 64 % 64, 0x80 + r.toNat % 64]
  else if 0x10000 ≤ r ∧ r ≤ 0x10FFFF then
    [0xF0 + r.toNat / 262144, 0x80 + r.toNat / 4096 % 64, 0x80 + r.toNat / 64 % 64,
     0x80 + r.toNat % 64]
  else [0xEF, 0xBF, 0xBD]

/-- `strings.Repeat(s, count)` for a count that is not negative. -/
def stringsRepeat (s : GoString) : Nat → GoString
  | 0 => []
  | n + 1 => s ++ stringsRepeat s n

/-- `padString(s, minLen, padChar)`. The count handed to `strings.Repeat` is
positive on the path that reaches it. -/
def padString (s : GoString) (minLen : Int) (padChar : Int) : GoString :=
  if (s.length : Int) ≥ minLen then s
  else stringsRepeat (runeString padChar) (minLen - s.length).toNat ++ s

/-! ## problem-8.go : maxValue -/

/-- The loop `for _, n := range nums[1:]` of `maxValue`, from the current `max`. -/
def maxLoop : Int → List Int → Int
  | max, [] => max
  | max, n :: rest => if n > max then maxLoop n rest else maxLoop max rest

/-- `maxValue(nums)`: the value and the error, `none` for `nil`. -/
def maxValue (nums : List Int) : Int × Option String :=
  match nums with
  | [] => (0, some "empty slice")
  | first :: rest => (maxLoop first rest, none)

/-! ## problem-65.go : validateJWTStructure

`base64.RawURLEncoding.DecodeString` and `json.Unmarshal` into a
`json.RawMessage` belong to the Go library; the function is embedded over any
decoder `decodeString` and any validity test `unmarshalOk` (true when
`json.Unmarshal` returns a `nil` error). Errors are their messages. -/

/-- `strings.Split(token, ".")`: the byte 46 is the dot. -/
def splitDot : GoString → List GoString
  | [] => [[]]
  | b :: bs =>
    if b = 46 then [] :: splitDot bs
    else
      match splitDot bs with
      | [] => [[b]]
      | part :: parts => (b :: part) :: parts

/-- The body of the loop of `validateJWTStructure` for one part. -/
def checkPart (decodeString : GoString → Except String GoString) (unmarshalOk : GoString → Bool)
    (part : GoString) : Option String :=
  match decodeString part with
  | Except.error err => some err
  | Except.ok decoded => if unmarshalOk decoded then none else some "invalid JSON in JWT part"

/-- The loop `for i := 0; i < 2; i++` of `validateJWTStructure`, from index `i`
with `n` iterations to go. -/
def jwtLoop (decodeString : GoString → Except String GoString) (unmarshalOk : GoString → Bool)
    (parts : List GoString) : Nat → Nat → Option String
  | _, 0 => none
  | i, n + 1 =>
    match checkPart decodeString unmarshalOk (parts.getD i []) with
    | some err => some err
    | none => jwtLoop decodeString unmarshalOk parts (i + 1) n

/-- `validateJWTStructure(token)`: the error message, `none` for `nil`. -/
def validateJWTStructure (decodeString : GoString → Except String GoString)
    (unmarshalOk : GoString → Bool) (token : GoString) : Option String :=
  if (splitDot token).length ≠ 3 then some "invalid JWT: must have 3 parts"
  else jwtLoop decodeString unmarshalOk (splitDot token) 0 2

/-- A stand-in decoder: fails on the empty string, otherwise returns its input. -/
def demoDecode : GoString → Except String GoString :=
  fun part => if part = [] then Except.error "illegal base64 data at input byte 0"
    else Except.ok part

/-- A stand-in validity test: accepts the two bytes `{}` only. -/
def demoUnmarshalOk : GoString → Bool :=
  fun decoded => decoded == [123, 125]

/-! ## problem-57.go : RateLimiter

A `time.Time` is an integer instant and a `time.Duration` an integer, in the same
unit; `time.Now()` is an argument of `Allow`. -/

/-- The Go struct `RateLimiter`, without its mutex. -/
structure RateLimiter where
  timestamps : List Int
  maxRequests : Int
  window : Int
deriving DecidableEq, Repr

/-- `NewRateLimiter(maxRequests, window)`. -/
def NewRateLimiter (maxRequests : Int) (window : Int) : RateLimiter :=
  { timestamps := [], maxRequests := maxRequests, window := window }

/-- The timestamps the loop of `Allow` keeps: those after the cutoff, in order. -/
def unexpired (rl : RateLimiter) (now : Int) : List Int :=
  rl.timestamps.filter (fun ts => decide (ts > now - rl.window))

/-- `rl.Allow()` when `time.Now()` returns `now`: the result and the limiter
afterwards. -/
def RateLimiter.Allow (rl : RateLimiter) (now : Int) : Bool × RateLimiter :=
  if ((unexpired rl now).length : Int) < rl.maxRequests then
    (true, { rl with timestamps := unexpired rl now ++ [now] })
  else (false, { rl with timestamps := unexpired rl now })

/-- A sequence of calls of `Allow` at the given instants: the limiter afterwards. -/
def RateLimiter.allowAll (rl : RateLimiter) : List Int → RateLimiter
  | [] => rl
  | now :: nows => RateLimiter.allowAll (rl.Allow now).2 nows

/-- The instants of the calls of a sequence that returned true, in call order. -/
def RateLimiter.granted (rl : RateLimiter) : List Int → List Int
  | [] => []
  | now :: nows =>
    if (rl.Allow now).1 then now :: RateLimiter.granted (rl.Allow now).2 nows
    else RateLimiter.granted (rl.Allow now).2 nows

/-- How many of the instants `ts` fall in the interval `(t - window, t]`. -/
def countInWindow (ts : List Int) (window t : Int) : Nat :=
  (ts.filter (fun a => decide (t - window < a ∧ a ≤ t))).length

/-- The stored timestamps are the granted instants `g` still inside the window
that ends at `last`; every granted instant is at most `last`; and `g` respects
the bound `bound` in every window. -/
def RateLimiter.tracks (rl : RateLimiter) (g : List Int) (last : Int) (bound : Nat) : Prop :=
  rl.timestamps = g.filter (fun a => decide (a > last - rl.window)) ∧
    (∀ a ∈ g, a ≤ last) ∧ ∀ t, countInWindow g rl.window t ≤ bound

/-! ## problem-37.go : LRUCache

The `container/list` list and the pointers of the map are embedded with
addresses: every `*list.Element` is a natural number, `elems` gives the entry an
element points to, `order` is the list from front to back, and `next` is the
address `PushFront` gives to the element it allocates. The type `V` stands for
`interface{}`, its `default` for `nil`. -/

/-- The Go struct `entry`. -/
structure entry (V : Type) where
  key : String
  value : V

/-- The Go struct `LRUCache`. -/
structure LRUCache (V : Type) where
  capacity : Int
  cache : String → Option Nat
  order : List Nat
  elems : Nat → entry V
  next : Nat

/-- `l.MoveToFront(e)`: nothing happens when `e` is not an element of the list. -/
def listMoveToFront (e : Nat) (l : List Nat) : List Nat :=
  if e ∈ l then e :: l.erase e else l

/-- `NewLRU(capacity)`. -/
def NewLRU {V : Type} [Inhabited V] (capacity : Int) : LRUCache V :=
  { capacity := capacity
    cache := fun _ => none
    order := []
    elems := fun _ => { key := "", value := default }
    next := 0 }

/-- `c.Get(key)`: the pair returned and the cache afterwards. -/
def LRUCache.Get {V : Type} [Inhabited V] (c : LRUCache V) (key : String) :
    (V × Bool) × LRUCache V :=
  match c.cache key with
  | some elem => (((c.elems elem).value, true), { c with order := listMoveToFront elem c.order })
  | none => ((default, false), c)

/-- The eviction step of `c.Set`: when the list is as long as the capacity allows,
the back element, if there is one, leaves the list and its key leaves the map. -/
def LRUCache.evict {V : Type} (c : LRUCache V) : LRUCache V :=
  if (c.order.length : Int) ≥ c.capacity then
    match c.order.getLast? with
    | some oldest =>
      { c with order := c.order.erase oldest
               cache := Function.update c.cache (c.elems oldest).key none }
    | none => c
  else c

/-- The end of `c.Set` for a key that is not in the map: `PushFront` of a new
entry and the map entry for it. -/
def LRUCache.pushFront {V : Type} (c : LRUCache V) (key : String) (value : V) : LRUCache V :=
  { c with order := c.next :: c.order
           elems := Function.update c.elems c.next { key := key, value := value }
           cache := Function.update c.cache key (some c.next)
           next := c.next + 1 }

/-- `c.Set(key, value)`. -/
def LRUCache.Set {V : Type} (c : LRUCache V) (key : String) (value : V) : LRUCache V :=
  match c.cache key with
  | some elem =>
    { c with order := listMoveToFront elem c.order
             elems := Function.update c.elems elem { key := (c.elems elem).key, value := value } }
  | none => c.evict.pushFront key value

/-- A call on the cache. -/
inductive CacheOp (V : Type) where
  | get (key : String)
  | set (key : String) (value : V)

/-- The cache after a call. -/
def LRUCache.apply {V : Type} [Inhabited V] (c : LRUCache V) : CacheOp V → LRUCache V
  | CacheOp.get key => (c.Get key).2
  | CacheOp.set key value => c.Set key value

/-- The cache after a sequence of calls. -/
def LRUCache.run {V : Type} [Inhabited V] (c : LRUCache V) (ops : List (CacheOp V)) :
    LRUCache V :=
  ops.foldl LRUCache.apply c

/-- The keys of the recency list, front to back. -/
def LRUCache.keys {V : Type} (c : LRUCache V) : List String :=
  c.order.map (fun a => (c.elems a).key)

/-- The value stored under a key, through the map. -/
def LRUCache.lookup {V : Type} (c : LRUCache V) (key : String) : Option V :=
  (c.cache key).map (fun a => (c.elems a).value)

/-- A cache together with a clock that counts the calls and, for every key, the
instant of its most recent `Set` or `Get` hit (0 when there was none). -/
structure Traced (V : Type) where
  cache : LRUCache V
  clock : Nat
  used : String → Nat

/-- A new cache at instant 0. -/
def Traced.init {V : Type} [Inhabited V] (capacity : Int) : Traced V :=
  { cache := NewLRU capacity, clock := 0, used := fun _ => 0 }

/-- A call at the next instant: a `Set`, or a `Get` that hits, is a use of its
key. -/
def Traced.apply {V : Type} [Inhabited V] (t : Traced V) : CacheOp V → Traced V
  | CacheOp.get key =>
    { cache := (t.cache.Get key).2
      clock := t.clock + 1
      used := if (t.cache.Get key).1.2 then Function.update t.used key (t.clock + 1)
              else t.used }
  | CacheOp.set key value =>
    { cache := t.cache.Set key value
      clock := t.clock + 1
      used := Function.update t.used key (t.clock + 1) }

/-- A sequence of calls, traced. -/
def Traced.run {V : Type} [Inhabited V] (t : Traced V) (ops : List (CacheOp V)) : Traced V :=
  ops.foldl Traced.apply t

/-- The list and the map of a cache agree: the list has no element twice, its
elements have been allocated, every map entry points at a list element carrying
its key, and every list element is the map entry of the key it carries. -/
def LRUCache.coherent {V : Type} (c : LRUCache V) : Prop :=
  c.order.Nodup ∧ (∀ a ∈ c.order, a < c.next) ∧
    (∀ k a, c.cache k = some a → a ∈ c.order ∧ (c.elems a).key = k) ∧
    (∀ a ∈ c.order, c.cache (c.elems a).key = some a)

/-- The recency list is in order of use: from front to back the instants of the
most recent use of the keys strictly decrease, and none is later than the clock. -/
def Traced.ordered {V : Type} (t : Traced V) : Prop :=
  (t.cache.keys.map t.used).Pairwise (fun x y => x > y) ∧ ∀ k ∈ t.cache.keys, t.used k ≤ t.clock

/-- A run on a cache of capacity 2 with string values: three keys are set, the
first is evicted. -/
def demoCacheOps : List (CacheOp String) :=
  [CacheOp.set "a" "1", CacheOp.set "b" "2", CacheOp.get "a", CacheOp.set "c" "3"]

/-! ## Example closures

Concrete factories and health checks over a counter environment, on which the
operations are evaluated. -/

/-- A factory that numbers its connections by the counter and never fails. -/
def counterFactory : Nat → Except String Connection × Nat :=
  fun n => (Except.ok { ID := n, Healthy := true }, n + 1)

/-- A factory that never fails but produces connections that are already bad. -/
def brokenFactory : Nat → Except String Connection × Nat :=
  fun n => (Except.ok { ID := n, Healthy := false }, n + 1)

/-- A factory that always fails. -/
def failingFactory : Nat → Except String Connection × Nat :=
  fun n => (Except.error "dial failed", n + 1)

/-- A factory that fails on every odd call. -/
def flakyFactory : Nat → Except String Connection × Nat :=
  fun n => (if n % 2 = 0 then Except.ok { ID := n, Healthy := true }
            else Except.error "dial failed", n + 1)

/-- The health check that reads the `Healthy` field. -/
def fieldHealthCheck : Connection → Nat → Bool × Nat :=
  fun c n => (c.Healthy, n)

/-- The health check that reports every connection unhealthy. -/
def neverHealthy : Connection → Nat → Bool × Nat :=
  fun _ n => (false, n)

/-- Whether a logged call is a health check of `c` that returned true. -/
def Call.passes (c : Connection) : Call → Bool
  | Call.healthCheck d ok => decide (d = c) && ok
  | Call.factory _ => false

/-- A run under the caller contract: two leases, one release, a monitor tick
in two halves with a lease in between. -/
def demoActs : List (Action Nat) :=
  [Action.get, Action.get, Action.put { ID := 0, Healthy := true }, Action.monitorTake,
   Action.get, Action.monitorSend]

/-- The state `demoActs` leads to from a fresh pool of size 2. -/
def demoRun : Option (System Nat) :=
  System.run leasedPut (System.init (NewPool 2 counterFactory fieldHealthCheck 0)) demoActs

/-- A run in which a caller hands `Put` a connection it never leased, between
the two halves of a monitor tick. -/
def foreignPutActs : List (Action Nat) :=
  [Action.monitorTake, Action.put { ID := 9, Healthy := true }]

/-- The state `foreignPutActs` leads to from a fresh pool of size 1. -/
def foreignPutRun : Option (System Nat) :=
  System.run anyPut (System.init (NewPool 1 counterFactory fieldHealthCheck 0)) foreignPutActs

/-- A run under the caller contract that stops between the two halves of a
monitor tick, after a release. -/
def midTickActs : List (Action Nat) :=
  [Action.get, Action.monitorTake, Action.put { ID := 0, Healthy := true }]

/-- The state `midTickActs` leads to from a fresh pool of size 2. -/
def midTickRun : Option (System Nat) :=
  System.run leasedPut (System.init (NewPool 2 counterFactory fieldHealthCheck 0)) midTickActs

/-! ## Reference notions the properties are stated with -/

/-- What `n` successive calls of the factory return, in call order, starting in
environment `e`. -/
def factoryResults {σ : Type} (factory : σ → Except String Connection × σ) :
    Nat → σ → List (Except String Connection)
  | 0, _ => []
  | n + 1, e => (factory e).1 :: factoryResults factory n (factory e).2

/-- The environment after `n` successive calls of the factory. -/
def envAfter {σ : Type} (factory : σ → Except String Connection × σ) : Nat → σ → σ
  | 0, e => e
  | n + 1, e => envAfter factory n (factory e).2

/-- The connections of the successful calls among some factory results. -/
def successes : List (Except String Connection) → List Connection
  | [] => []
  | Except.ok c :: rs => c :: successes rs
  | Except.error _ :: rs => successes rs

/-- The pool after `k` successive calls of `Get`, whatever they returned. -/
def getN {σ : Type} : Nat → World σ → World σ
  | 0, w => w
  | k + 1, w => getN k (Get w).2

/-- The events of a schedule that come before the deadline elapses. -/
def beforeDeadline (schedule : List Event) : List Event :=
  schedule.takeWhile (fun e => e != Event.deadline)

/-- A hook that succeeds. -/
def okHook : Hook := fun _ => none

/-- A hook that fails. -/
def failingHook : Hook := fun _ => some "flush failed"

/-- A handler with a succeeding and a failing hook registered, in that order. -/
def demoHandler : ShutdownHandler :=
  ((NewShutdownHandler 30).RegisterHook okHook).RegisterHook failingHook

/-- A handler with one hook, which fails. -/
def oneFailingHandler : ShutdownHandler :=
  (NewShutdownHandler 30).RegisterHook failingHook

/-- A process on `demoHandler`: a first `Wait` runs to graceful completion. -/
def firstWaitEvents : List ProcessEvent :=
  [ProcessEvent.signal, ProcessEvent.inSession 0 (Event.reachSelect Verdict.graceful),
   ProcessEvent.inSession 0 (Event.returns 0), ProcessEvent.inSession 0 (Event.returns 1),
   ProcessEvent.inSession 0 Event.closeDone, ProcessEvent.inSession 0 Event.closeErrChan,
   ProcessEvent.inSession 0 Event.logError]

/-- The same process when `Wait` is then called a second time and gets a signal. -/
def secondWaitEvents : List ProcessEvent :=
  firstWaitEvents ++ [ProcessEvent.signal]

/-- A process in which a hook is registered after the snapshot of a session. -/
def lateRegisterEvents : List ProcessEvent :=
  [ProcessEvent.signal, ProcessEvent.register okHook, ProcessEvent.inSession 0 (Event.returns 0)]

/-- Number of connections the monitor holds between its receive and its send. -/
def System.inFlight {σ : Type} (s : System σ) : Nat :=
  match s.held with
  | none => 0
  | some _ => 1

/-- All connections accounted for: idle, leased, or in the hands of the monitor. -/
def System.total {σ : Type} (s : System σ) : Nat :=
  s.world.pool.conns.length + s.leased.length + s.inFlight

/-- The hooks of a session of `n` hooks in the order in which they return during
a schedule, each with whether the context was done when it returned; `seen` are
the hooks that have returned already, `done` says whether the context is done. -/
def completionLog (n : Nat) : List Nat → Bool → List Event → List (Nat × Bool)
  | _, _, [] => []
  | seen, done, Event.returns i :: es =>
    if i < n ∧ i ∉ seen then (i, done) :: completionLog n (i :: seen) done es
    else completionLog n seen done es
  | seen, _, Event.deadline :: es => completionLog n seen true es
  | seen, done, Event.closeDone :: es => completionLog n seen done es
  | seen, done, Event.reachSelect _ :: es => completionLog n seen done es
  | seen, done, Event.closeErrChan :: es => completionLog n seen done es
  | seen, done, Event.logError :: es => completionLog n seen done es

/-- The errors of those of the logged hook returns that fail, in the order
logged. -/
def failuresOf (hooks : List Hook) (log : List (Nat × Bool)) : List String :=
  log.filterMap (fun r => (hooks[r.1]?).bind (fun fn => fn { done := r.2 }))

/-- The hook indices of the return events of a schedule, in schedule order. -/
def returnsOf : List Event → List Nat
  | [] => []
  | Event.returns i :: es => i :: returnsOf es
  | _ :: es => returnsOf es

/-- The hooks of a call of `Wait` on `h` in the order in which they return during
a schedule, each with whether the context was done when it returned. -/
def completionOrder (h : ShutdownHandler) (schedule : List Event) : List (Nat × Bool) :=
  completionLog h.hooks.length [] (decide (h.timeout ≤ 0)) schedule

/-- What holds of every state of a call of `Wait`: `done` is closed only when no
hook is running; a graceful verdict needs `done` closed and a forced one the
context done; a goroutine of `Wait` blocked in its `select` has no verdict and
neither channel is closed; `errChan` is closed only after the verdict; nothing
is logged and nothing panics before `errChan` is closed; the running indices are
indices of the snapshot. -/
def Session.sound (s : Session) : Prop :=
  (s.doneClosed = true → s.running = []) ∧
  (s.verdict = some Verdict.graceful → s.doneClosed = true) ∧
  (s.verdict = some Verdict.forced → s.ctxDone = true) ∧
  (s.inSelect = true → s.verdict = none ∧ s.doneClosed = false ∧ s.ctxDone = false) ∧
  (s.verdict = none → s.errChanClosed = false) ∧
  (s.errChanClosed = false → s.panicked = false ∧ s.reported = []) ∧
  (∀ i ∈ s.running, i < s.hooks.length)

/-- The control state of two calls of `Wait` agrees: the same verdict, and while
there is none the same hooks running, the same channels closed and the same
position of the goroutine of `Wait`. -/
def Session.sameControl (s t : Session) : Prop :=
  s.verdict = t.verdict ∧
  (s.verdict = none →
    s.running = t.running ∧ s.ctxDone = t.ctxDone ∧ s.doneClosed = t.doneClosed ∧
    s.inSelect = t.inSelect ∧ s.hooks.length = t.hooks.length)

/-! ## Pool: how each operation moves the channel -/

section PoolLemmas

variable {σ : Type}

theorem callFactory_pool (w : World σ) : (callFactory w).2.pool = w.pool := rfl

theorem callHealthCheck_pool (w : World σ) (c : Connection) :
    (callHealthCheck w c).2.pool = w.pool := rfl

theorem reconnect_world (w : World σ) : (reconnect w).2 = (callFactory w).2 := by
  unfold reconnect
  rcases h : callFactory w with ⟨r, w1⟩
  cases r <;> rfl

theorem Get_nil (w : World σ) (h : w.pool.conns = []) :
    Get w = (Except.error PoolError.timeout, w) := by
  unfold Get
  rw [h]

theorem Get_cons (w : World σ) (c : Connection) (rest : List Connection)
    (h : w.pool.conns = c :: rest) :
    Get w = if (callHealthCheck (w.setConns rest) c).1
      then (Except.ok c, (callHealthCheck (w.setConns rest) c).2)
      else reconnect (callHealthCheck (w.setConns rest) c).2 := by
  unfold Get
  rw [h]
  dsimp only
  rcases callHealthCheck (w.setConns rest) c with ⟨b, w1⟩
  cases b <;> rfl

theorem Get_maxSize (w : World σ) : (Get w).2.pool.maxSize = w.pool.maxSize := by
  cases h : w.pool.conns with
  | nil => rw [Get_nil w h]
  | cons c rest =>
    rw [Get_cons w c rest h]
    split
    · rfl
    · rw [reconnect_world]; rfl

theorem Get_conns (w : World σ) : (Get w).2.pool.conns = w.pool.conns.tail := by
  cases h : w.pool.conns with
  | nil => rw [Get_nil w h]; simp [h]
  | cons c rest =>
    rw [Get_cons w c rest h]
    split
    · rfl
    · rw [reconnect_world]; rfl

theorem Get_ok_nonempty (w : World σ) (c : Connection) (h : (Get w).1 = Except.ok c) :
    w.pool.conns ≠ [] := by
  intro h0
  rw [Get_nil w h0] at h
  cases h

theorem monitorTake_nil (w : World σ) (h : w.pool.conns = []) : monitorTake w = (w, none) := by
  unfold monitorTake
  rw [h]

theorem monitorTake_cons (w : World σ) (c : Connection) (rest : List Connection)
    (h : w.pool.conns = c :: rest) :
    monitorTake w = if (callHealthCheck (w.setConns rest) c).1
      then ((callHealthCheck (w.setConns rest) c).2, some c)
      else
        match (callFactory (callHealthCheck (w.setConns rest) c).2).1 with
        | Except.ok newConn => ((callFactory (callHealthCheck (w.setConns rest) c).2).2, some newConn)
        | Except.error _ => ((callFactory (callHealthCheck (w.setConns rest) c).2).2, none) := by
  unfold monitorTake
  rw [h]
  dsimp only
  rcases callHealthCheck (w.setConns rest) c with ⟨b, w1⟩
  cases b
  · dsimp only
    simp only [Bool.false_eq_true, if_false]
    rcases callFactory w1 with ⟨r, w2⟩
    cases r <;> rfl
  · rfl

theorem monitorTake_maxSize (w : World σ) : (monitorTake w).1.pool.maxSize = w.pool.maxSize := by
  cases h : w.pool.conns with
  | nil => rw [monitorTake_nil w h]
  | cons c rest =>
    rw [monitorTake_cons w c rest h]
    split
    · rfl
    · split <;> rfl

theorem monitorTake_conns (w : World σ) : (monitorTake w).1.pool.conns = w.pool.conns.tail := by
  cases h : w.pool.conns with
  | nil => rw [monitorTake_nil w h]; simp [h]
  | cons c rest =>
    rw [monitorTake_cons w c rest h]
    split
    · rfl
    · split <;> rfl

theorem monitorTake_some_nonempty (w : World σ) (c : Connection)
    (h : (monitorTake w).2 = some c) : w.pool.conns ≠ [] := by
  intro h0
  rw [monitorTake_nil w h0] at h
  cases h

theorem Put_maxSize (w : World σ) (c : Connection) (b : Bool) :
    (Put w c b).1.pool.maxSize = w.pool.maxSize := by
  unfold Put
  split
  · rfl
  · split <;> rfl

theorem Put_length_le (w : World σ) (c : Connection) (b : Bool) :
    (Put w c b).1.pool.conns.length ≤ w.pool.conns.length + 1 := by
  unfold Put
  split
  · simp
  · split
    · simp [World.setConns]
    · simp

theorem Put_length_le_maxSize (w : World σ) (c : Connection) (b : Bool)
    (h : w.pool.conns.length ≤ w.pool.maxSize) :
    (Put w c b).1.pool.conns.length ≤ w.pool.maxSize := by
  unfold Put
  split
  · exact h
  · split
    · simp [World.setConns]; omega
    · exact h

theorem Put_waiting (w : World σ) (c : Connection) : Put w c true = (w, some c) := by
  unfold Put
  rw [if_pos rfl]

theorem receiveCase_eq (w : World σ) (c : Connection) :
    receiveCase w c = if (callHealthCheck w c).1
      then (Except.ok c, (callHealthCheck w c).2)
      else reconnect (callHealthCheck w c).2 := by
  unfold receiveCase
  rcases callHealthCheck w c with ⟨b, w1⟩
  cases b <;> rfl

theorem receiveCase_pool (w : World σ) (c : Connection) : (receiveCase w c).2.pool = w.pool := by
  rw [receiveCase_eq]
  split
  · rfl
  · rw [reconnect_world]; rfl

theorem Get_cons_receiveCase (w : World σ) (c : Connection) (rest : List Connection)
    (h : w.pool.conns = c :: rest) : Get w = receiveCase (w.setConns rest) c := by
  rw [Get_cons w c rest h, receiveCase_eq]

end PoolLemmas

/-! ## Pool: seeding -/

section SeedLemmas

variable {σ : Type}

theorem successes_length_le (rs : List (Except String Connection)) :
    (successes rs).length ≤ rs.length := by
  induction rs with
  | nil => simp [successes]
  | cons r rs ih =>
    cases r with
    | ok c => simp [successes]; exact ih
    | error e => simp [successes]; omega

theorem factoryResults_length (factory : σ → Except String Connection × σ) (n : Nat) (e : σ) :
    (factoryResults factory n e).length = n := by
  induction n generalizing e with
  | zero => rfl
  | succ n ih => simp [factoryResults, ih]

theorem seed_succ (n : Nat) (w : World σ) :
    seed (n + 1) w =
      match (callFactory w).1 with
      | Except.ok conn => seed n ((callFactory w).2.setConns ((callFactory w).2.pool.conns ++ [conn]))
      | Except.error _ => seed n (callFactory w).2 := by
  rw [seed]
  rcases callFactory w with ⟨r, w1⟩
  cases r <;> rfl

theorem seed_spec (n : Nat) (w : World σ) :
    (seed n w).pool.conns = w.pool.conns ++ successes (factoryResults w.pool.factory n w.env) ∧
    (seed n w).calls = w.calls ++ (factoryResults w.pool.factory n w.env).map Call.factory ∧
    (seed n w).env = envAfter w.pool.factory n w.env ∧
    (seed n w).pool.maxSize = w.pool.maxSize ∧
    (seed n w).pool.factory = w.pool.factory ∧
    (seed n w).pool.healthCheck = w.pool.healthCheck := by
  induction n generalizing w with
  | zero => simp [seed, factoryResults, successes, envAfter]
  | succ n ih =>
    rw [seed_succ]
    cases h : (callFactory w).1 with
    | ok conn =>
      have h1 : (w.pool.factory w.env).1 = Except.ok conn := h
      obtain ⟨a, b, c, d, e, f⟩ :=
        ih ((callFactory w).2.setConns ((callFactory w).2.pool.conns ++ [conn]))
      refine ⟨?_, ?_, ?_, ?_, ?_, ?_⟩
      · rw [a]; simp [World.setConns, callFactory, factoryResults, h1, successes]
      · rw [b]; simp [World.setConns, callFactory, factoryResults, h1]
      · rw [c]; simp [World.setConns, callFactory, envAfter]
      · rw [d]; rfl
      · rw [e]; rfl
      · rw [f]; rfl
    | error e =>
      have h1 : (w.pool.factory w.env).1 = Except.error e := h
      obtain ⟨a, b, c, d, e, f⟩ := ih (callFactory w).2
      refine ⟨?_, ?_, ?_, ?_, ?_, ?_⟩
      · rw [a]; simp [callFactory, factoryResults, h1, successes]
      · rw [b]; simp [callFactory, factoryResults, h1]
      · rw [c]; simp [callFactory, envAfter]
      · rw [d]; rfl
      · rw [e]; rfl
      · rw [f]; rfl

theorem NewPool_maxSize (size : Nat) (factory : σ → Except String Connection × σ)
    (healthCheck : Connection → σ → Bool × σ) (env : σ) :
    (NewPool size factory healthCheck env).pool.maxSize = size :=
  (seed_spec size _).2.2.2.1

theorem NewPool_length_le (size : Nat) (factory : σ → Except String Connection × σ)
    (healthCheck : Connection → σ → Bool × σ) (env : σ) :
    (NewPool size factory healthCheck env).pool.conns.length ≤ size := by
  unfold NewPool
  rw [(seed_spec size _).1]
  have h1 := successes_length_le (factoryResults factory size env)
  rw [factoryResults_length] at h1
  simpa using h1

end SeedLemmas

/-! ## Pool: no step under the caller contract adds a connection -/

section SystemLemmas

variable {σ : Type}

theorem step_leasedPut_total (s s1 : System σ) (a : Action σ) (hok : leasedPut s a = true)
    (hs : s.step a = some s1) :
    s1.world.pool.maxSize = s.world.pool.maxSize ∧ s1.total ≤ s.total := by
  cases a with
  | get =>
    have hc := Get_conns s.world
    have hm := Get_maxSize s.world
    have hne := Get_ok_nonempty s.world
    simp only [System.step] at hs
    rcases hG : Get s.world with ⟨r, w⟩
    rw [hG] at hs hc hm hne
    cases r with
    | ok c =>
      simp only [Option.some.injEq] at hs
      subst hs
      have h0 := List.length_pos.mpr (hne c rfl)
      simp only [System.total, System.inFlight] at hc hm ⊢
      rw [hc, List.length_tail]
      refine ⟨hm, ?_⟩
      simp only [List.length_cons]
      omega
    | error e =>
      simp only [Option.some.injEq] at hs
      subst hs
      simp only [System.total, System.inFlight] at hc hm ⊢
      rw [hc, List.length_tail]
      refine ⟨hm, ?_⟩
      omega
  | put c =>
    simp only [System.step, Option.some.injEq] at hs
    subst hs
    have hmem : c ∈ s.leased := by simpa [leasedPut] using hok
    have h1 := Put_length_le s.world c false
    have h2 := List.length_erase_of_mem hmem
    have h3 := List.length_pos_of_mem hmem
    refine ⟨Put_maxSize s.world c false, ?_⟩
    simp only [System.total, System.inFlight]
    omega
  | putToWaiting c =>
    have hmem : c ∈ s.leased := by simpa [leasedPut] using hok
    have h2 := List.length_erase_of_mem hmem
    have h3 := List.length_pos_of_mem hmem
    have hp := receiveCase_pool s.world c
    simp only [System.step, Put_waiting] at hs
    split at hs
    · rcases hr : receiveCase s.world c with ⟨r, w1⟩
      rw [hr] at hs hp
      simp only at hp
      cases r with
      | ok d =>
        simp only [Option.some.injEq] at hs
        subst hs
        refine ⟨by rw [hp], ?_⟩
        simp only [System.total, System.inFlight, hp, List.length_cons]
        omega
      | error e =>
        simp only [Option.some.injEq] at hs
        subst hs
        refine ⟨by rw [hp], ?_⟩
        simp only [System.total, System.inFlight, hp]
        omega
    · cases hs
  | monitorTake =>
    have hc := monitorTake_conns s.world
    have hm := monitorTake_maxSize s.world
    have hne := monitorTake_some_nonempty s.world
    simp only [System.step] at hs
    cases hh : s.held with
    | some c => rw [hh] at hs; cases hs
    | none =>
      rw [hh] at hs
      simp only [Option.some.injEq] at hs
      subst hs
      refine ⟨hm, ?_⟩
      simp only [System.total, System.inFlight, hh]
      rw [hc, List.length_tail]
      cases h2 : (monitorTake s.world).2 with
      | none => simp only; omega
      | some c =>
        have h0 := List.length_pos.mpr (hne c h2)
        simp only
        omega
  | monitorSend =>
    simp only [System.step] at hs
    cases hh : s.held with
    | none => rw [hh] at hs; cases hs
    | some c =>
      rw [hh] at hs
      by_cases hlt : s.world.pool.conns.length < s.world.pool.maxSize
      · simp only [monitorSend, if_pos hlt, Option.some.injEq] at hs
        subst hs
        refine ⟨rfl, ?_⟩
        simp only [System.total, System.inFlight, hh, World.setConns, List.length_append,
          List.length_singleton]
        omega
      · simp only [monitorSend, if_neg hlt] at hs
        cases hs
  | env e =>
    simp only [System.step, Option.some.injEq] at hs
    subst hs
    exact ⟨rfl, le_refl _⟩

theorem run_leasedPut_total (acts : List (Action σ)) (s s1 : System σ)
    (h : System.run leasedPut s acts = some s1) :
    s1.world.pool.maxSize = s.world.pool.maxSize ∧ s1.total ≤ s.total := by
  induction acts generalizing s with
  | nil =>
    simp only [System.run, Option.some.injEq] at h
    subst h
    exact ⟨rfl, le_refl _⟩
  | cons a as ih =>
    simp only [System.run] at h
    split at h
    · rename_i hok
      cases hst : s.step a with
      | none => rw [hst] at h; cases h
      | some s2 =>
        rw [hst] at h
        have h1 := step_leasedPut_total s s2 a hok hst
        have h2 := ih s2 h
        exact ⟨h2.1.trans h1.1, le_trans h2.2 h1.2⟩
    · cases h

theorem init_total (w : World σ) : (System.init w).total = w.pool.conns.length := by
  simp [System.total, System.init, System.inFlight]

end SystemLemmas

/-! ## Pool: repeated `Get`, and counting successful factory calls -/

theorem getN_conns {σ : Type} (k : Nat) (w : World σ) :
    (getN k w).pool.conns = w.pool.conns.drop k := by
  induction k generalizing w with
  | zero => rfl
  | succ k ih =>
    rw [getN, ih, Get_conns]
    simp

theorem successes_all_error (rs : List (Except String Connection))
    (h : ∀ r ∈ rs, ∃ e, r = Except.error e) : successes rs = [] := by
  induction rs with
  | nil => rfl
  | cons r rs ih =>
    obtain ⟨e, he⟩ := h r (List.mem_cons_self r rs)
    subst he
    simp only [successes]
    exact ih (fun r hr => h r (List.mem_cons_of_mem _ hr))

theorem successes_length (rs : List (Except String Connection)) :
    (successes rs).length = (rs.filter Except.toBool).length := by
  induction rs with
  | nil => rfl
  | cons r rs ih =>
    cases r with
    | ok c => simp [successes, Except.toBool, ih]
    | error e => simp [successes, Except.toBool, ih]

/-! ## Shutdown: the verdict -/

theorem Session.sendErr_verdict (s : Session) (msg : String) :
    (s.sendErr msg).verdict = s.verdict := by
  unfold Session.sendErr
  split <;> rfl

theorem Session.step_verdict_some (s : Session) (e : Event) (v : Verdict)
    (h : s.verdict = some v) : (s.step e).verdict = some v := by
  cases e with
  | returns i =>
    simp only [Session.step]
    split
    · exact h
    · split
      · split
        · exact h
        · split
          · exact h
          · exact (Session.sendErr_verdict _ _).trans h
      · exact h
  | deadline =>
    simp only [Session.step, h]
    split <;> first | exact h | rfl
  | closeDone =>
    simp only [Session.step, h]
    split
    · exact h
    · split <;> first | exact h | rfl
  | reachSelect pick =>
    simp only [Session.step, h]
    split <;> exact h
  | closeErrChan =>
    simp only [Session.step, h]
    split <;> first | exact h | rfl
  | logError =>
    simp only [Session.step]
    split
    · exact h
    · split
      · split <;> exact h
      · exact h

theorem Session.foldl_verdict_some (es : List Event) (s : Session) (v : Verdict)
    (h : s.verdict = some v) : (es.foldl Session.step s).verdict = some v := by
  induction es generalizing s with
  | nil => exact h
  | cons e es ih => exact ih _ (Session.step_verdict_some s e v h)

theorem Session.start_sound (h : ShutdownHandler) : (Session.start h).sound := by
  refine ⟨?_, ?_, ?_, ?_, ?_, ?_, ?_⟩
  · intro h1; cases h1
  · intro h1; cases h1
  · intro h1; cases h1
  · intro h1; cases h1
  · intro _; rfl
  · intro _; exact ⟨rfl, rfl⟩
  · intro i hi
    exact List.mem_range.mp hi

theorem Session.step_sound (s : Session) (e : Event) (h : s.sound) : (s.step e).sound := by
  rcases s with ⟨hooks, running, ctxDone, doneClosed, inSelect, errChan, errChanClosed, verdict,
    reported, panicked⟩
  simp only [Session.sound] at h ⊢
  obtain ⟨h1, h2, h3, h4, h5, h6, h7⟩ := h
  cases e with
  | returns i =>
    simp only [Session.step]
    split
    · exact ⟨h1, h2, h3, h4, h5, h6, h7⟩
    · split
      · split
        · exact ⟨h1, h2, h3, h4, h5, h6, h7⟩
        · have hsub : ∀ j ∈ running.filter (fun j => j != i), j < hooks.length :=
            fun j hj => h7 j (List.mem_of_mem_filter hj)
          have hnil : doneClosed = true → running.filter (fun j => j != i) = [] := by
            intro hd
            rw [h1 hd]
            rfl
          split
          · exact ⟨hnil, h2, h3, h4, h5, h6, hsub⟩
          · cases errChanClosed with
            | true =>
              simp only [Session.sendErr, if_true]
              exact ⟨hnil, h2, h3, h4, h5, fun hc => (by cases hc), hsub⟩
            | false =>
              simp only [Session.sendErr, Bool.false_eq_true, if_false]
              exact ⟨hnil, h2, h3, h4, fun _ => trivial, fun _ => h6 rfl, hsub⟩
      · exact ⟨h1, h2, h3, h4, h5, h6, h7⟩
  | deadline =>
    simp only [Session.step]
    cases panicked <;> cases inSelect <;> rcases verdict with _ | v <;> simp_all
  | closeDone =>
    simp only [Session.step]
    cases panicked <;> cases doneClosed <;> cases inSelect <;> rcases verdict with _ | v <;>
      by_cases hr : running = [] <;> simp_all
  | reachSelect pick =>
    simp only [Session.step, Session.arrive]
    cases panicked <;> cases doneClosed <;> cases ctxDone <;> cases inSelect <;>
      rcases verdict with _ | v <;> simp_all
  | closeErrChan =>
    simp only [Session.step]
    cases panicked <;> rcases verdict with _ | v <;> simp_all
  | logError =>
    simp only [Session.step]
    cases panicked <;> cases errChanClosed <;> cases errChan <;> simp_all

theorem Session.foldl_sound (es : List Event) (s : Session) (h : s.sound) :
    (es.foldl Session.step s).sound := by
  induction es generalizing s with
  | nil => exact h
  | cons e es ih => exact ih _ (Session.step_sound s e h)

theorem Wait_sound (h : ShutdownHandler) (schedule : List Event) : (h.Wait schedule).sound :=
  Session.foldl_sound schedule _ (Session.start_sound h)

theorem Wait_append (h : ShutdownHandler) (pre es : List Event) :
    h.Wait (pre ++ es) = es.foldl Session.step (h.Wait pre) := by
  unfold ShutdownHandler.Wait
  rw [List.foldl_append]

theorem Session.sound_parked (s : Session) (h : s.sound) (hp : s.inSelect = true) :
    s.verdict = none ∧ s.doneClosed = false ∧ s.ctxDone = false ∧ s.errChanClosed = false ∧
      s.panicked = false := by
  obtain ⟨_, _, _, h4, h5, h6, _⟩ := h
  obtain ⟨hv, hd, hc⟩ := h4 hp
  exact ⟨hv, hd, hc, h5 hv, (h6 (h5 hv)).1⟩

theorem Session.step_returns_open (s : Session) (i : Nat) (hp : s.panicked = false)
    (hc : s.errChanClosed = false) (hi : i ∈ s.running) (hlt : i < s.hooks.length) :
    s.step (Event.returns i) =
      { s with running := s.running.filter (fun j => j != i),
               errChan := s.errChan ++ (s.hooks[i] { done := s.ctxDone }).toList } := by
  have hfn : s.hooks[i]? = some s.hooks[i] := List.getElem?_eq_getElem hlt
  simp only [Session.step, hp, hi, hfn, Bool.false_eq_true, if_false, if_true]
  cases s.hooks[i] { done := s.ctxDone } with
  | none => simp
  | some msg => simp [Session.sendErr, hc]

theorem Session.step_returns_absent (s : Session) (i : Nat) (hi : i ∉ s.running) :
    s.step (Event.returns i) = s := by
  simp only [Session.step, hi, if_false]
  split <;> rfl

theorem beforeDeadline_no_deadline (es : List Event) : Event.deadline ∉ beforeDeadline es := by
  intro h
  have := List.mem_takeWhile_imp h
  simp at this

theorem beforeDeadline_split (es : List Event) (h : Event.deadline ∈ es) :
    ∃ rest, es = beforeDeadline es ++ Event.deadline :: rest := by
  induction es with
  | nil => cases h
  | cons e es ih =>
    by_cases he : e = Event.deadline
    · refine ⟨es, ?_⟩
      rw [he]
      simp [beforeDeadline, List.takeWhile_cons]
    · have h1 : Event.deadline ∈ es := by
        rcases List.mem_cons.mp h with hh | hh
        · exact absurd hh.symm he
        · exact hh
      obtain ⟨rest, hrest⟩ := ih h1
      refine ⟨rest, ?_⟩
      have : beforeDeadline (e :: es) = e :: beforeDeadline es := by
        simp [beforeDeadline, List.takeWhile_cons, he]
      rw [this, List.cons_append, ← hrest]

theorem beforeDeadline_prefix (es : List Event) :
    ∃ rest, es = beforeDeadline es ++ rest :=
  ⟨es.dropWhile (fun e => e != Event.deadline), (List.takeWhile_append_dropWhile _ es).symm⟩

theorem Session.parked_deadline (s : Session) (h : s.sound) (hp : s.inSelect = true) :
    (s.step Event.deadline).verdict = some Verdict.forced := by
  obtain ⟨hv, _, _, _, hpan⟩ := Session.sound_parked s h hp
  simp [Session.step, hpan, hv, hp]

theorem Session.sameControl_of_verdict (s t : Session) (v : Verdict) (hs : s.verdict = some v)
    (ht : t.verdict = some v) : s.sameControl t :=
  ⟨hs.trans ht.symm, fun hn => by rw [hs] at hn; cases hn⟩

theorem Session.step_sameControl_open (s t : Session) (e : Event)
    (hne : ∀ i, e ≠ Event.returns i) (hv : s.verdict = none) (hvt : t.verdict = none)
    (hps : s.panicked = false) (hpt : t.panicked = false) (hcs : s.errChanClosed = false)
    (hct : t.errChanClosed = false) (hrun : s.running = t.running) (hctx : s.ctxDone = t.ctxDone)
    (hdone : s.doneClosed = t.doneClosed) (hsel : s.inSelect = t.inSelect)
    (hlen : s.hooks.length = t.hooks.length) : (s.step e).sameControl (t.step e) := by
  rcases s with ⟨hooks, running, ctxDone, doneClosed, inSelect, errChan, errChanClosed, verdict,
    reported, panicked⟩
  rcases t with ⟨hooks2, running2, ctxDone2, doneClosed2, inSelect2, errChan2, errChanClosed2,
    verdict2, reported2, panicked2⟩
  simp only at hv hvt hps hpt hcs hct hrun hctx hdone hsel hlen
  subst hv hvt hps hpt hcs hct hrun hctx hdone hsel
  cases e with
  | returns i => exact absurd rfl (hne i)
  | deadline =>
    cases inSelect <;> simp [Session.step, Session.sameControl, hlen]
  | closeDone =>
    by_cases hr : running = [] <;> cases inSelect <;> cases doneClosed <;>
      simp [Session.step, Session.sameControl, hlen, hr]
  | reachSelect pick =>
    cases inSelect <;> cases doneClosed <;> cases ctxDone <;>
      simp [Session.step, Session.arrive, Session.sameControl, hlen]
  | closeErrChan => simp [Session.step, Session.sameControl, hlen]
  | logError => simp [Session.step, Session.sameControl, hlen]

theorem Session.step_sameControl (s t : Session) (e : Event) (hs : s.sound) (ht : t.sound)
    (h : s.sameControl t) : (s.step e).sameControl (t.step e) := by
  cases hv : s.verdict with
  | some v =>
    exact Session.sameControl_of_verdict _ _ v (Session.step_verdict_some s e v hv)
      (Session.step_verdict_some t e v (h.1 ▸ hv))
  | none =>
    have hvt : t.verdict = none := h.1 ▸ hv
    obtain ⟨hrun, hctx, hdone, hsel, hlen⟩ := h.2 hv
    have hcs : s.errChanClosed = false := hs.2.2.2.2.1 hv
    have hct : t.errChanClosed = false := ht.2.2.2.2.1 hvt
    have hps : s.panicked = false := (hs.2.2.2.2.2.1 hcs).1
    have hpt : t.panicked = false := (ht.2.2.2.2.2.1 hct).1
    by_cases hret : ∃ i, e = Event.returns i
    · obtain ⟨i, rfl⟩ := hret
      by_cases hi : i ∈ s.running
      · have hit : i ∈ t.running := hrun ▸ hi
        rw [Session.step_returns_open s i hps hcs hi (hs.2.2.2.2.2.2 i hi),
          Session.step_returns_open t i hpt hct hit (ht.2.2.2.2.2.2 i hit)]
        exact ⟨h.1, fun _ => ⟨by simp only [hrun], hctx, hdone, hsel, hlen⟩⟩
      · have hit : i ∉ t.running := hrun ▸ hi
        rw [Session.step_returns_absent s i hi, Session.step_returns_absent t i hit]
        exact h
    · exact Session.step_sameControl_open s t e (fun i hh => hret ⟨i, hh⟩) hv hvt hps hpt hcs hct
        hrun hctx hdone hsel hlen

theorem Session.foldl_sameControl (es : List Event) (s t : Session) (hs : s.sound)
    (ht : t.sound) (h : s.sameControl t) :
    (es.foldl Session.step s).sameControl (es.foldl Session.step t) := by
  induction es generalizing s t with
  | nil => exact h
  | cons e es ih =>
    exact ih _ _ (Session.step_sound s e hs) (Session.step_sound t e ht)
      (Session.step_sameControl s t e hs ht h)

theorem Session.start_sameControl (h h2 : ShutdownHandler)
    (hlen : h2.hooks.length = h.hooks.length) (ht : h2.timeout = h.timeout) :
    (Session.start h2).sameControl (Session.start h) := by
  refine ⟨rfl, fun _ => ⟨?_, ?_, rfl, rfl, hlen⟩⟩
  · simp only [Session.start, hlen]
  · simp only [Session.start, ht]

theorem Wait_sameControl (h h2 : ShutdownHandler) (hlen : h2.hooks.length = h.hooks.length)
    (ht : h2.timeout = h.timeout) (schedule : List Event) :
    (h2.Wait schedule).sameControl (h.Wait schedule) :=
  Session.foldl_sameControl schedule _ _ (Session.start_sound h2) (Session.start_sound h)
    (Session.start_sameControl h h2 hlen ht)

/-! ## Shutdown: snapshots and sessions of a process -/

theorem Session.sendErr_hooks (s : Session) (msg : String) :
    (s.sendErr msg).hooks = s.hooks ∧ (s.sendErr msg).running = s.running := by
  unfold Session.sendErr
  split <;> exact ⟨rfl, rfl⟩

theorem Session.arrive_hooks (s : Session) (pick : Verdict) :
    (s.arrive pick).hooks = s.hooks ∧ (s.arrive pick).running = s.running := by
  unfold Session.arrive
  split <;> exact ⟨rfl, rfl⟩

theorem Session.step_hooks (s : Session) (e : Event) : (s.step e).hooks = s.hooks := by
  cases e with
  | returns i =>
    simp only [Session.step]
    split
    · rfl
    · split
      · split
        · rfl
        · split
          · rfl
          · exact (Session.sendErr_hooks _ _).1
      · rfl
  | deadline =>
    simp only [Session.step]
    split
    · rfl
    · split
      · split <;> rfl
      · rfl
  | closeDone =>
    simp only [Session.step]
    split
    · rfl
    · split
      · split
        · split <;> rfl
        · rfl
      · rfl
  | reachSelect pick =>
    simp only [Session.step]
    split
    · rfl
    · split
      · split
        · rfl
        · exact (Session.arrive_hooks s pick).1
      · rfl
  | closeErrChan =>
    simp only [Session.step]
    split
    · rfl
    · split <;> rfl
  | logError =>
    simp only [Session.step]
    split
    · rfl
    · split
      · split <;> rfl
      · rfl

theorem Session.step_running_sublist (s : Session) (e : Event) :
    (s.step e).running.Sublist s.running := by
  cases e with
  | returns i =>
    simp only [Session.step]
    split
    · exact List.Sublist.refl _
    · split
      · split
        · exact List.Sublist.refl _
        · split
          · exact List.filter_sublist _
          · rw [(Session.sendErr_hooks _ _).2]
            exact List.filter_sublist _
      · exact List.Sublist.refl _
  | deadline =>
    simp only [Session.step]
    split
    · exact List.Sublist.refl _
    · split
      · split <;> exact List.Sublist.refl _
      · exact List.Sublist.refl _
  | closeDone =>
    simp only [Session.step]
    split
    · exact List.Sublist.refl _
    · split
      · split
        · split <;> exact List.Sublist.refl _
        · exact List.Sublist.refl _
      · exact List.Sublist.refl _
  | reachSelect pick =>
    simp only [Session.step]
    split
    · exact List.Sublist.refl _
    · split
      · split
        · exact List.Sublist.refl _
        · rw [(Session.arrive_hooks s pick).2]
      · exact List.Sublist.refl _
  | closeErrChan =>
    simp only [Session.step]
    split
    · exact List.Sublist.refl _
    · split <;> exact List.Sublist.refl _
  | logError =>
    simp only [Session.step]
    split
    · exact List.Sublist.refl _
    · split
      · split <;> exact List.Sublist.refl _
      · exact List.Sublist.refl _

theorem Session.foldl_hooks (es : List Event) (s : Session) :
    (es.foldl Session.step s).hooks = s.hooks := by
  induction es generalizing s with
  | nil => rfl
  | cons e es ih => rw [List.foldl_cons, ih, Session.step_hooks]

theorem Session.foldl_running_sublist (es : List Event) (s : Session) :
    (es.foldl Session.step s).running.Sublist s.running := by
  induction es generalizing s with
  | nil => exact List.Sublist.refl _
  | cons e es ih =>
    rw [List.foldl_cons]
    exact (ih _).trans (Session.step_running_sublist s e)

theorem Session.start_hooks (h : ShutdownHandler) : (Session.start h).hooks = h.hooks := rfl

theorem Session.start_running (h : ShutdownHandler) :
    (Session.start h).running = List.range h.hooks.length := rfl

theorem modifyAt_length {α : Type} (f : α → α) (k : Nat) (l : List α) :
    (modifyAt f k l).length = l.length := by
  induction l generalizing k with
  | nil => cases k <;> rfl
  | cons a l ih =>
    cases k with
    | zero => rfl
    | succ k => simp [modifyAt, ih]

theorem modifyAt_getElem? {α : Type} (f : α → α) (k j : Nat) (l : List α) :
    (modifyAt f k l)[j]? = if j = k then (l[j]?).map f else l[j]? := by
  induction l generalizing k j with
  | nil => cases k <;> simp [modifyAt]
  | cons a l ih =>
    cases k with
    | zero =>
      cases j with
      | zero => simp [modifyAt]
      | succ j => simp [modifyAt]
    | succ k =>
      cases j with
      | zero => simp [modifyAt]
      | succ j => simp [modifyAt, ih]

theorem Process.step_sessions_length (p : Process) (ev : ProcessEvent) :
    p.sessions.length ≤ (p.step ev).sessions.length := by
  cases ev with
  | register hook => exact le_refl _
  | signal => simp [Process.step]
  | inSession k e => simp [Process.step, modifyAt_length]

theorem Process.step_snapshot (p : Process) (ev : ProcessEvent) (k : Nat)
    (hk : k < p.sessions.length) :
    ((p.step ev).sessions[k]?).map Session.hooks = (p.sessions[k]?).map Session.hooks := by
  cases ev with
  | register hook => rfl
  | signal =>
    simp only [Process.step]
    rw [List.getElem?_append_left hk]
  | inSession j e =>
    simp only [Process.step, modifyAt_getElem?]
    split
    · rw [Option.map_map]
      congr 1
      funext s
      exact Session.step_hooks s e
    · rfl

theorem Process.run_sessions_length (evs : List ProcessEvent) (p : Process) :
    p.sessions.length ≤ (p.run evs).sessions.length := by
  induction evs generalizing p with
  | nil => exact le_refl _
  | cons ev evs ih =>
    exact le_trans (Process.step_sessions_length p ev) (ih (p.step ev))

theorem Process.run_snapshot (evs : List ProcessEvent) (p : Process) (k : Nat)
    (hk : k < p.sessions.length) :
    ((p.run evs).sessions[k]?).map Session.hooks = (p.sessions[k]?).map Session.hooks := by
  induction evs generalizing p with
  | nil => rfl
  | cons ev evs ih =>
    have h1 := ih (p.step ev) (lt_of_lt_of_le hk (Process.step_sessions_length p ev))
    exact h1.trans (Process.step_snapshot p ev k hk)

theorem registered_hooks (h : ShutdownHandler) (hs : List Hook) :
    (hs.foldl ShutdownHandler.RegisterHook h).hooks = h.hooks ++ hs := by
  induction hs generalizing h with
  | nil => simp
  | cons a hs ih =>
    rw [List.foldl_cons, ih]
    simp [ShutdownHandler.RegisterHook]

theorem Session.phase_ne_idle (s : Session) : s.phase ≠ Phase.idle := by
  unfold Session.phase
  split <;> simp

theorem Process.phase_idle_iff (p : Process) : p.phase = Phase.idle ↔ p.sessions = [] := by
  unfold Process.phase
  cases h : p.sessions.getLast? with
  | none =>
    simp only [true_iff]
    exact List.getLast?_eq_none_iff.mp h
  | some s =>
    simp only [Session.phase_ne_idle, false_iff]
    intro h0
    rw [h0] at h
    simp at h

/-! ## Shutdown: the error channel and the verdict along a schedule -/

theorem Session.step_errChanClosed (s : Session) (e : Event) (h : s.errChanClosed = true) :
    (s.step e).errChanClosed = true := by
  rcases s with ⟨hooks, running, ctxDone, doneClosed, inSelect, errChan, errChanClosed, verdict,
    reported, panicked⟩
  simp only at h
  subst h
  cases e with
  | returns i =>
    simp only [Session.step]
    split
    · rfl
    · split
      · split
        · rfl
        · split
          · rfl
          · simp [Session.sendErr]
      · rfl
  | deadline =>
    simp only [Session.step]
    cases panicked <;> cases inSelect <;> rcases verdict with _ | v <;> simp
  | closeDone =>
    simp only [Session.step]
    split
    · rfl
    · split
      · cases inSelect <;> rcases verdict with _ | v <;> simp
      · rfl
  | reachSelect pick =>
    simp only [Session.step, Session.arrive]
    cases panicked <;> cases doneClosed <;> cases ctxDone <;> cases inSelect <;>
      rcases verdict with _ | v <;> simp
  | closeErrChan =>
    simp only [Session.step]
    cases panicked <;> rcases verdict with _ | v <;> simp
  | logError =>
    simp only [Session.step]
    cases panicked <;> cases errChan <;> simp

theorem Session.foldl_errChanClosed (es : List Event) (s : Session)
    (h : s.errChanClosed = true) : (es.foldl Session.step s).errChanClosed = true := by
  induction es generalizing s with
  | nil => exact h
  | cons e es ih => exact ih _ (Session.step_errChanClosed s e h)

theorem Session.open_of_foldl_open (es : List Event) (s : Session)
    (h : (es.foldl Session.step s).errChanClosed = false) : s.errChanClosed = false := by
  cases hc : s.errChanClosed with
  | false => rfl
  | true => rw [Session.foldl_errChanClosed es s hc] at h; cases h

theorem Session.step_closed_log (s : Session) (e : Event) (h : s.errChanClosed = true) :
    (s.step e).reported ++ (s.step e).errChan = s.reported ++ s.errChan := by
  rcases s with ⟨hooks, running, ctxDone, doneClosed, inSelect, errChan, errChanClosed, verdict,
    reported, panicked⟩
  simp only at h
  subst h
  cases e with
  | returns i =>
    simp only [Session.step]
    split
    · rfl
    · split
      · split
        · rfl
        · split
          · rfl
          · simp [Session.sendErr]
      · rfl
  | deadline =>
    simp only [Session.step]
    cases panicked <;> cases inSelect <;> rcases verdict with _ | v <;> simp
  | closeDone =>
    simp only [Session.step]
    split
    · rfl
    · split
      · cases inSelect <;> rcases verdict with _ | v <;> simp
      · rfl
  | reachSelect pick =>
    simp only [Session.step, Session.arrive]
    cases panicked <;> cases doneClosed <;> cases ctxDone <;> cases inSelect <;>
      rcases verdict with _ | v <;> simp
  | closeErrChan =>
    simp only [Session.step]
    cases panicked <;> rcases verdict with _ | v <;> simp
  | logError =>
    simp only [Session.step]
    cases panicked <;> cases errChan <;> simp

theorem Session.foldl_closed_log (es : List Event) (s : Session) (h : s.errChanClosed = true) :
    (es.foldl Session.step s).reported ++ (es.foldl Session.step s).errChan =
      s.reported ++ s.errChan := by
  induction es generalizing s with
  | nil => rfl
  | cons e es ih =>
    rw [List.foldl_cons, ih _ (Session.step_errChanClosed s e h), Session.step_closed_log s e h]

theorem Session.step_frame (s : Session) (e : Event) (hne : ∀ i, e ≠ Event.returns i)
    (hc : s.errChanClosed = false) (hp : s.panicked = false) :
    (s.step e).hooks = s.hooks ∧ (s.step e).running = s.running ∧
      (s.step e).errChan = s.errChan ∧
      (s.step e).ctxDone = (s.ctxDone || decide (e = Event.deadline)) := by
  rcases s with ⟨hooks, running, ctxDone, doneClosed, inSelect, errChan, errChanClosed, verdict,
    reported, panicked⟩
  simp only at hc hp
  subst hc hp
  cases e with
  | returns i => exact absurd rfl (hne i)
  | deadline =>
    simp only [Session.step]
    cases inSelect <;> rcases verdict with _ | v <;> simp
  | closeDone =>
    simp only [Session.step]
    by_cases hr : running = [] <;> cases doneClosed <;> cases inSelect <;>
      rcases verdict with _ | v <;> simp [hr]
  | reachSelect pick =>
    simp only [Session.step, Session.arrive]
    cases doneClosed <;> cases ctxDone <;> cases inSelect <;>
      rcases verdict with _ | v <;> simp
  | closeErrChan =>
    simp only [Session.step]
    rcases verdict with _ | v <;> simp
  | logError =>
    simp [Session.step]

theorem failuresOf_nil (hooks : List Hook) : failuresOf hooks [] = [] := rfl

theorem failuresOf_cons (hooks : List Hook) (i : Nat) (d : Bool) (log : List (Nat × Bool))
    (hlt : i < hooks.length) :
    failuresOf hooks ((i, d) :: log) = (hooks[i] { done := d }).toList ++ failuresOf hooks log := by
  have hfn : hooks[i]? = some hooks[i] := List.getElem?_eq_getElem hlt
  unfold failuresOf
  rw [List.filterMap_cons]
  simp only [hfn, Option.bind_some]
  rcases hres : hooks[i] { done := d } with _ | msg <;> simp [hres]

theorem completionLog_skip (n : Nat) (seen : List Nat) (done : Bool) (e : Event)
    (es : List Event) (hne : ∀ i, e ≠ Event.returns i) :
    completionLog n seen done (e :: es) =
      completionLog n seen (done || decide (e = Event.deadline)) es := by
  cases e with
  | returns i => exact absurd rfl (hne i)
  | deadline => simp [completionLog]
  | closeDone => simp [completionLog]
  | reachSelect pick => simp [completionLog]
  | closeErrChan => simp [completionLog]
  | logError => simp [completionLog]

theorem Session.foldl_sent (p : List Event) (s : Session) (seen : List Nat) (hs : s.sound)
    (hseen : ∀ i, i < s.hooks.length → (i ∈ s.running ↔ i ∉ seen))
    (hopen : (p.foldl Session.step s).errChanClosed = false) :
    (p.foldl Session.step s).errChan =
        s.errChan ++ failuresOf s.hooks (completionLog s.hooks.length seen s.ctxDone p) ∧
      ∀ i, i < s.hooks.length →
        (i ∈ (p.foldl Session.step s).running ↔
          i ∉ seen ∧ i ∉ (completionLog s.hooks.length seen s.ctxDone p).map Prod.fst) := by
  induction p generalizing s seen with
  | nil =>
    refine ⟨by simp [completionLog, failuresOf], ?_⟩
    intro i hi
    simp [completionLog, hseen i hi]
  | cons e p ih =>
    rw [List.foldl_cons] at hopen ⊢
    have hc1 : (s.step e).errChanClosed = false := Session.open_of_foldl_open p _ hopen
    have hc : s.errChanClosed = false := by
      cases hcc : s.errChanClosed with
      | false => rfl
      | true => rw [Session.step_errChanClosed s e hcc] at hc1; cases hc1
    have hpan : s.panicked = false := (hs.2.2.2.2.2.1 hc).1
    have hs1 : (s.step e).sound := Session.step_sound s e hs
    by_cases hret : ∃ i, e = Event.returns i
    · obtain ⟨i, rfl⟩ := hret
      by_cases hi : i ∈ s.running
      · have hlt : i < s.hooks.length := hs.2.2.2.2.2.2 i hi
        have hns : i ∉ seen := (hseen i hlt).mp hi
        have hstep := Session.step_returns_open s i hpan hc hi hlt
        have hseen1 : ∀ j, j < (s.step (Event.returns i)).hooks.length →
            (j ∈ (s.step (Event.returns i)).running ↔ j ∉ i :: seen) := by
          intro j hj
          rw [hstep] at hj ⊢
          simp only at hj ⊢
          rw [List.mem_filter, hseen j hj]
          simp [List.mem_cons, not_or, and_comm]
        obtain ⟨h1, h2⟩ := ih (s.step (Event.returns i)) (i :: seen) hs1 hseen1 hopen
        have hlog : completionLog s.hooks.length seen s.ctxDone (Event.returns i :: p) =
            (i, s.ctxDone) :: completionLog s.hooks.length (i :: seen) s.ctxDone p := by
          simp [completionLog, hlt, hns]
        rw [hlog, failuresOf_cons _ _ _ _ hlt]
        refine ⟨?_, ?_⟩
        · rw [h1, hstep]
          simp only [List.append_assoc]
        · intro j hj
          have := h2 j (by rw [hstep]; exact hj)
          rw [this, hstep]
          simp only [List.mem_cons, not_or, List.map_cons]
          tauto
      · have hstep := Session.step_returns_absent s i hi
        have hlog : completionLog s.hooks.length seen s.ctxDone (Event.returns i :: p) =
            completionLog s.hooks.length seen s.ctxDone p := by
          have : ¬ (i < s.hooks.length ∧ i ∉ seen) := by
            intro hh
            exact hi ((hseen i hh.1).mpr hh.2)
          simp [completionLog, this]
        rw [hlog]
        rw [hstep] at hopen ⊢
        exact ih s seen hs hseen hopen
    · have hne : ∀ i, e ≠ Event.returns i := fun i hh => hret ⟨i, hh⟩
      obtain ⟨hh, hr, he, hx⟩ := Session.step_frame s e hne hc hpan
      have hseen1 : ∀ j, j < (s.step e).hooks.length → (j ∈ (s.step e).running ↔ j ∉ seen) := by
        intro j hj
        rw [hh] at hj
        rw [hr]
        exact hseen j hj
      obtain ⟨h1, h2⟩ := ih (s.step e) seen hs1 hseen1 hopen
      rw [completionLog_skip _ _ _ _ _ hne]
      rw [hh, he, hx] at h1
      refine ⟨h1, ?_⟩
      intro j hj
      have := h2 j (by rw [hh]; exact hj)
      rw [hh, hx] at this
      exact this

theorem completionLog_mem (n : Nat) (es : List Event) (seen : List Nat) (done : Bool) (i : Nat)
    (h : i ∈ (completionLog n seen done es).map Prod.fst) :
    i < n ∧ i ∉ seen ∧ Event.returns i ∈ es := by
  induction es generalizing seen done with
  | nil => simp [completionLog] at h
  | cons e es ih =>
    by_cases hret : ∃ j, e = Event.returns j
    · obtain ⟨j, rfl⟩ := hret
      by_cases hc : j < n ∧ j ∉ seen
      · simp only [completionLog, hc, and_self, if_true, List.map_cons, List.mem_cons, not_false_eq_true] at h
        rcases h with h | h
        · subst h
          exact ⟨hc.1, hc.2, List.mem_cons_self _ _⟩
        · obtain ⟨h1, h2, h3⟩ := ih (j :: seen) done h
          exact ⟨h1, fun hh => h2 (List.mem_cons_of_mem _ hh), List.mem_cons_of_mem _ h3⟩
      · simp only [completionLog, hc, if_false] at h
        obtain ⟨h1, h2, h3⟩ := ih seen done h
        exact ⟨h1, h2, List.mem_cons_of_mem _ h3⟩
    · rw [completionLog_skip _ _ _ _ _ (fun j hh => hret ⟨j, hh⟩)] at h
      obtain ⟨h1, h2, h3⟩ := ih seen _ h
      exact ⟨h1, h2, List.mem_cons_of_mem _ h3⟩

theorem completionLog_nodup (n : Nat) (es : List Event) (seen : List Nat) (done : Bool) :
    ((completionLog n seen done es).map Prod.fst).Nodup := by
  induction es generalizing seen done with
  | nil => simp [completionLog]
  | cons e es ih =>
    by_cases hret : ∃ j, e = Event.returns j
    · obtain ⟨j, rfl⟩ := hret
      by_cases hc : j < n ∧ j ∉ seen
      · simp only [completionLog, hc, and_self, if_true, List.map_cons, List.nodup_cons, not_false_eq_true]
        refine ⟨?_, ih _ _⟩
        intro hmem
        exact (completionLog_mem n es (j :: seen) done j hmem).2.1 (List.mem_cons_self _ _)
      · simp only [completionLog, hc, if_false]
        exact ih _ _
    · rw [completionLog_skip _ _ _ _ _ (fun j hh => hret ⟨j, hh⟩)]
      exact ih _ _

theorem completionLog_complete (n : Nat) (es : List Event) (seen : List Nat) (done : Bool)
    (i : Nat) (hlt : i < n) (hns : i ∉ seen) (hmem : Event.returns i ∈ es) :
    i ∈ (completionLog n seen done es).map Prod.fst := by
  induction es generalizing seen done with
  | nil => cases hmem
  | cons e es ih =>
    by_cases hret : ∃ j, e = Event.returns j
    · obtain ⟨j, rfl⟩ := hret
      by_cases hij : i = j
      · subst hij
        simp [completionLog, hlt, hns]
      · have hmem1 : Event.returns i ∈ es := by
          rcases List.mem_cons.mp hmem with hh | hh
          · injection hh with h1
            exact absurd h1 hij
          · exact hh
        by_cases hc : j < n ∧ j ∉ seen
        · simp only [completionLog, hc, and_self, if_true, List.map_cons, List.mem_cons, not_false_eq_true]
          right
          exact ih (j :: seen) done (by simp [hij, hns]) hmem1
        · simp only [completionLog, hc, if_false]
          exact ih seen done hns hmem1
    · rw [completionLog_skip _ _ _ _ _ (fun j hh => hret ⟨j, hh⟩)]
      have hmem1 : Event.returns i ∈ es := by
        rcases List.mem_cons.mp hmem with hh | hh
        · exact absurd hh.symm (fun h2 => hret ⟨i, h2⟩)
        · exact hh
      exact ih seen _ hns hmem1

theorem returnsOf_skip (e : Event) (es : List Event) (hne : ∀ i, e ≠ Event.returns i) :
    returnsOf (e :: es) = returnsOf es := by
  cases e with
  | returns i => exact absurd rfl (hne i)
  | deadline => rfl
  | closeDone => rfl
  | reachSelect pick => rfl
  | closeErrChan => rfl
  | logError => rfl

theorem completionLog_sublist (n : Nat) (es : List Event) (seen : List Nat) (done : Bool) :
    ((completionLog n seen done es).map Prod.fst).Sublist (returnsOf es) := by
  induction es generalizing seen done with
  | nil => simp [completionLog, returnsOf]
  | cons e es ih =>
    by_cases hret : ∃ j, e = Event.returns j
    · obtain ⟨j, rfl⟩ := hret
      by_cases hc : j < n ∧ j ∉ seen
      · simp only [completionLog, hc, and_self, if_true, List.map_cons, returnsOf, not_false_eq_true]
        exact (ih _ _).cons₂ j
      · simp only [completionLog, hc, if_false, returnsOf]
        exact (ih _ _).cons j
    · rw [completionLog_skip _ _ _ _ _ (fun j hh => hret ⟨j, hh⟩),
        returnsOf_skip _ _ (fun j hh => hret ⟨j, hh⟩)]
      exact ih _ _

theorem Session.step_ctxDone (s : Session) (e : Event) (he : e ≠ Event.deadline) :
    (s.step e).ctxDone = s.ctxDone := by
  rcases s with ⟨hooks, running, ctxDone, doneClosed, inSelect, errChan, errChanClosed, verdict,
    reported, panicked⟩
  cases e with
  | deadline => exact absurd rfl he
  | returns i =>
    simp only [Session.step]
    split
    · rfl
    · split
      · split
        · rfl
        · split
          · rfl
          · simp only [Session.sendErr]
            split <;> rfl
      · rfl
  | closeDone =>
    simp only [Session.step]
    split
    · rfl
    · split
      · cases inSelect <;> rcases verdict with _ | v <;> simp
      · rfl
  | reachSelect pick =>
    simp only [Session.step, Session.arrive]
    cases panicked <;> cases doneClosed <;> cases ctxDone <;> cases inSelect <;>
      rcases verdict with _ | v <;> simp
  | closeErrChan =>
    simp only [Session.step]
    cases panicked <;> rcases verdict with _ | v <;> simp
  | logError =>
    simp only [Session.step]
    cases panicked <;> cases errChanClosed <;> cases errChan <;> simp

theorem Session.step_doneClosed (s : Session) (e : Event) (h : s.doneClosed = true) :
    (s.step e).doneClosed = true := by
  rcases s with ⟨hooks, running, ctxDone, doneClosed, inSelect, errChan, errChanClosed, verdict,
    reported, panicked⟩
  simp only at h
  subst h
  cases e with
  | deadline =>
    simp only [Session.step]
    cases panicked <;> cases inSelect <;> rcases verdict with _ | v <;> simp
  | returns i =>
    simp only [Session.step]
    split
    · rfl
    · split
      · split
        · rfl
        · split
          · rfl
          · simp only [Session.sendErr]
            split <;> rfl
      · rfl
  | closeDone =>
    simp [Session.step]
  | reachSelect pick =>
    simp only [Session.step, Session.arrive]
    cases panicked <;> cases ctxDone <;> cases inSelect <;>
      rcases verdict with _ | v <;> simp
  | closeErrChan =>
    simp only [Session.step]
    cases panicked <;> rcases verdict with _ | v <;> simp
  | logError =>
    simp only [Session.step]
    cases panicked <;> cases errChanClosed <;> cases errChan <;> simp

theorem Session.foldl_doneClosed (es : List Event) (s : Session) (h : s.doneClosed = true) :
    (es.foldl Session.step s).doneClosed = true := by
  induction es generalizing s with
  | nil => exact h
  | cons e es ih => exact ih _ (Session.step_doneClosed s e h)

theorem Session.step_running_subset (s : Session) (e : Event) :
    ∀ j ∈ (s.step e).running, j ∈ s.running := by
  intro j hj
  exact (Session.step_running_sublist s e).subset hj

theorem Session.step_running_keep (s : Session) (e : Event) (i : Nat) (hi : i ∈ s.running)
    (he : e ≠ Event.returns i) : i ∈ (s.step e).running := by
  rcases s with ⟨hooks, running, ctxDone, doneClosed, inSelect, errChan, errChanClosed, verdict,
    reported, panicked⟩
  simp only at hi
  cases e with
  | returns k =>
    have hki : i ≠ k := fun hh => he (by rw [hh])
    have hf : i ∈ running.filter (fun j => j != k) :=
      List.mem_filter.mpr ⟨hi, by simpa using hki⟩
    simp only [Session.step]
    split
    · exact hi
    · split
      · split
        · exact hi
        · split
          · exact hf
          · simp only [Session.sendErr]
            split <;> exact hf
      · exact hi
  | deadline =>
    simp only [Session.step]
    cases panicked <;> cases inSelect <;> rcases verdict with _ | v <;> simpa using hi
  | closeDone =>
    have hr : running ≠ [] := List.ne_nil_of_mem hi
    simp only [Session.step, hr, false_and, if_false]
    split <;> exact hi
  | reachSelect pick =>
    simp only [Session.step, Session.arrive]
    cases panicked <;> cases doneClosed <;> cases ctxDone <;> cases inSelect <;>
      rcases verdict with _ | v <;> simpa using hi
  | closeErrChan =>
    simp only [Session.step]
    cases panicked <;> rcases verdict with _ | v <;> simpa using hi
  | logError =>
    simp only [Session.step]
    cases panicked <;> cases errChanClosed <;> cases errChan <;> simpa using hi

theorem Session.foldl_running_keep (p : List Event) (s : Session) (i : Nat) (hi : i ∈ s.running)
    (hp : Event.returns i ∉ p) : i ∈ (p.foldl Session.step s).running := by
  induction p generalizing s with
  | nil => exact hi
  | cons e p ih =>
    exact ih _ (Session.step_running_keep s e i hi (fun hh => hp (hh ▸ List.mem_cons_self _ _)))
      (fun hh => hp (List.mem_cons_of_mem _ hh))

theorem Session.calm_verdict (s : Session) (h : s.sound) (hx : s.ctxDone = false)
    (v : Verdict) (hv : s.verdict = some v) : v = Verdict.graceful ∧ s.running = [] := by
  cases v with
  | graceful => exact ⟨rfl, h.1 (h.2.1 hv)⟩
  | forced =>
    have := h.2.2.1 hv
    rw [hx] at this
    cases this

theorem Session.calm_panicked (s : Session) (h : s.sound) (hx : s.ctxDone = false)
    (hp : s.panicked = true) : s.running = [] := by
  have hc : s.errChanClosed = true := by
    cases hcc : s.errChanClosed with
    | true => rfl
    | false => rw [(h.2.2.2.2.2.1 hcc).1] at hp; cases hp
  cases hv : s.verdict with
  | none => rw [h.2.2.2.2.1 hv] at hc; cases hc
  | some v => exact (Session.calm_verdict s h hx v hv).2

theorem Session.calm_step_running (s : Session) (e : Event) (h : s.sound)
    (hx : s.ctxDone = false) :
    ∀ j ∈ (s.step e).running, j ∈ s.running ∧ e ≠ Event.returns j := by
  intro j hj
  have hjs : j ∈ s.running := Session.step_running_subset s e j hj
  refine ⟨hjs, ?_⟩
  intro he
  subst he
  have hpan : s.panicked = false := by
    cases hp : s.panicked with
    | false => rfl
    | true =>
      rw [Session.calm_panicked s h hx hp] at hjs
      cases hjs
  have hstep : (s.step (Event.returns j)).running = s.running.filter (fun k => k != j) := by
    have hlt : j < s.hooks.length := h.2.2.2.2.2.2 j hjs
    have hfn : s.hooks[j]? = some s.hooks[j] := List.getElem?_eq_getElem hlt
    simp only [Session.step, hpan, hjs, hfn, Bool.false_eq_true, if_false, if_true]
    split
    · rfl
    · simp only [Session.sendErr]
      split <;> rfl
  rw [hstep] at hj
  simp at hj

theorem Session.calm_foldl (p : List Event) (s : Session) (h : s.sound)
    (hx : s.ctxDone = false) (hnd : Event.deadline ∉ p) :
    (p.foldl Session.step s).ctxDone = false ∧
      ∀ j ∈ (p.foldl Session.step s).running, j ∈ s.running ∧ Event.returns j ∉ p := by
  induction p generalizing s with
  | nil => exact ⟨hx, fun j hj => ⟨hj, by simp⟩⟩
  | cons e p ih =>
    have he : e ≠ Event.deadline := fun hh => hnd (hh ▸ List.mem_cons_self _ _)
    have hx1 : (s.step e).ctxDone = false := (Session.step_ctxDone s e he).trans hx
    obtain ⟨h1, h2⟩ := ih (s.step e) (Session.step_sound s e h) hx1
      (fun hh => hnd (List.mem_cons_of_mem _ hh))
    refine ⟨h1, ?_⟩
    intro j hj
    obtain ⟨hj1, hj2⟩ := h2 j hj
    obtain ⟨hj3, hj4⟩ := Session.calm_step_running s e h hx j hj1
    refine ⟨hj3, ?_⟩
    intro hmem
    rcases List.mem_cons.mp hmem with hm | hm
    · exact hj4 hm.symm
    · exact hj2 hm

theorem Session.calm_closeDone (s : Session) (h : s.sound) (hx : s.ctxDone = false)
    (hr : s.running = []) : (s.step Event.closeDone).doneClosed = true := by
  cases hd : s.doneClosed with
  | true => exact Session.step_doneClosed s _ hd
  | false =>
    cases hp : s.panicked with
    | true =>
      have hc : s.errChanClosed = true := by
        cases hcc : s.errChanClosed with
        | true => rfl
        | false => rw [(h.2.2.2.2.2.1 hcc).1] at hp; cases hp
      cases hv : s.verdict with
      | none => rw [h.2.2.2.2.1 hv] at hc; cases hc
      | some v =>
        have hg := (Session.calm_verdict s h hx v hv).1
        subst hg
        rw [h.2.1 hv] at hd
        cases hd
    | false =>
      simp only [Session.step, hp, hr, hd, and_self, Bool.false_eq_true, if_false, if_true]
      split
      · split <;> rfl
      · rfl

theorem Session.step_reachSelect_arrived (s : Session) (pick : Verdict) (h : s.sound) :
    (s.step (Event.reachSelect pick)).inSelect = true ∨
      (s.step (Event.reachSelect pick)).verdict.isSome = true := by
  rcases s with ⟨hooks, running, ctxDone, doneClosed, inSelect, errChan, errChanClosed, verdict,
    reported, panicked⟩
  simp only [Session.sound] at h
  simp only [Session.step, Session.arrive]
  cases panicked <;> cases doneClosed <;> cases ctxDone <;> cases inSelect <;>
    cases errChanClosed <;> rcases verdict with _ | v <;> simp_all

theorem Session.step_arrived (s : Session) (e : Event)
    (h : s.inSelect = true ∨ s.verdict.isSome = true) :
    (s.step e).inSelect = true ∨ (s.step e).verdict.isSome = true := by
  rcases h with h | h
  · rcases s with ⟨hooks, running, ctxDone, doneClosed, inSelect, errChan, errChanClosed,
      verdict, reported, panicked⟩
    simp only at h
    subst h
    cases e with
    | returns i =>
      simp only [Session.step]
      split
      · exact Or.inl rfl
      · split
        · split
          · exact Or.inl rfl
          · split
            · exact Or.inl rfl
            · simp only [Session.sendErr]
              split <;> exact Or.inl rfl
        · exact Or.inl rfl
    | deadline =>
      simp only [Session.step]
      cases panicked <;> rcases verdict with _ | v <;> simp
    | closeDone =>
      simp only [Session.step]
      split
      · exact Or.inl rfl
      · split
        · rcases verdict with _ | v <;> simp
        · exact Or.inl rfl
    | reachSelect pick =>
      simp only [Session.step, Session.arrive]
      cases panicked <;> rcases verdict with _ | v <;> simp
    | closeErrChan =>
      simp only [Session.step]
      cases panicked <;> rcases verdict with _ | v <;> simp
    | logError =>
      simp only [Session.step]
      cases panicked <;> cases errChanClosed <;> cases errChan <;> simp
  · right
    obtain ⟨v, hv⟩ := Option.isSome_iff_exists.mp h
    rw [Session.step_verdict_some s e v hv]
    rfl

theorem Session.foldl_arrived (p : List Event) (s : Session)
    (h : s.inSelect = true ∨ s.verdict.isSome = true) :
    (p.foldl Session.step s).inSelect = true ∨ (p.foldl Session.step s).verdict.isSome = true := by
  induction p generalizing s with
  | nil => exact h
  | cons e p ih => exact ih _ (Session.step_arrived s e h)

theorem Session.foldl_reachSelect_arrived (p : List Event) (s : Session) (h : s.sound)
    (hmem : ∃ pick, Event.reachSelect pick ∈ p) :
    (p.foldl Session.step s).inSelect = true ∨ (p.foldl Session.step s).verdict.isSome = true := by
  induction p generalizing s with
  | nil =>
    obtain ⟨pick, hp⟩ := hmem
    cases hp
  | cons e p ih =>
    obtain ⟨pick, hp⟩ := hmem
    rcases List.mem_cons.mp hp with hh | hh
    · subst hh
      exact Session.foldl_arrived p _ (Session.step_reachSelect_arrived s pick h)
    · exact ih _ (Session.step_sound s e h) ⟨pick, hh⟩

theorem Session.start_ctxDone (h : ShutdownHandler) (ht : 0 < h.timeout) :
    (Session.start h).ctxDone = false := by
  simp only [Session.start]
  exact decide_eq_false (not_le.mpr ht)

theorem Wait_graceful_of_done_before_deadline (h : ShutdownHandler) (es : List Event)
    (ht : 0 < h.timeout) (hsel : ∃ pick, Event.reachSelect pick ∈ beforeDeadline es)
    (p1 p2 : List Event) (hsplit : beforeDeadline es = p1 ++ Event.closeDone :: p2)
    (hall : ∀ i, i < h.hooks.length → Event.returns i ∈ p1) :
    (h.Wait es).verdict = some Verdict.graceful := by
  obtain ⟨rest, hrest⟩ := beforeDeadline_prefix es
  have hnd : Event.deadline ∉ beforeDeadline es := beforeDeadline_no_deadline es
  have hnd1 : Event.deadline ∉ p1 := fun hh => hnd (by rw [hsplit]; simp [hh])
  have hnd2 : Event.deadline ∉ p2 := fun hh => hnd (by rw [hsplit]; simp [hh])
  have hx0 := Session.start_ctxDone h ht
  have hs0 := Session.start_sound h
  obtain ⟨hx1, hr1⟩ := Session.calm_foldl p1 _ hs0 hx0 hnd1
  have hs1 := Session.foldl_sound p1 _ hs0
  have hrun : (p1.foldl Session.step (Session.start h)).running = [] := by
    apply List.eq_nil_iff_forall_not_mem.mpr
    intro j hj
    obtain ⟨hj1, hj2⟩ := hr1 j hj
    exact hj2 (hall j (List.mem_range.mp hj1))
  have hd2 := Session.calm_closeDone _ hs1 hx1 hrun
  have hd3 := Session.foldl_doneClosed p2 _ hd2
  have hbd : (beforeDeadline es).foldl Session.step (Session.start h) =
      p2.foldl Session.step ((p1.foldl Session.step (Session.start h)).step Event.closeDone) := by
    rw [hsplit, List.foldl_append, List.foldl_cons]
  have hx3 : ((beforeDeadline es).foldl Session.step (Session.start h)).ctxDone = false :=
    (Session.calm_foldl _ _ hs0 hx0 hnd).1
  have hs3 := Session.foldl_sound (beforeDeadline es) _ hs0
  have harr := Session.foldl_reachSelect_arrived (beforeDeadline es) _ hs0 hsel
  rw [← hbd] at hd3
  have hv3 : ((beforeDeadline es).foldl Session.step (Session.start h)).verdict =
      some Verdict.graceful := by
    rcases harr with hin | hsome
    · have := (hs3.2.2.2.1 hin).2.1
      rw [hd3] at this
      cases this
    · obtain ⟨v, hv⟩ := Option.isSome_iff_exists.mp hsome
      rw [hv, (Session.calm_verdict _ hs3 hx3 v hv).1]
  unfold ShutdownHandler.Wait
  rw [hrest, List.foldl_append]
  exact Session.foldl_verdict_some rest _ _ hv3

theorem Wait_forced_of_running_at_deadline (h : ShutdownHandler) (es : List Event)
    (ht : 0 < h.timeout) (hsel : ∃ pick, Event.reachSelect pick ∈ beforeDeadline es)
    (hdl : Event.deadline ∈ es) (i : Nat) (hi : i < h.hooks.length)
    (hnot : Event.returns i ∉ beforeDeadline es) :
    (h.Wait es).verdict = some Verdict.forced := by
  obtain ⟨rest, hrest⟩ := beforeDeadline_split es hdl
  have hnd : Event.deadline ∉ beforeDeadline es := beforeDeadline_no_deadline es
  have hx0 := Session.start_ctxDone h ht
  have hs0 := Session.start_sound h
  have hs3 := Session.foldl_sound (beforeDeadline es) _ hs0
  have hx3 : ((beforeDeadline es).foldl Session.step (Session.start h)).ctxDone = false :=
    (Session.calm_foldl _ _ hs0 hx0 hnd).1
  have hrun : i ∈ ((beforeDeadline es).foldl Session.step (Session.start h)).running :=
    Session.foldl_running_keep _ _ i (List.mem_range.mpr hi) hnot
  have harr := Session.foldl_reachSelect_arrived (beforeDeadline es) _ hs0 hsel
  have hin : ((beforeDeadline es).foldl Session.step (Session.start h)).inSelect = true := by
    rcases harr with hin | hsome
    · exact hin
    · obtain ⟨v, hv⟩ := Option.isSome_iff_exists.mp hsome
      have := (Session.calm_verdict _ hs3 hx3 v hv).2
      rw [this] at hrun
      cases hrun
  have hv := Session.parked_deadline _ hs3 hin
  unfold ShutdownHandler.Wait
  rw [hrest, List.foldl_append, List.foldl_cons]
  exact Session.foldl_verdict_some rest _ _ hv

theorem Session.step_closeErrChan (s : Session) (hv : s.verdict.isSome = true)
    (hp : s.panicked = false) :
    s.step Event.closeErrChan = { s with errChanClosed := true } := by
  obtain ⟨v, hv1⟩ := Option.isSome_iff_exists.mp hv
  simp only [Session.step, hp, hv1, Bool.false_eq_true, if_false]

theorem Session.drain (errChan : List String) (s : Session) (hc : s.errChanClosed = true)
    (hp : s.panicked = false) (he : s.errChan = errChan) :
    ((List.replicate errChan.length Event.logError).foldl Session.step s).returned = true ∧
      ((List.replicate errChan.length Event.logError).foldl Session.step s).reported =
        s.reported ++ errChan := by
  induction errChan generalizing s with
  | nil =>
    simp only [List.length_nil, List.replicate_zero, List.foldl_nil, List.append_nil]
    simp [Session.returned, hc, he]
  | cons msg rest ih =>
    have hstep : s.step Event.logError =
        { s with errChan := rest, reported := s.reported ++ [msg] } := by
      simp only [Session.step, hp, hc, he, Bool.false_eq_true, if_false, if_true]
    simp only [List.length_cons, List.replicate_succ, List.foldl_cons]
    rw [hstep]
    obtain ⟨h1, h2⟩ := ih { s with errChan := rest, reported := s.reported ++ [msg] } hc hp rfl
    refine ⟨h1, ?_⟩
    rw [h2]
    simp

theorem Wait_sent (h : ShutdownHandler) (pre : List Event)
    (hopen : (h.Wait pre).errChanClosed = false) :
    (h.Wait pre).errChan = failuresOf h.hooks (completionOrder h pre) ∧
      ∀ i, i < h.hooks.length →
        (i ∈ (h.Wait pre).running ↔ i ∉ (completionOrder h pre).map Prod.fst) := by
  have hseen : ∀ i, i < (Session.start h).hooks.length →
      (i ∈ (Session.start h).running ↔ i ∉ ([] : List Nat)) := by
    intro i hi
    simp only [Session.start] at hi ⊢
    simp [List.mem_range, hi]
  obtain ⟨h1, h2⟩ := Session.foldl_sent pre (Session.start h) [] (Session.start_sound h) hseen hopen
  refine ⟨?_, ?_⟩
  · unfold ShutdownHandler.Wait
    rw [h1]
    simp [Session.start, completionOrder]
  · intro i hi
    have := h2 i hi
    unfold ShutdownHandler.Wait
    rw [this]
    simp [Session.start, completionOrder]

theorem Wait_closed_log (h : ShutdownHandler) (pre post : List Event)
    (hv : (h.Wait pre).verdict.isSome = true) (hopen : (h.Wait pre).errChanClosed = false) :
    (h.Wait (pre ++ Event.closeErrChan :: post)).reported ++
        (h.Wait (pre ++ Event.closeErrChan :: post)).errChan =
      failuresOf h.hooks (completionOrder h pre) := by
  have hs := Wait_sound h pre
  have hp : (h.Wait pre).panicked = false := (hs.2.2.2.2.2.1 hopen).1
  have hr : (h.Wait pre).reported = [] := (hs.2.2.2.2.2.1 hopen).2
  rw [Wait_append, List.foldl_cons, Session.step_closeErrChan _ hv hp,
    Session.foldl_closed_log post _ rfl]
  simp only [hr, List.nil_append]
  exact (Wait_sent h pre hopen).1

theorem Wait_drained (h : ShutdownHandler) (pre : List Event)
    (hv : (h.Wait pre).verdict.isSome = true) (hopen : (h.Wait pre).errChanClosed = false) :
    (h.Wait (pre ++ Event.closeErrChan ::
      List.replicate (failuresOf h.hooks (completionOrder h pre)).length Event.logError)).returned
        = true := by
  have hs := Wait_sound h pre
  have hp : (h.Wait pre).panicked = false := (hs.2.2.2.2.2.1 hopen).1
  rw [Wait_append, List.foldl_cons, Session.step_closeErrChan _ hv hp]
  exact (Session.drain _ { h.Wait pre with errChanClosed := true } rfl hp
    (Wait_sent h pre hopen).1).1

theorem failuresOf_first_of_two (f g : Hook) (hf : ∀ c, (f c).isSome = true)
    (hg : ∀ c, g c = none) (log : List (Nat × Bool)) :
    (failuresOf [f, g] log).length = (log.map Prod.fst).count 0 := by
  induction log with
  | nil => rfl
  | cons r log ih =>
    obtain ⟨i, d⟩ := r
    unfold failuresOf at ih ⊢
    rw [List.filterMap_cons, List.map_cons, List.count_cons]
    match i with
    | 0 =>
      obtain ⟨msg, hmsg⟩ := Option.isSome_iff_exists.mp (hf { done := d })
      simp [hmsg, ih]
    | 1 => simp [hg, ih]
    | k + 2 => simp [ih]

theorem failuresOf_second_of_two (f g : Hook) (hf : ∀ c, f c = none)
    (hg : ∀ c, (g c).isSome = true) (log : List (Nat × Bool)) :
    (failuresOf [f, g] log).length = (log.map Prod.fst).count 1 := by
  induction log with
  | nil => rfl
  | cons r log ih =>
    obtain ⟨i, d⟩ := r
    unfold failuresOf at ih ⊢
    rw [List.filterMap_cons, List.map_cons, List.count_cons]
    match i with
    | 0 => simp [hf, ih]
    | 1 =>
      obtain ⟨msg, hmsg⟩ := Option.isSome_iff_exists.mp (hg { done := d })
      simp [hmsg, ih]
    | k + 2 => simp [ih]

theorem Wait_graceful_two_hooks (h : ShutdownHandler) (pre : List Event) (f g : Hook)
    (hh : h.hooks = [f, g])
    (hfg : ((∀ c, (f c).isSome = true) ∧ ∀ c, g c = none) ∨
      ((∀ c, f c = none) ∧ ∀ c, (g c).isSome = true))
    (hv : (h.Wait pre).verdict = some Verdict.graceful)
    (hopen : (h.Wait pre).errChanClosed = false) :
    (failuresOf h.hooks (completionOrder h pre)).length = 1 := by
  have hs := Wait_sound h pre
  have hrun : (h.Wait pre).running = [] := hs.1 (hs.2.1 hv)
  have hlen : h.hooks.length = 2 := by rw [hh]; rfl
  have hmem : ∀ i, i < 2 → i ∈ (completionOrder h pre).map Prod.fst := by
    intro i hi
    have := (Wait_sent h pre hopen).2 i (hlen ▸ hi)
    rw [hrun] at this
    by_contra hc
    exact (List.not_mem_nil i) (this.mpr hc)
  have hnd : ((completionOrder h pre).map Prod.fst).Nodup := completionLog_nodup _ _ _ _
  rw [hh]
  rcases hfg with ⟨hf, hg⟩ | ⟨hf, hg⟩
  · rw [failuresOf_first_of_two f g hf hg]
    exact List.count_eq_one_of_mem hnd (hmem 0 (by decide))
  · rw [failuresOf_second_of_two f g hf hg]
    exact List.count_eq_one_of_mem hnd (hmem 1 (by decide))

/-! ## padString and maxValue -/

theorem stringsRepeat_length (s : GoString) (n : Nat) :
    (stringsRepeat s n).length = n * s.length := by
  induction n with
  | zero => simp [stringsRepeat]
  | succ n ih =>
    simp only [stringsRepeat, List.length_append, ih]
    ring

theorem maxLoop_spec (rest : List Int) (max : Int) :
    (maxLoop max rest = max ∨ maxLoop max rest ∈ rest) ∧ max ≤ maxLoop max rest ∧
      ∀ x ∈ rest, x ≤ maxLoop max rest := by
  induction rest generalizing max with
  | nil => simp [maxLoop]
  | cons n rest ih =>
    simp only [maxLoop]
    split
    · rename_i hgt
      obtain ⟨h1, h2, h3⟩ := ih n
      refine ⟨Or.inr ?_, by omega, ?_⟩
      · rcases h1 with h1 | h1
        · rw [h1]; exact List.mem_cons_self _ _
        · exact List.mem_cons_of_mem _ h1
      · intro x hx
        rcases List.mem_cons.mp hx with hx | hx
        · rw [hx]; exact h2
        · exact h3 x hx
    · rename_i hle
      obtain ⟨h1, h2, h3⟩ := ih max
      refine ⟨?_, h2, ?_⟩
      · rcases h1 with h1 | h1
        · exact Or.inl h1
        · exact Or.inr (List.mem_cons_of_mem _ h1)
      · intro x hx
        rcases List.mem_cons.mp hx with hx | hx
        · rw [hx]; omega
        · exact h3 x hx

/-! ## validateJWTStructure -/

theorem splitDot_ne_nil (t : GoString) : splitDot t ≠ [] := by
  induction t with
  | nil => simp [splitDot]
  | cons b bs ih =>
    simp only [splitDot]
    split
    · simp
    · split <;> simp

theorem splitDot_length (t : GoString) : (splitDot t).length = t.count 46 + 1 := by
  induction t with
  | nil => simp [splitDot]
  | cons b bs ih =>
    simp only [splitDot]
    by_cases hb : b = 46
    · rw [if_pos hb, hb, List.count_cons_self, List.length_cons, ih]
    · rw [if_neg hb, List.count_cons_of_ne (fun h => hb h.symm)]
      cases hs : splitDot bs with
      | nil => exact absurd hs (splitDot_ne_nil bs)
      | cons part parts =>
        rw [hs] at ih
        simpa using ih

theorem jwtLoop_three (decodeString : GoString → Except String GoString)
    (unmarshalOk : GoString → Bool) (a b c : GoString) :
    jwtLoop decodeString unmarshalOk [a, b, c] 0 2 =
      match checkPart decodeString unmarshalOk a with
      | some err => some err
      | none => checkPart decodeString unmarshalOk b := by
  simp only [jwtLoop, List.getD_cons_zero, List.getD_cons_succ]
  cases checkPart decodeString unmarshalOk a with
  | some err => rfl
  | none =>
    simp only
    cases checkPart decodeString unmarshalOk b <;> rfl

theorem checkPart_none_iff (decodeString : GoString → Except String GoString)
    (unmarshalOk : GoString → Bool) (part : GoString) :
    checkPart decodeString unmarshalOk part = none ↔
      ∃ decoded, decodeString part = Except.ok decoded ∧ unmarshalOk decoded = true := by
  unfold checkPart
  cases h : decodeString part with
  | error err => simp
  | ok decoded =>
    by_cases hu : unmarshalOk decoded = true <;> simp [hu]

theorem validateJWTStructure_three (decodeString : GoString → Except String GoString)
    (unmarshalOk : GoString → Bool) (token a b c : GoString) (h : splitDot token = [a, b, c]) :
    validateJWTStructure decodeString unmarshalOk token =
      match checkPart decodeString unmarshalOk a with
      | some err => some err
      | none => checkPart decodeString unmarshalOk b := by
  unfold validateJWTStructure
  rw [h, if_neg (by simp), jwtLoop_three]

/-! ## RateLimiter -/

theorem filter_length_le_of_imp {α : Type} (p q : α → Bool) (l : List α)
    (h : ∀ a ∈ l, p a = true → q a = true) : (l.filter p).length ≤ (l.filter q).length := by
  induction l with
  | nil => simp
  | cons a l ih =>
    have ih1 := ih (fun b hb => h b (List.mem_cons_of_mem _ hb))
    have ha := h a (List.mem_cons_self _ _)
    simp only [List.filter_cons]
    cases hp : p a with
    | false =>
      cases hq : q a with
      | false => simpa using ih1
      | true => simp only [Bool.false_eq_true, if_false, if_true, List.length_cons]; omega
    | true =>
      rw [ha hp]
      simpa using ih1

theorem RateLimiter.Allow_maxRequests (rl : RateLimiter) (now : Int) :
    (rl.Allow now).2.maxRequests = rl.maxRequests ∧ (rl.Allow now).2.window = rl.window := by
  unfold RateLimiter.Allow
  split <;> exact ⟨rfl, rfl⟩

theorem RateLimiter.allowAll_maxRequests (nows : List Int) (rl : RateLimiter) :
    (rl.allowAll nows).maxRequests = rl.maxRequests ∧ (rl.allowAll nows).window = rl.window := by
  induction nows generalizing rl with
  | nil => exact ⟨rfl, rfl⟩
  | cons now nows ih =>
    have h1 := ih (rl.Allow now).2
    have h2 := RateLimiter.Allow_maxRequests rl now
    exact ⟨h1.1.trans h2.1, h1.2.trans h2.2⟩

theorem unexpired_length_le (rl : RateLimiter) (now : Int) :
    (unexpired rl now).length ≤ rl.timestamps.length :=
  List.length_filter_le _ _

theorem RateLimiter.Allow_length (rl : RateLimiter) (now : Int)
    (h : (rl.timestamps.length : Int) ≤ max rl.maxRequests 0) :
    (((rl.Allow now).2.timestamps.length : Nat) : Int) ≤ max rl.maxRequests 0 := by
  have h1 := unexpired_length_le rl now
  unfold RateLimiter.Allow
  split
  · rename_i hlt
    simp only [List.length_append, List.length_singleton, Nat.cast_add, Nat.cast_one]
    omega
  · simp only
    omega

theorem RateLimiter.allowAll_length (nows : List Int) (rl : RateLimiter)
    (h : (rl.timestamps.length : Int) ≤ max rl.maxRequests 0) :
    (((rl.allowAll nows).timestamps.length : Nat) : Int) ≤ max rl.maxRequests 0 := by
  induction nows generalizing rl with
  | nil => exact h
  | cons now nows ih =>
    have h1 := RateLimiter.Allow_length rl now h
    have h2 := ih (rl.Allow now).2 (by rw [(RateLimiter.Allow_maxRequests rl now).1]; exact h1)
    rw [(RateLimiter.Allow_maxRequests rl now).1] at h2
    exact h2

theorem countInWindow_append (g : List Int) (a w t : Int) :
    countInWindow (g ++ [a]) w t =
      countInWindow g w t + (if t - w < a ∧ a ≤ t then 1 else 0) := by
  unfold countInWindow
  rw [List.filter_append, List.length_append]
  congr 1
  by_cases h : t - w < a ∧ a ≤ t
  · simp [List.filter_cons, h]
  · simp [List.filter_cons, h]

theorem RateLimiter.unexpired_of_tracks (rl : RateLimiter) (g : List Int) (last now : Int)
    (bound : Nat) (h : rl.tracks g last bound) (hle : last ≤ now) :
    unexpired rl now = g.filter (fun a => decide (a > now - rl.window)) := by
  unfold unexpired
  rw [h.1, List.filter_filter]
  apply List.filter_congr
  intro a _
  by_cases h1 : a > now - rl.window
  · have h2 : a > last - rl.window := by omega
    simp [h1, h2]
  · simp [h1]

theorem RateLimiter.granted_window (nows : List Int) (rl : RateLimiter) (g : List Int)
    (last : Int) (hw : 0 < rl.window)
    (h : rl.tracks g last (max rl.maxRequests 0).toNat)
    (hle : ∀ n ∈ nows, last ≤ n) (hs : nows.Sorted (fun a b => a ≤ b)) (t : Int) :
    countInWindow (g ++ rl.granted nows) rl.window t ≤ (max rl.maxRequests 0).toNat := by
  induction nows generalizing rl g last with
  | nil =>
    simp only [RateLimiter.granted, List.append_nil]
    exact h.2.2 t
  | cons now rest ih =>
    have hnow : last ≤ now := hle now (List.mem_cons_self _ _)
    have hun := RateLimiter.unexpired_of_tracks rl g last now _ h hnow
    have hrest : ∀ n ∈ rest, now ≤ n := fun n hn => List.rel_of_sorted_cons hs n hn
    have hs1 : rest.Sorted (fun a b => a ≤ b) := List.Sorted.of_cons hs
    have hA := RateLimiter.Allow_maxRequests rl now
    by_cases hlt : ((unexpired rl now).length : Int) < rl.maxRequests
    · have h1 : (rl.Allow now).1 = true := by
        unfold RateLimiter.Allow
        rw [if_pos hlt]
      have h2 : (rl.Allow now).2.timestamps = unexpired rl now ++ [now] := by
        unfold RateLimiter.Allow
        rw [if_pos hlt]
      have htr : (rl.Allow now).2.tracks (g ++ [now]) now (max rl.maxRequests 0).toNat := by
        refine ⟨?_, ?_, ?_⟩
        · rw [h2, hA.2, hun, List.filter_append]
          congr 1
          have : now > now - rl.window := by omega
          simp [List.filter_cons, this]
        · intro a ha
          rcases List.mem_append.mp ha with ha | ha
          · exact le_trans (h.2.1 a ha) hnow
          · simp only [List.mem_singleton] at ha
            rw [ha]
        · intro u
          rw [hA.2, countInWindow_append]
          by_cases hin : u - rl.window < now ∧ now ≤ u
          · rw [if_pos hin]
            have hc : countInWindow g rl.window u ≤ (unexpired rl now).length := by
              rw [hun]
              unfold countInWindow
              apply filter_length_le_of_imp
              intro a _ ha
              simp only [decide_eq_true_eq] at ha ⊢
              omega
            omega
          · rw [if_neg hin]
            exact h.2.2 u
      simp only [RateLimiter.granted, h1, if_true]
      have key := ih (rl.Allow now).2 (g ++ [now]) now (by rw [hA.2]; exact hw)
        (by rw [hA.1]; exact htr) hrest hs1
      rw [hA.1, hA.2] at key
      simpa [List.append_assoc] using key
    · have h1 : (rl.Allow now).1 = false := by
        unfold RateLimiter.Allow
        rw [if_neg hlt]
      have h2 : (rl.Allow now).2.timestamps = unexpired rl now := by
        unfold RateLimiter.Allow
        rw [if_neg hlt]
      have htr : (rl.Allow now).2.tracks g now (max rl.maxRequests 0).toNat := by
        refine ⟨?_, ?_, ?_⟩
        · rw [h2, hA.2, hun]
        · intro a ha
          exact le_trans (h.2.1 a ha) hnow
        · intro u
          rw [hA.2]
          exact h.2.2 u
      simp only [RateLimiter.granted, h1, Bool.false_eq_true, if_false]
      have key := ih (rl.Allow now).2 g now (by rw [hA.2]; exact hw)
        (by rw [hA.1]; exact htr) hrest hs1
      rw [hA.1, hA.2] at key
      exact key

/-! ## LRUCache: the list and the map stay coherent -/

section LRULemmas

variable {V : Type}

theorem listMoveToFront_perm (e : Nat) (l : List Nat) : (listMoveToFront e l).Perm l := by
  unfold listMoveToFront
  split
  · rename_i h
    exact (List.perm_cons_erase h).symm
  · exact List.Perm.refl _

theorem listMoveToFront_mem (e : Nat) (l : List Nat) (h : e ∈ l) :
    listMoveToFront e l = e :: l.erase e := by
  unfold listMoveToFront
  rw [if_pos h]

theorem LRUCache.coherent_congr (c d : LRUCache V) (hperm : d.order.Perm c.order)
    (hnext : d.next = c.next) (hcache : d.cache = c.cache)
    (hkey : ∀ a, (d.elems a).key = (c.elems a).key) (h : c.coherent) : d.coherent := by
  obtain ⟨h1, h2, h3, h4⟩ := h
  refine ⟨hperm.nodup_iff.mpr h1, ?_, ?_, ?_⟩
  · intro a ha
    rw [hnext]
    exact h2 a (hperm.mem_iff.mp ha)
  · intro k a hka
    rw [hcache] at hka
    obtain ⟨h5, h6⟩ := h3 k a hka
    exact ⟨hperm.mem_iff.mpr h5, (hkey a).trans h6⟩
  · intro a ha
    rw [hcache, hkey a]
    exact h4 a (hperm.mem_iff.mp ha)

theorem LRUCache.keys_nodup (c : LRUCache V) (h : c.coherent) : c.keys.Nodup := by
  obtain ⟨h1, _, _, h4⟩ := h
  unfold LRUCache.keys
  apply List.Nodup.map_on _ h1
  intro a ha b hb hab
  have ha1 := h4 a ha
  have hb1 := h4 b hb
  rw [hab, hb1] at ha1
  injection ha1 with h5
  exact h5.symm

theorem LRUCache.mem_keys_iff (c : LRUCache V) (h : c.coherent) (k : String) :
    k ∈ c.keys ↔ (c.cache k).isSome = true := by
  obtain ⟨_, _, h3, h4⟩ := h
  unfold LRUCache.keys
  rw [List.mem_map]
  constructor
  · rintro ⟨a, ha, hk⟩
    rw [← hk, h4 a ha]
    rfl
  · intro hk
    cases hc : c.cache k with
    | none => rw [hc] at hk; cases hk
    | some a => exact ⟨a, (h3 k a hc).1, (h3 k a hc).2⟩

theorem LRUCache.Get_hit [Inhabited V] (c : LRUCache V) (k : String) (a : Nat)
    (h : c.cache k = some a) :
    c.Get k = (((c.elems a).value, true), { c with order := listMoveToFront a c.order }) := by
  unfold LRUCache.Get
  rw [h]

theorem LRUCache.Get_miss [Inhabited V] (c : LRUCache V) (k : String) (h : c.cache k = none) :
    c.Get k = ((default, false), c) := by
  unfold LRUCache.Get
  rw [h]

theorem LRUCache.Set_hit (c : LRUCache V) (k : String) (v : V) (a : Nat)
    (h : c.cache k = some a) :
    c.Set k v =
      { c with order := listMoveToFront a c.order
               elems := Function.update c.elems a { key := (c.elems a).key, value := v } } := by
  unfold LRUCache.Set
  rw [h]

theorem LRUCache.Set_miss (c : LRUCache V) (k : String) (v : V) (h : c.cache k = none) :
    c.Set k v = c.evict.pushFront k v := by
  unfold LRUCache.Set
  rw [h]

theorem LRUCache.Get_coherent [Inhabited V] (c : LRUCache V) (k : String) (h : c.coherent) :
    (c.Get k).2.coherent := by
  cases hc : c.cache k with
  | none => rw [LRUCache.Get_miss c k hc]; exact h
  | some a =>
    rw [LRUCache.Get_hit c k a hc]
    exact LRUCache.coherent_congr c _ (listMoveToFront_perm _ _) rfl rfl (fun _ => rfl) h

theorem update_value_key (c : LRUCache V) (a : Nat) (v : V) (b : Nat) :
    ((Function.update c.elems a { key := (c.elems a).key, value := v }) b).key =
      (c.elems b).key := by
  by_cases hb : b = a
  · rw [hb, Function.update_same]
  · rw [Function.update_noteq hb]

theorem LRUCache.evict_full (c : LRUCache V) (oldest : Nat)
    (hfull : (c.order.length : Int) ≥ c.capacity) (hlast : c.order.getLast? = some oldest) :
    c.evict = { c with order := c.order.erase oldest
                       cache := Function.update c.cache (c.elems oldest).key none } := by
  unfold LRUCache.evict
  rw [if_pos hfull, hlast]

theorem LRUCache.evict_room (c : LRUCache V) (hroom : ¬ (c.order.length : Int) ≥ c.capacity) :
    c.evict = c := by
  unfold LRUCache.evict
  rw [if_neg hroom]

theorem LRUCache.evict_empty (c : LRUCache V) (hnil : c.order = []) : c.evict = c := by
  unfold LRUCache.evict
  rw [hnil]
  split <;> rfl

theorem LRUCache.evict_next (c : LRUCache V) :
    c.evict.next = c.next ∧ c.evict.capacity = c.capacity ∧ c.evict.elems = c.elems := by
  unfold LRUCache.evict
  split
  · split <;> exact ⟨rfl, rfl, rfl⟩
  · exact ⟨rfl, rfl, rfl⟩

theorem LRUCache.evict_cache_none (c : LRUCache V) (k : String) (h : c.cache k = none) :
    c.evict.cache k = none := by
  unfold LRUCache.evict
  split
  · split
    · rename_i oldest _
      simp only
      by_cases hk : k = (c.elems oldest).key
      · rw [hk, Function.update_same]
      · rw [Function.update_noteq hk]; exact h
    · exact h
  · exact h

theorem LRUCache.evict_coherent (c : LRUCache V) (h : c.coherent) : c.evict.coherent := by
  obtain ⟨h1, h2, h3, h4⟩ := h
  unfold LRUCache.evict
  split
  · split
    · rename_i oldest hlast
      have hmem : oldest ∈ c.order := List.mem_of_getLast?_eq_some hlast
      refine ⟨h1.erase _, ?_, ?_, ?_⟩
      · intro a ha
        exact h2 a (List.mem_of_mem_erase ha)
      · intro k a hka
        simp only at hka ⊢
        by_cases hk : k = (c.elems oldest).key
        · rw [hk, Function.update_same] at hka
          cases hka
        · rw [Function.update_noteq hk] at hka
          obtain ⟨h5, h6⟩ := h3 k a hka
          refine ⟨?_, h6⟩
          rw [h1.mem_erase_iff]
          refine ⟨?_, h5⟩
          intro hao
          rw [hao] at h6
          exact hk h6.symm
      · intro a ha
        simp only at ha ⊢
        rw [h1.mem_erase_iff] at ha
        have hne : (c.elems a).key ≠ (c.elems oldest).key := by
          intro heq
          have ha1 := h4 a ha.2
          have ho1 := h4 oldest hmem
          rw [heq, ho1] at ha1
          injection ha1 with h5
          exact ha.1 h5.symm
        rw [Function.update_noteq hne]
        exact h4 a ha.2
    · exact ⟨h1, h2, h3, h4⟩
  · exact ⟨h1, h2, h3, h4⟩

theorem LRUCache.evict_length (c : LRUCache V) (hcap : 1 ≤ c.capacity)
    (hlen : (c.order.length : Int) ≤ c.capacity) :
    (c.evict.order.length : Int) + 1 ≤ c.capacity := by
  unfold LRUCache.evict
  split
  · rename_i hfull
    split
    · rename_i oldest hlast
      have hmem : oldest ∈ c.order := List.mem_of_getLast?_eq_some hlast
      have h1 := List.length_erase_of_mem hmem
      have h2 := List.length_pos_of_mem hmem
      simp only
      omega
    · rename_i hnone
      have hnil : c.order = [] := List.getLast?_eq_none_iff.mp hnone
      rw [hnil] at hfull ⊢
      simp only [List.length_nil, Nat.cast_zero] at hfull ⊢
      omega
  · omega

theorem LRUCache.pushFront_coherent (c : LRUCache V) (k : String) (v : V) (h : c.coherent)
    (hk : c.cache k = none) : (c.pushFront k v).coherent := by
  obtain ⟨h1, h2, h3, h4⟩ := h
  have hfresh : c.next ∉ c.order := fun hm => absurd (h2 _ hm) (lt_irrefl _)
  refine ⟨List.nodup_cons.mpr ⟨hfresh, h1⟩, ?_, ?_, ?_⟩
  · intro a ha
    simp only [LRUCache.pushFront] at ha ⊢
    rcases List.mem_cons.mp ha with ha | ha
    · omega
    · have := h2 a ha
      omega
  · intro k1 a hka
    simp only [LRUCache.pushFront] at hka ⊢
    by_cases hk1 : k1 = k
    · rw [hk1, Function.update_same] at hka
      injection hka with h5
      rw [← h5, hk1, Function.update_same]
      exact ⟨List.mem_cons_self _ _, rfl⟩
    · rw [Function.update_noteq hk1] at hka
      obtain ⟨h5, h6⟩ := h3 k1 a hka
      have hne : a ≠ c.next := fun hh => hfresh (hh ▸ h5)
      rw [Function.update_noteq hne]
      exact ⟨List.mem_cons_of_mem _ h5, h6⟩
  · intro a ha
    simp only [LRUCache.pushFront] at ha ⊢
    rcases List.mem_cons.mp ha with ha | ha
    · rw [ha, Function.update_same, Function.update_same]
    · have hne : a ≠ c.next := fun hh => hfresh (hh ▸ ha)
      rw [Function.update_noteq hne]
      have hkey : (c.elems a).key ≠ k := by
        intro heq
        have := h4 a ha
        rw [heq, hk] at this
        cases this
      rw [Function.update_noteq hkey]
      exact h4 a ha

theorem LRUCache.Set_coherent (c : LRUCache V) (k : String) (v : V) (h : c.coherent) :
    (c.Set k v).coherent := by
  cases hc : c.cache k with
  | some a =>
    rw [LRUCache.Set_hit c k v a hc]
    exact LRUCache.coherent_congr c _ (listMoveToFront_perm _ _) rfl rfl
      (update_value_key c a v) h
  | none =>
    rw [LRUCache.Set_miss c k v hc]
    exact LRUCache.pushFront_coherent _ k v (LRUCache.evict_coherent c h)
      (LRUCache.evict_cache_none c k hc)

theorem LRUCache.Get_capacity_length [Inhabited V] (c : LRUCache V) (k : String) :
    (c.Get k).2.capacity = c.capacity ∧ (c.Get k).2.order.length = c.order.length := by
  cases hc : c.cache k with
  | none => rw [LRUCache.Get_miss c k hc]; exact ⟨rfl, rfl⟩
  | some a =>
    rw [LRUCache.Get_hit c k a hc]
    exact ⟨rfl, (listMoveToFront_perm a c.order).length_eq⟩

theorem LRUCache.Set_capacity (c : LRUCache V) (k : String) (v : V) :
    (c.Set k v).capacity = c.capacity := by
  cases hc : c.cache k with
  | some a => rw [LRUCache.Set_hit c k v a hc]
  | none =>
    rw [LRUCache.Set_miss c k v hc]
    exact (LRUCache.evict_next c).2.1

theorem LRUCache.Set_length (c : LRUCache V) (k : String) (v : V) (hcap : 1 ≤ c.capacity)
    (hlen : (c.order.length : Int) ≤ c.capacity) :
    ((c.Set k v).order.length : Int) ≤ c.capacity := by
  cases hc : c.cache k with
  | some a =>
    rw [LRUCache.Set_hit c k v a hc]
    simp only
    rw [(listMoveToFront_perm a c.order).length_eq]
    exact hlen
  | none =>
    rw [LRUCache.Set_miss c k v hc]
    have h1 := LRUCache.evict_length c hcap hlen
    simp only [LRUCache.pushFront, List.length_cons, Nat.cast_add, Nat.cast_one]
    exact h1

theorem NewLRU_coherent [Inhabited V] (capacity : Int) : (NewLRU capacity : LRUCache V).coherent := by
  refine ⟨List.nodup_nil, ?_, ?_, ?_⟩
  · intro a ha; cases ha
  · intro k a hka; cases hka
  · intro a ha; cases ha

theorem LRUCache.run_invariant [Inhabited V] (ops : List (CacheOp V)) (c : LRUCache V)
    (hcap : 1 ≤ c.capacity) (h : c.coherent) (hlen : (c.order.length : Int) ≤ c.capacity) :
    (c.run ops).coherent ∧ (c.run ops).capacity = c.capacity ∧
      ((c.run ops).order.length : Int) ≤ c.capacity := by
  induction ops generalizing c with
  | nil => exact ⟨h, rfl, hlen⟩
  | cons op ops ih =>
    have step : (c.apply op).coherent ∧ (c.apply op).capacity = c.capacity ∧
        ((c.apply op).order.length : Int) ≤ c.capacity := by
      cases op with
      | get k =>
        have h1 := LRUCache.Get_capacity_length c k
        refine ⟨LRUCache.Get_coherent c k h, h1.1, ?_⟩
        simp only [LRUCache.apply]
        rw [h1.2]
        exact hlen
      | set k v =>
        exact ⟨LRUCache.Set_coherent c k v h, LRUCache.Set_capacity c k v,
          LRUCache.Set_length c k v hcap hlen⟩
    have h2 := ih (c.apply op) (by rw [step.2.1]; exact hcap) step.1
      (by rw [step.2.1]; exact step.2.2)
    rw [step.2.1] at h2
    exact h2

end LRULemmas

/-! ## LRUCache: keys, values and recency -/

section LRURecency

variable {V : Type}

theorem map_erase_of_injOn (f : Nat → String) (l : List Nat) (a : Nat)
    (h : ∀ b ∈ l, f b = f a → b = a) : (l.erase a).map f = (l.map f).erase (f a) := by
  induction l with
  | nil => rfl
  | cons b l ih =>
    have ih1 := ih (fun x hx => h x (List.mem_cons_of_mem _ hx))
    by_cases hb : b = a
    · rw [hb]
      simp
    · have hf : f b ≠ f a := fun hh => hb (h b (List.mem_cons_self _ _) hh)
      rw [List.erase_cons_tail (by simpa using hb), List.map_cons, List.map_cons,
        List.erase_cons_tail (by simpa using hf), ih1]

theorem LRUCache.keys_erase (c : LRUCache V) (h : c.coherent) (a : Nat) (ha : a ∈ c.order) :
    (c.order.erase a).map (fun b => (c.elems b).key) = c.keys.erase (c.elems a).key := by
  unfold LRUCache.keys
  apply map_erase_of_injOn
  intro b hb hkey
  have hb1 := h.2.2.2 b hb
  have ha1 := h.2.2.2 a ha
  rw [hkey, ha1] at hb1
  injection hb1 with h5
  exact h5.symm

theorem LRUCache.Get_hit_keys [Inhabited V] (c : LRUCache V) (h : c.coherent) (k : String)
    (a : Nat) (hc : c.cache k = some a) : (c.Get k).2.keys = k :: c.keys.erase k := by
  obtain ⟨ha, hk⟩ := h.2.2.1 k a hc
  rw [LRUCache.Get_hit c k a hc]
  simp only [LRUCache.keys]
  rw [listMoveToFront_mem a c.order ha, List.map_cons, hk]
  have := LRUCache.keys_erase c h a ha
  rw [hk] at this
  rw [this]
  rfl

theorem LRUCache.Set_hit_keys (c : LRUCache V) (h : c.coherent) (k : String) (v : V)
    (a : Nat) (hc : c.cache k = some a) : (c.Set k v).keys = k :: c.keys.erase k := by
  obtain ⟨ha, hk⟩ := h.2.2.1 k a hc
  rw [LRUCache.Set_hit c k v a hc]
  simp only [LRUCache.keys]
  rw [List.map_congr_left (fun b _ => update_value_key c a v b),
    listMoveToFront_mem a c.order ha, List.map_cons, hk]
  have := LRUCache.keys_erase c h a ha
  rw [hk] at this
  rw [this]
  rfl

theorem LRUCache.evict_keys_full (c : LRUCache V) (h : c.coherent)
    (hfull : (c.order.length : Int) ≥ c.capacity) (hne : c.order ≠ []) :
    c.evict.keys = c.keys.dropLast ∧
      ∃ oldest, c.order.getLast? = some oldest ∧ c.keys.getLast? = some (c.elems oldest).key ∧
        c.evict.cache = Function.update c.cache (c.elems oldest).key none := by
  obtain ⟨oldest, hlast⟩ : ∃ oldest, c.order.getLast? = some oldest := by
    cases hl : c.order.getLast? with
    | none => exact absurd (List.getLast?_eq_none_iff.mp hl) hne
    | some oldest => exact ⟨oldest, rfl⟩
  obtain ⟨front, hfront⟩ := List.getLast?_eq_some_iff.mp hlast
  have hnd : (front ++ [oldest]).Nodup := hfront ▸ h.1
  have hnot : oldest ∉ front := by
    intro hm
    have := (List.nodup_append.mp hnd).2.2
    exact this hm (List.mem_singleton_self _)
  rw [LRUCache.evict_full c oldest hfull hlast]
  refine ⟨?_, oldest, hlast, ?_, rfl⟩
  · simp only [LRUCache.keys]
    rw [hfront, List.erase_append_right _ hnot]
    simp
  · simp only [LRUCache.keys]
    rw [hfront]
    simp

theorem LRUCache.pushFront_keys (c : LRUCache V) (h : c.coherent) (k : String) (v : V) :
    (c.pushFront k v).keys = k :: c.keys := by
  simp only [LRUCache.keys, LRUCache.pushFront, List.map_cons, Function.update_same]
  congr 1
  apply List.map_congr_left
  intro b hb
  have hne : b ≠ c.next := fun hh => absurd (h.2.1 b hb) (by rw [hh]; exact lt_irrefl _)
  rw [Function.update_noteq hne]

theorem ordered_touch (keys rest : List String) (used : String → Nat) (clock : Nat) (k : String)
    (hsub : rest.Sublist keys) (hk : k ∉ rest)
    (hp : (keys.map used).Pairwise (fun x y => x > y)) (hb : ∀ j ∈ keys, used j ≤ clock) :
    (((k :: rest).map (Function.update used k (clock + 1))).Pairwise (fun x y => x > y)) ∧
      ∀ j ∈ k :: rest, Function.update used k (clock + 1) j ≤ clock + 1 := by
  have hrest : rest.map (Function.update used k (clock + 1)) = rest.map used := by
    apply List.map_congr_left
    intro j hj
    have hne : j ≠ k := fun hh => hk (hh ▸ hj)
    rw [Function.update_noteq hne]
  constructor
  · rw [List.map_cons, Function.update_same, hrest, List.pairwise_cons]
    refine ⟨?_, List.Pairwise.sublist (hsub.map used) hp⟩
    intro x hx
    obtain ⟨j, hj, hjx⟩ := List.mem_map.mp hx
    have := hb j (hsub.subset hj)
    omega
  · intro j hj
    rcases List.mem_cons.mp hj with hj | hj
    · rw [hj, Function.update_same]
    · have hne : j ≠ k := fun hh => hk (hh ▸ hj)
      rw [Function.update_noteq hne]
      have := hb j (hsub.subset hj)
      omega

theorem LRUCache.evict_keys_sublist (c : LRUCache V) : c.evict.keys.Sublist c.keys := by
  have h1 : c.evict.order.Sublist c.order := by
    unfold LRUCache.evict
    split
    · split
      · exact List.erase_sublist _ _
      · exact List.Sublist.refl _
    · exact List.Sublist.refl _
  unfold LRUCache.keys
  rw [(LRUCache.evict_next c).2.2]
  exact h1.map _

theorem Traced.apply_ordered [Inhabited V] (t : Traced V) (op : CacheOp V)
    (h : t.cache.coherent) (ho : t.ordered) :
    (t.apply op).cache = t.cache.apply op ∧ (t.apply op).ordered := by
  refine ⟨by cases op <;> rfl, ?_⟩
  cases op with
  | get k =>
    cases hc : t.cache.cache k with
    | none =>
      have hg := LRUCache.Get_miss t.cache k hc
      simp only [Traced.apply, hg, Bool.false_eq_true, if_false]
      exact ⟨ho.1, fun j hj => Nat.le_succ_of_le (ho.2 j hj)⟩
    | some a =>
      have hkeys := LRUCache.Get_hit_keys t.cache h k a hc
      have hg := LRUCache.Get_hit t.cache k a hc
      have hres : (t.cache.Get k).1.2 = true := by rw [hg]
      simp only [Traced.apply, hres, if_true]
      unfold Traced.ordered
      simp only
      rw [hkeys]
      exact ordered_touch t.cache.keys _ t.used t.clock k (List.erase_sublist _ _)
        ((LRUCache.keys_nodup t.cache h).not_mem_erase) ho.1 ho.2
  | set k v =>
    simp only [Traced.apply]
    unfold Traced.ordered
    simp only
    cases hc : t.cache.cache k with
    | some a =>
      rw [LRUCache.Set_hit_keys t.cache h k v a hc]
      exact ordered_touch t.cache.keys _ t.used t.clock k (List.erase_sublist _ _)
        ((LRUCache.keys_nodup t.cache h).not_mem_erase) ho.1 ho.2
    | none =>
      have hev := LRUCache.evict_coherent t.cache h
      have hnone := LRUCache.evict_cache_none t.cache k hc
      have hk : k ∉ t.cache.evict.keys := by
        rw [LRUCache.mem_keys_iff _ hev, hnone]
        simp
      rw [LRUCache.Set_miss t.cache k v hc, LRUCache.pushFront_keys _ hev]
      exact ordered_touch t.cache.keys _ t.used t.clock k
        (LRUCache.evict_keys_sublist t.cache) hk ho.1 ho.2

theorem Traced.run_ordered [Inhabited V] (ops : List (CacheOp V)) (t : Traced V)
    (h : t.cache.coherent) (ho : t.ordered) :
    (t.run ops).cache = t.cache.run ops ∧ (t.run ops).cache.coherent ∧ (t.run ops).ordered := by
  induction ops generalizing t with
  | nil => exact ⟨rfl, h, ho⟩
  | cons op ops ih =>
    have h1 := Traced.apply_ordered t op h ho
    have hco : (t.apply op).cache.coherent := by
      rw [h1.1]
      cases op with
      | get k => exact LRUCache.Get_coherent t.cache k h
      | set k v => exact LRUCache.Set_coherent t.cache k v h
    have h2 := ih (t.apply op) hco h1.2
    refine ⟨?_, h2.2.1, h2.2.2⟩
    have : (t.run (op :: ops)).cache = ((t.apply op).run ops).cache := rfl
    rw [this, h2.1, h1.1]
    rfl

theorem Traced.init_ordered [Inhabited V] (capacity : Int) :
    (Traced.init capacity : Traced V).cache.coherent ∧
      (Traced.init capacity : Traced V).ordered := by
  refine ⟨NewLRU_coherent capacity, ?_, ?_⟩
  · simp [Traced.init, NewLRU, LRUCache.keys]
  · intro k hk
    simp [Traced.init, NewLRU, LRUCache.keys] at hk

end LRURecency

/-! ## LRUCache: what a call does to the stored values -/

section LRUValues

variable {V : Type}

theorem LRUCache.Set_Get [Inhabited V] (c : LRUCache V) (k : String) (v : V) :
    ((c.Set k v).Get k).1 = (v, true) := by
  cases hc : c.cache k with
  | some a =>
    have h1 : (c.Set k v).cache k = some a := by
      rw [LRUCache.Set_hit c k v a hc]
      exact hc
    rw [LRUCache.Get_hit _ k a h1, LRUCache.Set_hit c k v a hc]
    simp
  | none =>
    have h1 : (c.Set k v).cache k = some c.evict.next := by
      rw [LRUCache.Set_miss c k v hc]
      simp [LRUCache.pushFront]
    rw [LRUCache.Get_hit _ k _ h1, LRUCache.Set_miss c k v hc]
    simp [LRUCache.pushFront]

theorem LRUCache.Get_lookup [Inhabited V] (c : LRUCache V) (k j : String) :
    (c.Get k).2.lookup j = c.lookup j := by
  cases hc : c.cache k with
  | none => rw [LRUCache.Get_miss c k hc]
  | some a => rw [LRUCache.Get_hit c k a hc]; rfl

theorem LRUCache.Get_hit_value [Inhabited V] (c : LRUCache V) (k : String) (a : Nat)
    (hc : c.cache k = some a) :
    c.lookup k = some (c.elems a).value ∧ (c.Get k).1 = ((c.elems a).value, true) := by
  rw [LRUCache.Get_hit c k a hc]
  exact ⟨by simp [LRUCache.lookup, hc], rfl⟩

theorem LRUCache.Set_hit_lookup (c : LRUCache V) (h : c.coherent) (k : String) (v : V)
    (a : Nat) (hc : c.cache k = some a) :
    (c.Set k v).lookup k = some v ∧ ∀ j, j ≠ k → (c.Set k v).lookup j = c.lookup j := by
  rw [LRUCache.Set_hit c k v a hc]
  constructor
  · simp [LRUCache.lookup, hc]
  · intro j hj
    simp only [LRUCache.lookup]
    cases hcj : c.cache j with
    | none => rfl
    | some b =>
      have hb := (h.2.2.1 j b hcj).2
      have hne : b ≠ a := by
        intro hh
        rw [hh, (h.2.2.1 k a hc).2] at hb
        exact hj hb.symm
      simp [Function.update_noteq hne]

theorem LRUCache.pushFront_lookup (c : LRUCache V) (h : c.coherent) (k : String) (v : V) :
    (c.pushFront k v).lookup k = some v ∧
      ∀ j, j ≠ k → (c.pushFront k v).lookup j = c.lookup j := by
  constructor
  · simp [LRUCache.lookup, LRUCache.pushFront]
  · intro j hj
    simp only [LRUCache.lookup, LRUCache.pushFront, Function.update_noteq hj]
    cases hcj : c.cache j with
    | none => rfl
    | some b =>
      have hb := (h.2.2.1 j b hcj).1
      have hne : b ≠ c.next := fun hh => absurd (h.2.1 b hb) (by rw [hh]; exact lt_irrefl _)
      simp [Function.update_noteq hne]

theorem LRUCache.evict_lookup (c : LRUCache V) (oldest : Nat)
    (hfull : (c.order.length : Int) ≥ c.capacity) (hlast : c.order.getLast? = some oldest) :
    c.evict.lookup (c.elems oldest).key = none ∧
      ∀ j, j ≠ (c.elems oldest).key → c.evict.lookup j = c.lookup j := by
  rw [LRUCache.evict_full c oldest hfull hlast]
  constructor
  · simp [LRUCache.lookup]
  · intro j hj
    simp [LRUCache.lookup, Function.update_noteq hj]

end LRUValues

/-! ## Settled properties -/

/-- C1: from `NewPool(size, factory, healthCheck)`, after any interleaving of `Get`,
`Put` and monitor steps in which `Put` is applied only to a connection currently
leased (ending that lease), at most `size` connections are idle, idle plus leased
is at most `size`, and so at most `size` connections are leased at once. -/
theorem pool_capacity_invariant {σ : Type} (size : Nat)
    (factory : σ → Except String Connection × σ) (healthCheck : Connection → σ → Bool × σ)
    (env : σ) (acts : List (Action σ)) (s : System σ)
    (h : System.run leasedPut (System.init (NewPool size factory healthCheck env)) acts = some s) :
    s.world.idle.length ≤ size ∧ s.world.idle.length + s.leased.length ≤ size ∧
      s.leased.length ≤ size := by
  have h1 := run_leasedPut_total acts _ s h
  rw [init_total] at h1
  have h2 := NewPool_length_le size factory healthCheck env
  have h3 : s.world.idle.length + s.leased.length + s.inFlight ≤ size := le_trans h1.2 h2
  omega

/-- C1 at a concrete run: a pool of size 2, two leases, one release, a monitor
tick in two halves. -/
theorem pool_capacity_invariant_witness :
    ∃ h : demoRun.isSome = true,
      (demoRun.get h).world.idle.length ≤ 2 ∧
        (demoRun.get h).world.idle.length + (demoRun.get h).leased.length ≤ 2 ∧
        (demoRun.get h).leased.length ≤ 2 := by
  have h : demoRun.isSome = true := rfl
  exact ⟨h, pool_capacity_invariant 2 counterFactory fieldHealthCheck 0 demoActs
    (demoRun.get h) (Option.some_get h).symm⟩

/-- C2 as stated fails: on the pool `NewPool 1 brokenFactory fieldHealthCheck`,
`Get` returns the connection with ID 1 without error, and no health check of
that connection returning true is among the calls made during that `Get`. -/
theorem Get_returns_unchecked_replacement :
    ¬ ∀ (w : World Nat) (c : Connection), (Get w).1 = Except.ok c →
        ∃ made, (Get w).2.calls = w.calls ++ made ∧ made.any (Call.passes c) = true := by
  intro h
  obtain ⟨made, h1, h2⟩ :=
    h (NewPool 1 brokenFactory fieldHealthCheck 0) { ID := 1, Healthy := false } rfl
  have h3 : made = [Call.healthCheck { ID := 0, Healthy := false } false,
      Call.factory (Except.ok { ID := 1, Healthy := false })] := by
    have h4 : [Call.factory (Except.ok { ID := 0, Healthy := false })] ++
        [Call.healthCheck { ID := 0, Healthy := false } false,
          Call.factory (Except.ok { ID := 1, Healthy := false })] =
        [Call.factory (Except.ok { ID := 0, Healthy := false })] ++ made := h1
    exact (List.append_cancel_left h4).symm
  subst h3
  simp [Call.passes] at h2

/-- C2, amended: when `Get` returns a connection `c` without error, the idle
queue had a head; during that `Get` the health check was called once, on the
head; either it returned true, `c` is the head and nothing else was called, or it
returned false and `c` is the result of the one factory call that followed, on
which no health check is made. -/
theorem Get_ok_checked_or_replacement {σ : Type} (w : World σ) (c : Connection)
    (h : (Get w).1 = Except.ok c) :
    ∃ head rest, w.pool.conns = head :: rest ∧
      (((Get w).2.calls = w.calls ++ [Call.healthCheck head true] ∧ c = head) ∨
       ((Get w).2.calls =
          w.calls ++ [Call.healthCheck head false, Call.factory (Except.ok c)])) := by
  cases hq : w.pool.conns with
  | nil => rw [Get_nil w hq] at h; cases h
  | cons head rest =>
    refine ⟨head, rest, rfl, ?_⟩
    rw [Get_cons w head rest hq] at h ⊢
    cases hb : (callHealthCheck (w.setConns rest) head).1 with
    | true =>
      left
      rw [hb] at h
      simp only [if_true] at h ⊢
      refine ⟨?_, ?_⟩
      · have hb1 : (w.pool.healthCheck head w.env).1 = true := hb
        simp [callHealthCheck, World.setConns, hb1]
      · injection h with h1
        exact h1.symm
    | false =>
      right
      rw [hb] at h
      simp only [Bool.false_eq_true, if_false] at h ⊢
      have hb1 : (w.pool.healthCheck head w.env).1 = false := hb
      rw [reconnect_world]
      unfold reconnect at h
      cases hf : (callFactory (callHealthCheck (w.setConns rest) head).2).1 with
      | ok d =>
        have hd : d = c := by
          rcases hcf : callFactory (callHealthCheck (w.setConns rest) head).2 with ⟨r, w2⟩
          rw [hcf] at h hf
          simp only at hf
          subst hf
          simp only at h
          injection h
        subst hd
        have hf1 : (w.pool.factory (w.pool.healthCheck head w.env).2).1 = Except.ok d := hf
        simp [callFactory, callHealthCheck, World.setConns, hb1, hf1]
      | error e =>
        rcases hcf : callFactory (callHealthCheck (w.setConns rest) head).2 with ⟨r, w2⟩
        rw [hcf] at h hf
        simp only at hf
        subst hf
        simp only at h
        cases h

/-- C2 amended, at a concrete pool: the broken factory's replacement is returned
after the failed check of the head. -/
theorem Get_ok_checked_or_replacement_witness :
    ∃ head rest, (NewPool 1 brokenFactory fieldHealthCheck 0).pool.conns = head :: rest ∧
      (((Get (NewPool 1 brokenFactory fieldHealthCheck 0)).2.calls =
          (NewPool 1 brokenFactory fieldHealthCheck 0).calls ++ [Call.healthCheck head true] ∧
          ({ ID := 1, Healthy := false } : Connection) = head) ∨
       ((Get (NewPool 1 brokenFactory fieldHealthCheck 0)).2.calls =
          (NewPool 1 brokenFactory fieldHealthCheck 0).calls ++
            [Call.healthCheck head false,
             Call.factory (Except.ok { ID := 1, Healthy := false })])) :=
  Get_ok_checked_or_replacement (NewPool 1 brokenFactory fieldHealthCheck 0)
    { ID := 1, Healthy := false } rfl

/-- C3: the result of `Get` is fixed by the head of the idle queue. With no idle
connection it fails with the timeout error and changes nothing. Otherwise it
takes the head `c` and calls the health check on it once: if that returns true,
`Get` returns `c` and the factory is not called; if it returns false, `c` is not
put back, the factory is called once and `Get` returns what the factory returned
(the replacement, or the factory's error with no connection). In every case with
a head the idle queue afterwards is the earlier one without its head. -/
theorem Get_determined_by_head {σ : Type} (w : World σ) :
    (w.pool.conns = [] → Get w = (Except.error PoolError.timeout, w)) ∧
    (∀ c rest, w.pool.conns = c :: rest →
      (Get w).2.pool.conns = rest ∧
      (Get w).2.idle.length + 1 = w.idle.length ∧
      ((w.pool.healthCheck c w.env).1 = true →
        Get w = (Except.ok c,
          { pool := { w.pool with conns := rest }
            env := (w.pool.healthCheck c w.env).2
            calls := w.calls ++ [Call.healthCheck c true] })) ∧
      ((w.pool.healthCheck c w.env).1 = false →
        (∀ d, (w.pool.factory (w.pool.healthCheck c w.env).2).1 = Except.ok d →
          Get w = (Except.ok d,
            { pool := { w.pool with conns := rest }
              env := (w.pool.factory (w.pool.healthCheck c w.env).2).2
              calls := w.calls ++ [Call.healthCheck c false, Call.factory (Except.ok d)] })) ∧
        (∀ e, (w.pool.factory (w.pool.healthCheck c w.env).2).1 = Except.error e →
          Get w = (Except.error (PoolError.factory e),
            { pool := { w.pool with conns := rest }
              env := (w.pool.factory (w.pool.healthCheck c w.env).2).2
              calls := w.calls ++
                [Call.healthCheck c false, Call.factory (Except.error e)] })))) := by
  refine ⟨Get_nil w, ?_⟩
  intro c rest hq
  refine ⟨?_, ?_, ?_, ?_⟩
  · rw [Get_conns, hq]; rfl
  · simp only [World.idle]
    rw [Get_conns, hq]; rfl
  · intro hb
    rw [Get_cons w c rest hq]
    have hb1 : (callHealthCheck (w.setConns rest) c).1 = true := hb
    rw [if_pos hb1]
    simp [callHealthCheck, World.setConns, hb]
  · intro hb
    have hb1 : (callHealthCheck (w.setConns rest) c).1 = false := hb
    rw [Get_cons w c rest hq]
    simp only [hb1, Bool.false_eq_true, if_false]
    refine ⟨?_, ?_⟩
    · intro d hd
      simp [reconnect, callFactory, callHealthCheck, World.setConns, hb, hd]
    · intro e he
      simp [reconnect, callFactory, callHealthCheck, World.setConns, hb, he]

/-- C3 at concrete pools: an empty pool times out; a healthy head is returned;
an unhealthy head is replaced by the factory's connection or by its error. -/
theorem Get_determined_by_head_witness :
    (Get (NewPool 0 counterFactory fieldHealthCheck 0)).1 = Except.error PoolError.timeout ∧
    (Get (NewPool 2 counterFactory fieldHealthCheck 0)).1 =
      Except.ok { ID := 0, Healthy := true } ∧
    (Get (NewPool 2 brokenFactory fieldHealthCheck 0)).1 =
      Except.ok { ID := 2, Healthy := false } ∧
    (Get (NewPool 2 flakyFactory neverHealthy 1)).1 =
      Except.error (PoolError.factory "dial failed") ∧
    (Get (NewPool 2 flakyFactory neverHealthy 1)).2.pool.conns = [] := by
  have h0 := (Get_determined_by_head (NewPool 0 counterFactory fieldHealthCheck 0)).1 rfl
  have h1 := ((Get_determined_by_head (NewPool 2 counterFactory fieldHealthCheck 0)).2
    { ID := 0, Healthy := true } [{ ID := 1, Healthy := true }] rfl).2.2.1 rfl
  have h2 := (((Get_determined_by_head (NewPool 2 brokenFactory fieldHealthCheck 0)).2
    { ID := 0, Healthy := false } [{ ID := 1, Healthy := false }] rfl).2.2.2 rfl).1
    { ID := 2, Healthy := false } rfl
  have h3 := (((Get_determined_by_head (NewPool 2 flakyFactory neverHealthy 1)).2
    { ID := 2, Healthy := true } [] rfl).2.2.2 rfl).2 "dial failed" rfl
  rw [h0, h1, h2, h3]
  exact ⟨rfl, rfl, rfl, rfl, rfl⟩

/-- C4 as stated fails: the pool `NewPool 3 failingFactory neverHealthy` has a
health check that reports every connection unhealthy and a factory that always
fails, and `Get` on it fails with the timeout error, not with the factory's. -/
theorem Get_fresh_pool_failing_factory_times_out :
    (Get (NewPool 3 failingFactory neverHealthy 0)).1 = Except.error PoolError.timeout ∧
    (Get (NewPool 3 failingFactory neverHealthy 0)).1 ≠
      Except.error (PoolError.factory "dial failed") := by
  constructor
  · rfl
  · intro h
    have h1 : (Get (NewPool 3 failingFactory neverHealthy 0)).1 =
        Except.error PoolError.timeout := rfl
    rw [h1] at h
    injection h with h2
    cases h2

/-- C4, amended: with a health check that reports every connection unhealthy
and a factory that always fails, `Get` on a pool that has an idle connection
fails with the factory's error and not with the timeout error; a pool as
`NewPool` built it with such a factory has no idle connection, and `Get` on it
fails with the timeout error. -/
theorem Get_replacement_error {σ : Type} (w : World σ)
    (hhc : ∀ c e, (w.pool.healthCheck c e).1 = false)
    (hf : ∀ e, ∃ msg, (w.pool.factory e).1 = Except.error msg) :
    (w.pool.conns ≠ [] →
      (∃ msg, (Get w).1 = Except.error (PoolError.factory msg)) ∧
      (Get w).1 ≠ Except.error PoolError.timeout) ∧
    (∀ size env,
      (NewPool size w.pool.factory w.pool.healthCheck env).pool.conns = [] ∧
      (Get (NewPool size w.pool.factory w.pool.healthCheck env)).1 =
        Except.error PoolError.timeout) := by
  constructor
  · intro hne
    cases hq : w.pool.conns with
    | nil => exact absurd hq hne
    | cons c rest =>
      obtain ⟨msg, hmsg⟩ := hf (w.pool.healthCheck c w.env).2
      have hb : (callHealthCheck (w.setConns rest) c).1 = false := hhc c w.env
      have h : (Get w).1 = Except.error (PoolError.factory msg) := by
        rw [Get_cons w c rest hq]
        simp only [hb, Bool.false_eq_true, if_false]
        simp [reconnect, callFactory, callHealthCheck, World.setConns, hmsg]
      rw [h]
      refine ⟨⟨msg, rfl⟩, ?_⟩
      intro h1
      injection h1 with h2
      cases h2
  · intro size env
    have hnil : (NewPool size w.pool.factory w.pool.healthCheck env).pool.conns = [] := by
      unfold NewPool
      rw [(seed_spec size _).1]
      simp only [List.nil_append]
      generalize env = e
      induction size generalizing e with
      | zero => rfl
      | succ n ih =>
        obtain ⟨msg, hmsg⟩ := hf e
        simp only [factoryResults, hmsg, successes]
        exact ih _
    exact ⟨hnil, by rw [Get_nil _ hnil]⟩

/-- C4 amended, at a concrete pool: a connection put into the pool built with
the failing factory makes `Get` fail with the factory's error. -/
theorem Get_replacement_error_witness :
    (∃ msg, (Get (Put (NewPool 3 failingFactory neverHealthy 0)
        { ID := 7, Healthy := true } false).1).1 = Except.error (PoolError.factory msg)) ∧
    (Get (NewPool 3 failingFactory neverHealthy 0)).1 = Except.error PoolError.timeout :=
  ⟨((Get_replacement_error
      (Put (NewPool 3 failingFactory neverHealthy 0) { ID := 7, Healthy := true } false).1
      (fun _ _ => rfl) (fun _ => ⟨"dial failed", rfl⟩)).1 (by decide)).1,
   ((Get_replacement_error
      (Put (NewPool 3 failingFactory neverHealthy 0) { ID := 7, Healthy := true } false).1
      (fun _ _ => rfl) (fun _ => ⟨"dial failed", rfl⟩)).2 3 0).2⟩

/-- C5 as stated fails when a `Get` is waiting: on the pool `NewPool(0, ...)`,
whose idle queue holds `maxSize = 0` connections, `Put(c)` with a `Get` blocked in
its receive does not drop `c`: the send case fires, `c` is handed to that `Get`,
and the `Get` returns it to its caller. -/
theorem Put_hands_over_to_waiting_Get :
    (NewPool 0 counterFactory fieldHealthCheck 0).pool.conns.length =
      (NewPool 0 counterFactory fieldHealthCheck 0).pool.maxSize ∧
    (Put (NewPool 0 counterFactory fieldHealthCheck 0) { ID := 9, Healthy := true } true).2 =
      some { ID := 9, Healthy := true } ∧
    (receiveCase (NewPool 0 counterFactory fieldHealthCheck 0) { ID := 9, Healthy := true }).1 =
      Except.ok { ID := 9, Healthy := true } ∧
    ((System.run anyPut (System.init (NewPool 0 counterFactory fieldHealthCheck 0))
        [Action.putToWaiting { ID := 9, Healthy := true }]).map System.leased) =
      some [{ ID := 9, Healthy := true }] := by
  refine ⟨rfl, rfl, rfl, rfl⟩

/-- C5, amended: `Put` is a total function of the pool state and of whether a
`Get` is waiting (it never blocks), and never leaves more than `maxSize`
connections idle. When a `Get` is blocked in its receive, `Put c` hands `c` to
that `Get` and leaves the pool state unchanged. When none is, on a channel
holding at most `maxSize` connections: if it already holds `maxSize`, `Put c`
leaves the state unchanged and `c` is dropped; otherwise `Put c` appends `c` as
the newest idle connection and changes nothing else. -/
theorem Put_hand_drop_or_append {σ : Type} (w : World σ) (c : Connection)
    (h : w.pool.conns.length ≤ w.pool.maxSize) :
    Put w c true = (w, some c) ∧
    (w.pool.conns.length = w.pool.maxSize → Put w c false = (w, none)) ∧
    (w.pool.conns.length ≠ w.pool.maxSize →
      Put w c false =
        ({ pool := { w.pool with conns := w.pool.conns ++ [c] }, env := w.env, calls := w.calls },
          none)) ∧
    (∀ b, (Put w c b).1.pool.conns.length ≤ w.pool.maxSize) := by
  refine ⟨Put_waiting w c, ?_, ?_, fun b => Put_length_le_maxSize w c b h⟩
  · intro heq
    unfold Put
    rw [if_neg (by simp), if_neg (by omega)]
  · intro hne
    unfold Put
    rw [if_neg (by simp), if_pos (by omega)]
    rfl

/-- C5 amended, at concrete pools with no `Get` waiting: a full pool drops the
connection, a pool with a free slot appends it. -/
theorem Put_hand_drop_or_append_witness :
    (Put (NewPool 2 counterFactory fieldHealthCheck 0)
        { ID := 9, Healthy := true } false).1.pool.conns =
      [{ ID := 0, Healthy := true }, { ID := 1, Healthy := true }] ∧
    (Put (NewPool 2 flakyFactory fieldHealthCheck 0)
        { ID := 9, Healthy := true } false).1.pool.conns =
      [{ ID := 0, Healthy := true }, { ID := 9, Healthy := true }] := by
  have h1 := (Put_hand_drop_or_append (NewPool 2 counterFactory fieldHealthCheck 0)
    { ID := 9, Healthy := true } (by decide)).2.1 rfl
  have h2 := (Put_hand_drop_or_append (NewPool 2 flakyFactory fieldHealthCheck 0)
    { ID := 9, Healthy := true } (by decide)).2.2.1 (by decide)
  rw [h1, h2]
  exact ⟨rfl, rfl⟩

/-- C6: a released connection is available to a later `Get`. On a pool of
capacity at least 1 with no idle connection and no `Get` waiting, `Put c`
followed by `Get` returns `c` without error when the health check passes `c`,
and the idle queue is empty again. More generally, on a queue that is not full, `Put c` places `c` behind the
idle connections; each `Get` takes the oldest one, so after as many `Get`s as there
were idle connections `c` alone is idle, and the next `Get` returns `c` when the
health check passes it. -/
theorem Put_then_Get {σ : Type} (w : World σ) (c : Connection) :
    (w.pool.conns = [] → 1 ≤ w.pool.maxSize → (w.pool.healthCheck c w.env).1 = true →
      (Get (Put w c false).1).1 = Except.ok c ∧ (Get (Put w c false).1).2.pool.conns = []) ∧
    (w.pool.conns.length < w.pool.maxSize →
      (∀ k, k ≤ w.pool.conns.length →
        (getN k (Put w c false).1).pool.conns = w.pool.conns.drop k ++ [c]) ∧
      (getN w.pool.conns.length (Put w c false).1).pool.conns = [c] ∧
      (((getN w.pool.conns.length (Put w c false).1).pool.healthCheck c
            (getN w.pool.conns.length (Put w c false).1).env).1 = true →
        (Get (getN w.pool.conns.length (Put w c false).1)).1 = Except.ok c ∧
        (Get (getN w.pool.conns.length (Put w c false).1)).2.pool.conns = [])) := by
  have key : ∀ v : World σ, v.pool.conns = [c] → (v.pool.healthCheck c v.env).1 = true →
      (Get v).1 = Except.ok c ∧ (Get v).2.pool.conns = [] := by
    intro v hv hb
    refine ⟨?_, by rw [Get_conns, hv]; rfl⟩
    rw [Get_cons v c [] hv]
    have hb1 : (callHealthCheck (v.setConns []) c).1 = true := hb
    rw [if_pos hb1]
  have hput : w.pool.conns.length < w.pool.maxSize →
      (Put w c false).1.pool.conns = w.pool.conns ++ [c] := by
    intro hlt
    unfold Put
    rw [if_neg (by simp), if_pos hlt]
    rfl
  constructor
  · intro hnil hcap hb
    have hlt : w.pool.conns.length < w.pool.maxSize := by rw [hnil]; exact hcap
    have h1 : (Put w c false).1.pool.conns = [c] := by rw [hput hlt, hnil]; rfl
    have h2 : (Put w c false).1.pool.healthCheck = w.pool.healthCheck ∧ (Put w c false).1.env = w.env := by
      unfold Put
      rw [if_neg (by simp), if_pos hlt]
      exact ⟨rfl, rfl⟩
    apply key _ h1
    rw [h2.1, h2.2]
    exact hb
  · intro hlt
    have hdrop : ∀ k, k ≤ w.pool.conns.length →
        (getN k (Put w c false).1).pool.conns = w.pool.conns.drop k ++ [c] := by
      intro k hk
      rw [getN_conns, hput hlt, List.drop_append_of_le_length hk]
    have hlast : (getN w.pool.conns.length (Put w c false).1).pool.conns = [c] := by
      rw [hdrop _ (le_refl _)]
      simp
    exact ⟨hdrop, hlast, key _ hlast⟩

/-- C6 at a concrete pool: all connections leased, one released, and the next
`Get` returns it; and with one idle connection ahead of it, the second `Get`
returns it. -/
theorem Put_then_Get_witness :
    (Get (Put (getN 2 (NewPool 2 counterFactory fieldHealthCheck 0))
        { ID := 0, Healthy := true } false).1).1 = Except.ok { ID := 0, Healthy := true } ∧
    (Get (getN 1 (Put (getN 1 (NewPool 2 counterFactory fieldHealthCheck 0))
        { ID := 0, Healthy := true } false).1)).1 = Except.ok { ID := 0, Healthy := true } :=
  ⟨((Put_then_Get (getN 2 (NewPool 2 counterFactory fieldHealthCheck 0))
      { ID := 0, Healthy := true }).1 rfl (by decide) rfl).1,
   (((Put_then_Get (getN 1 (NewPool 2 counterFactory fieldHealthCheck 0))
      { ID := 0, Healthy := true }).2 (by decide)).2.2 rfl).1⟩

/-- C7: `NewPool(size, factory, healthCheck)` always returns a pool. It calls the
factory exactly `size` times and nothing else; its idle queue is exactly the
connections of the successful calls, in call order; so the idle count is the
number of successful calls, is at most `size`, and is 0 when every call fails. -/
theorem NewPool_seeding {σ : Type} (size : Nat) (factory : σ → Except String Connection × σ)
    (healthCheck : Connection → σ → Bool × σ) (env : σ) :
    (NewPool size factory healthCheck env).calls =
      (factoryResults factory size env).map Call.factory ∧
    (NewPool size factory healthCheck env).calls.length = size ∧
    (NewPool size factory healthCheck env).pool.conns =
      successes (factoryResults factory size env) ∧
    (NewPool size factory healthCheck env).idle.length =
      ((factoryResults factory size env).filter Except.toBool).length ∧
    (NewPool size factory healthCheck env).idle.length ≤ size ∧
    ((∀ r ∈ factoryResults factory size env, ∃ e, r = Except.error e) →
      (NewPool size factory healthCheck env).idle.length = 0) ∧
    (NewPool size factory healthCheck env).pool.maxSize = size ∧
    (NewPool size factory healthCheck env).env = envAfter factory size env := by
  have hs := seed_spec size
    { pool := { conns := [], factory := factory, healthCheck := healthCheck, maxSize := size }
      env := env
      calls := [] }
  have hc : (NewPool size factory healthCheck env).pool.conns =
      successes (factoryResults factory size env) := by
    unfold NewPool
    rw [hs.1]
    rfl
  have hl : (NewPool size factory healthCheck env).calls =
      (factoryResults factory size env).map Call.factory := by
    unfold NewPool
    rw [hs.2.1]
    rfl
  refine ⟨hl, ?_, hc, ?_, NewPool_length_le size factory healthCheck env, ?_,
    NewPool_maxSize size factory healthCheck env, hs.2.2.1⟩
  · rw [hl, List.length_map, factoryResults_length]
  · simp only [World.idle]
    rw [hc, successes_length]
  · intro hall
    simp only [World.idle]
    rw [hc, successes_all_error _ hall]
    rfl

/-- C7 at concrete factories: three calls that succeed, four calls of which the
even ones succeed, three calls that fail. -/
theorem NewPool_seeding_witness :
    (NewPool 3 counterFactory fieldHealthCheck 0).pool.conns =
      [{ ID := 0, Healthy := true }, { ID := 1, Healthy := true }, { ID := 2, Healthy := true }] ∧
    (NewPool 4 flakyFactory fieldHealthCheck 0).pool.conns =
      [{ ID := 0, Healthy := true }, { ID := 2, Healthy := true }] ∧
    (NewPool 3 failingFactory fieldHealthCheck 0).idle.length = 0 := by
  have h1 := (NewPool_seeding 3 counterFactory fieldHealthCheck 0).2.2.1
  have h2 := (NewPool_seeding 4 flakyFactory fieldHealthCheck 0).2.2.1
  have h3 := (NewPool_seeding 3 failingFactory fieldHealthCheck 0).2.2.2.2.2.1 (by
    intro r hr
    simp [factoryResults, failingFactory] at hr
    exact ⟨"dial failed", hr⟩)
  rw [h1, h2, h3]
  exact ⟨rfl, rfl, rfl⟩

/-- C8: one monitor tick on a channel holding at most `maxSize` connections
completes, and touches at most the oldest idle connection. With no idle
connection it changes nothing. Otherwise it takes the oldest one `c` and checks
it: if healthy, `c` is put back as the newest idle connection, so the idle
connections are the same up to order; if unhealthy, the factory is called once
and its connection is put back in place of `c` (same idle count), or nothing is
when it fails (idle count one less). No half of a tick changes what is leased. -/
theorem monitorTick_spec {σ : Type} (w : World σ) (h : w.pool.conns.length ≤ w.pool.maxSize) :
    (w.pool.conns = [] → monitorTick w = some w) ∧
    (∀ c rest, w.pool.conns = c :: rest →
      ((w.pool.healthCheck c w.env).1 = true →
        monitorTick w = some
          { pool := { w.pool with conns := rest ++ [c] }
            env := (w.pool.healthCheck c w.env).2
            calls := w.calls ++ [Call.healthCheck c true] } ∧
        (rest ++ [c]).Perm w.pool.conns) ∧
      ((w.pool.healthCheck c w.env).1 = false →
        (∀ d, (w.pool.factory (w.pool.healthCheck c w.env).2).1 = Except.ok d →
          monitorTick w = some
            { pool := { w.pool with conns := rest ++ [d] }
              env := (w.pool.factory (w.pool.healthCheck c w.env).2).2
              calls := w.calls ++ [Call.healthCheck c false, Call.factory (Except.ok d)] } ∧
          (rest ++ [d]).length = w.idle.length) ∧
        (∀ e, (w.pool.factory (w.pool.healthCheck c w.env).2).1 = Except.error e →
          monitorTick w = some
            { pool := { w.pool with conns := rest }
              env := (w.pool.factory (w.pool.healthCheck c w.env).2).2
              calls := w.calls ++ [Call.healthCheck c false, Call.factory (Except.error e)] } ∧
          rest.length + 1 = w.idle.length))) ∧
    (∀ s s1 : System σ, s.step Action.monitorTake = some s1 → s1.leased = s.leased) ∧
    (∀ s s1 : System σ, s.step Action.monitorSend = some s1 → s1.leased = s.leased) := by
  refine ⟨?_, ?_, ?_, ?_⟩
  · intro hq
    unfold monitorTick
    rw [monitorTake_nil w hq]
  · intro c rest hq
    have hlen : rest.length < w.pool.maxSize := by
      rw [hq] at h
      simp only [List.length_cons] at h
      omega
    constructor
    · intro hb
      have hb1 : (callHealthCheck (w.setConns rest) c).1 = true := hb
      refine ⟨?_, ?_⟩
      · unfold monitorTick
        rw [monitorTake_cons w c rest hq, if_pos hb1]
        simp only [monitorSend, callHealthCheck, World.setConns]
        rw [if_pos hlen]
        simp [hb]
      · rw [hq]
        exact (List.perm_append_singleton c rest)
    · intro hb
      have hb1 : (callHealthCheck (w.setConns rest) c).1 = false := hb
      constructor
      · intro d hd
        have hd1 : (callFactory (callHealthCheck (w.setConns rest) c).2).1 = Except.ok d := hd
        refine ⟨?_, by simp [World.idle, hq]⟩
        unfold monitorTick
        rw [monitorTake_cons w c rest hq]
        simp only [hb1, Bool.false_eq_true, if_false, hd1]
        simp only [monitorSend, callFactory, callHealthCheck, World.setConns]
        rw [if_pos hlen]
        simp [hb, hd]
      · intro e he
        have he1 : (callFactory (callHealthCheck (w.setConns rest) c).2).1 = Except.error e := he
        refine ⟨?_, by simp [World.idle, hq]⟩
        unfold monitorTick
        rw [monitorTake_cons w c rest hq]
        simp only [hb1, Bool.false_eq_true, if_false, he1]
        simp [callFactory, callHealthCheck, World.setConns, hb, he]
  · intro s s1 hs
    simp only [System.step] at hs
    cases hh : s.held with
    | some c => rw [hh] at hs; cases hs
    | none =>
      rw [hh] at hs
      simp only [Option.some.injEq] at hs
      subst hs
      rfl
  · intro s s1 hs
    simp only [System.step] at hs
    cases hh : s.held with
    | none => rw [hh] at hs; cases hs
    | some c =>
      rw [hh] at hs
      dsimp only at hs
      cases hm : monitorSend s.world c with
      | none => rw [hm] at hs; cases hs
      | some v =>
        rw [hm] at hs
        simp only [Option.some.injEq] at hs
        subst hs
        rfl

/-- C8 at concrete pools: a healthy head moves to the back; an unhealthy head is
replaced at the back; with a failing factory it is gone. -/
theorem monitorTick_spec_witness :
    (monitorTick (NewPool 2 counterFactory fieldHealthCheck 0)).map World.idle =
      some [{ ID := 1, Healthy := true }, { ID := 0, Healthy := true }] ∧
    (monitorTick (NewPool 2 brokenFactory fieldHealthCheck 0)).map World.idle =
      some [{ ID := 1, Healthy := false }, { ID := 2, Healthy := false }] ∧
    (monitorTick (NewPool 2 flakyFactory neverHealthy 1)).map World.idle = some [] := by
  have h1 := (((monitorTick_spec (NewPool 2 counterFactory fieldHealthCheck 0) (by decide)).2.1
    { ID := 0, Healthy := true } [{ ID := 1, Healthy := true }] rfl).1 rfl).1
  have h2 := ((((monitorTick_spec (NewPool 2 brokenFactory fieldHealthCheck 0) (by decide)).2.1
    { ID := 0, Healthy := false } [{ ID := 1, Healthy := false }] rfl).2 rfl).1
    { ID := 2, Healthy := false } rfl).1
  have h3 := ((((monitorTick_spec (NewPool 2 flakyFactory neverHealthy 1) (by decide)).2.1
    { ID := 2, Healthy := true } [] rfl).2 rfl).2 "dial failed" rfl).1
  rw [h1, h2, h3]
  exact ⟨rfl, rfl, rfl⟩

/-- C9 as stated fails when `Put` is given a connection that was never leased:
on a pool of size 1, the monitor takes the only idle connection, a caller puts a
connection of its own, and the monitor's send finds the channel full. -/
theorem monitor_blocked_by_foreign_Put :
    ¬ ∀ (acts : List (Action Nat)) (s : System Nat),
        System.run anyPut (System.init (NewPool 1 counterFactory fieldHealthCheck 0)) acts =
          some s →
        s.monitorBlocked = false := by
  intro h
  have hsome : foreignPutRun.isSome = true := rfl
  have h1 := h foreignPutActs (foreignPutRun.get hsome) (Option.some_get hsome).symm
  have h2 : (foreignPutRun.get hsome).monitorBlocked = true := rfl
  rw [h2] at h1
  cases h1

/-- C9, amended: in every state reached from `NewPool` by interleaved `Get`,
`Put` and monitor steps in which `Put` is applied only to a connection currently
leased (ending that lease), whenever the monitor holds a connection to send back
the channel has a free slot, so its send can be taken and the tick completes. -/
theorem monitor_send_finds_slot {σ : Type} (size : Nat)
    (factory : σ → Except String Connection × σ) (healthCheck : Connection → σ → Bool × σ)
    (env : σ) (acts : List (Action σ)) (s : System σ)
    (h : System.run leasedPut (System.init (NewPool size factory healthCheck env)) acts = some s) :
    s.monitorBlocked = false ∧
    (∀ c, s.held = some c →
      s.world.idle.length < s.world.pool.maxSize ∧
      s.step Action.monitorSend =
        some { s with world := s.world.setConns (s.world.pool.conns ++ [c]), held := none }) := by
  have h1 := run_leasedPut_total acts _ s h
  rw [init_total] at h1
  have h2 := NewPool_length_le size factory healthCheck env
  have h3 : s.total ≤ s.world.pool.maxSize := by
    rw [h1.1]
    have h4 : (System.init (NewPool size factory healthCheck env)).world.pool.maxSize = size :=
      NewPool_maxSize size factory healthCheck env
    rw [h4]
    exact le_trans h1.2 h2
  have key : ∀ c, s.held = some c → s.world.pool.conns.length < s.world.pool.maxSize := by
    intro c hc
    simp only [System.total, System.inFlight, hc] at h3
    omega
  constructor
  · unfold System.monitorBlocked
    cases hh : s.held with
    | none => rfl
    | some c =>
      simp only [monitorSend]
      rw [if_pos (key c hh)]
      rfl
  · intro c hc
    refine ⟨key c hc, ?_⟩
    simp only [System.step, hc, monitorSend]
    rw [if_pos (key c hc)]

/-- C9 amended, at a concrete run: a lease, the first half of a tick, a release;
the monitor's send still has a slot. -/
theorem monitor_send_finds_slot_witness :
    ∃ h : midTickRun.isSome = true,
      (midTickRun.get h).held = some { ID := 1, Healthy := true } ∧
      (midTickRun.get h).monitorBlocked = false := by
  have h : midTickRun.isSome = true := rfl
  exact ⟨h, rfl, (monitor_send_finds_slot 2 counterFactory fieldHealthCheck 0 midTickActs
    (midTickRun.get h) (Option.some_get h).symm).1⟩

/-- C10 as stated fails: on `demoHandler` both hooks return before the deadline,
yet the verdict is the forced one when the deadline elapses before the goroutine
`wg.Wait(); close(done)` has closed `done`, and also when `done` is closed in
time but `Wait` reaches its `select` after the deadline and Go picks the
`ctx.Done()` case; with a timeout of zero and no hook the verdict is the forced
one; and with both hooks still running at the deadline the verdict is the
graceful one when `Wait` reaches its `select` after `done` is closed and Go picks
that case. -/
theorem Wait_verdict_not_by_completion_alone :
    (demoHandler.Wait [Event.reachSelect Verdict.graceful, Event.returns 0, Event.returns 1,
      Event.deadline, Event.closeDone]).verdict = some Verdict.forced ∧
    Event.returns 0 ∈ beforeDeadline [Event.reachSelect Verdict.graceful, Event.returns 0,
      Event.returns 1, Event.deadline, Event.closeDone] ∧
    Event.returns 1 ∈ beforeDeadline [Event.reachSelect Verdict.graceful, Event.returns 0,
      Event.returns 1, Event.deadline, Event.closeDone] ∧
    (demoHandler.Wait [Event.returns 0, Event.returns 1, Event.closeDone, Event.deadline,
      Event.reachSelect Verdict.forced]).verdict = some Verdict.forced ∧
    ((NewShutdownHandler 0).Wait [Event.reachSelect Verdict.graceful]).verdict =
      some Verdict.forced ∧
    (demoHandler.Wait [Event.deadline, Event.returns 0, Event.returns 1, Event.closeDone,
      Event.reachSelect Verdict.graceful]).verdict = some Verdict.graceful := by
  refine ⟨rfl, by decide, by decide, rfl, rfl, rfl⟩

/-- C10, amended: for a handler with a positive timeout and a schedule in which
`Wait` reaches its `select` before the deadline, if all hooks complete and `done`
is closed before the deadline, `Wait` reports graceful completion; if at least
one hook has not completed when the deadline elapses, `Wait` reports the forced
verdict. For every handler and schedule: the verdict, once taken, stays; a
graceful verdict is taken only when every hook has completed and a forced one,
under a positive timeout, only when the deadline has elapsed; and a handler with
the same timeout and as many hooks, whatever they return, gets the same
verdict. -/
theorem Wait_verdict (h : ShutdownHandler) (es : List Event) :
    (0 < h.timeout → (∃ pick, Event.reachSelect pick ∈ beforeDeadline es) →
      (∃ p1 p2, beforeDeadline es = p1 ++ Event.closeDone :: p2 ∧
        ∀ i, i < h.hooks.length → Event.returns i ∈ p1) →
      (h.Wait es).verdict = some Verdict.graceful) ∧
    (0 < h.timeout → (∃ pick, Event.reachSelect pick ∈ beforeDeadline es) →
      Event.deadline ∈ es →
      (∃ i, i < h.hooks.length ∧ Event.returns i ∉ beforeDeadline es) →
      (h.Wait es).verdict = some Verdict.forced) ∧
    (∀ more v, (h.Wait es).verdict = some v → (h.Wait (es ++ more)).verdict = some v) ∧
    ((h.Wait es).verdict = some Verdict.graceful →
      (h.Wait es).running = [] ∧ ∀ i, i < h.hooks.length → Event.returns i ∈ es) ∧
    ((h.Wait es).verdict = some Verdict.forced →
      (h.Wait es).ctxDone = true ∧ (0 < h.timeout → Event.deadline ∈ es)) ∧
    (∀ h2 : ShutdownHandler, h2.hooks.length = h.hooks.length → h2.timeout = h.timeout →
      (h2.Wait es).verdict = (h.Wait es).verdict) := by
  have hs := Wait_sound h es
  refine ⟨?_, ?_, ?_, ?_, ?_, ?_⟩
  · rintro ht hsel ⟨p1, p2, hsplit, hall⟩
    exact Wait_graceful_of_done_before_deadline h es ht hsel p1 p2 hsplit hall
  · rintro ht hsel hdl ⟨i, hi, hnot⟩
    exact Wait_forced_of_running_at_deadline h es ht hsel hdl i hi hnot
  · intro more v hv
    rw [Wait_append]
    exact Session.foldl_verdict_some more _ v hv
  · intro hv
    have hrun : (h.Wait es).running = [] := hs.1 (hs.2.1 hv)
    refine ⟨hrun, ?_⟩
    intro i hi
    by_contra hnot
    have hmem : i ∈ (h.Wait es).running :=
      Session.foldl_running_keep es (Session.start h) i (List.mem_range.mpr hi) hnot
    rw [hrun] at hmem
    cases hmem
  · intro hv
    have hx : (h.Wait es).ctxDone = true := hs.2.2.1 hv
    refine ⟨hx, ?_⟩
    intro ht
    by_contra hnot
    have hcalm := (Session.calm_foldl es (Session.start h) (Session.start_sound h)
      (Session.start_ctxDone h ht) hnot).1
    have hx2 : (es.foldl Session.step (Session.start h)).ctxDone = true := hx
    rw [hcalm] at hx2
    cases hx2
  · intro h2 hlen ht
    exact (Wait_sameControl h h2 hlen ht es).1

/-- C10 amended, at concrete schedules on `demoHandler`: with `Wait` in its
`select`, both hooks returned and `done` closed, the verdict is graceful although
the second hook failed; with the second hook still running at the deadline the
verdict is forced. -/
theorem Wait_verdict_witness :
    (demoHandler.Wait [Event.reachSelect Verdict.graceful, Event.returns 1, Event.returns 0,
      Event.closeDone, Event.closeErrChan, Event.logError]).verdict = some Verdict.graceful ∧
    (demoHandler.Wait [Event.reachSelect Verdict.graceful, Event.returns 0,
      Event.deadline]).verdict = some Verdict.forced :=
  ⟨(Wait_verdict demoHandler [Event.reachSelect Verdict.graceful, Event.returns 1,
      Event.returns 0, Event.closeDone, Event.closeErrChan, Event.logError]).1 (by decide)
      ⟨Verdict.graceful, by decide⟩
      ⟨[Event.reachSelect Verdict.graceful, Event.returns 1, Event.returns 0],
        [Event.closeErrChan, Event.logError], rfl, by decide⟩,
   (Wait_verdict demoHandler [Event.reachSelect Verdict.graceful, Event.returns 0,
      Event.deadline]).2.1 (by decide) ⟨Verdict.graceful, by decide⟩ (by decide)
      ⟨1, by decide, by decide⟩⟩

/-- C11 as stated fails: on the handler with one failing hook, `Wait` is in its
`select` when the deadline elapses and takes the forced verdict with the hook
still running; the hook then returns and sends its error before `Wait` runs
`close(errChan)`, and the error is reported, although the hook had not completed
when `Wait` stopped waiting. -/
theorem Wait_reports_failure_after_the_verdict :
    (oneFailingHandler.Wait [Event.reachSelect Verdict.graceful, Event.deadline]).verdict =
      some Verdict.forced ∧
    (oneFailingHandler.Wait [Event.reachSelect Verdict.graceful, Event.deadline]).running =
      [0] ∧
    (oneFailingHandler.Wait [Event.reachSelect Verdict.graceful, Event.deadline,
      Event.returns 0, Event.closeErrChan, Event.logError]).reported = ["flush failed"] ∧
    (oneFailingHandler.Wait [Event.reachSelect Verdict.graceful, Event.deadline,
      Event.returns 0, Event.closeErrChan, Event.logError]).returned = true ∧
    (oneFailingHandler.Wait [Event.reachSelect Verdict.graceful, Event.deadline,
      Event.returns 0, Event.closeErrChan, Event.logError]).panicked = false := by
  refine ⟨rfl, rfl, rfl, rfl, rfl⟩

/-- C11, amended: the reported cleanup errors are the failures of the hooks that
completed before `Wait` ran `close(errChan)`, in completion order. With `pre` the
events up to `close(errChan)`: from the close on, the errors logged followed by
those still in the channel are the failures of `completionOrder h pre`, so they
are what `Wait` has reported when it returns, and the logging loop alone makes
it return; nothing is reported before the close; `completionOrder h pre` lists
each hook that returned during `pre` once, in the order of the returns; and with
two hooks, one failing and one succeeding, and a graceful verdict, exactly one
error is reported. -/
theorem Wait_reported (h : ShutdownHandler) (pre post : List Event)
    (hv : (h.Wait pre).verdict.isSome = true) (hopen : (h.Wait pre).errChanClosed = false) :
    (h.Wait (pre ++ Event.closeErrChan :: post)).reported ++
        (h.Wait (pre ++ Event.closeErrChan :: post)).errChan =
      failuresOf h.hooks (completionOrder h pre) ∧
    ((h.Wait (pre ++ Event.closeErrChan :: post)).returned = true →
      (h.Wait (pre ++ Event.closeErrChan :: post)).reported =
        failuresOf h.hooks (completionOrder h pre)) ∧
    (h.Wait (pre ++ Event.closeErrChan ::
      List.replicate (failuresOf h.hooks (completionOrder h pre)).length Event.logError)).returned
        = true ∧
    (h.Wait pre).reported = [] ∧
    ((completionOrder h pre).map Prod.fst).Nodup ∧
    (∀ i, i ∈ (completionOrder h pre).map Prod.fst ↔
      i < h.hooks.length ∧ Event.returns i ∈ pre) ∧
    ((completionOrder h pre).map Prod.fst).Sublist (returnsOf pre) ∧
    (∀ f g : Hook, h.hooks = [f, g] →
      (((∀ c, (f c).isSome = true) ∧ ∀ c, g c = none) ∨
        ((∀ c, f c = none) ∧ ∀ c, (g c).isSome = true)) →
      (h.Wait pre).verdict = some Verdict.graceful →
      (failuresOf h.hooks (completionOrder h pre)).length = 1) := by
  have hlog := Wait_closed_log h pre post hv hopen
  refine ⟨hlog, ?_, Wait_drained h pre hv hopen, ((Wait_sound h pre).2.2.2.2.2.1 hopen).2,
    completionLog_nodup _ _ _ _, ?_, completionLog_sublist _ _ _ _, ?_⟩
  · intro hret
    have hempty : (h.Wait (pre ++ Event.closeErrChan :: post)).errChan = [] := by
      simp only [Session.returned, Bool.and_eq_true, List.isEmpty_iff] at hret
      exact hret.2
    rw [hempty, List.append_nil] at hlog
    exact hlog
  · intro i
    constructor
    · intro hi
      have := completionLog_mem _ _ _ _ i hi
      exact ⟨this.1, this.2.2⟩
    · rintro ⟨hi, hmem⟩
      exact completionLog_complete _ _ _ _ i hi (List.not_mem_nil i) hmem
  · intro f g hh hfg hg
    exact Wait_graceful_two_hooks h pre f g hh hfg hg hopen

/-- C11 amended, at a concrete schedule on `demoHandler`: the second hook returns
first and fails, the first succeeds, the verdict is graceful, and `Wait` returns
having reported the one failure. -/
theorem Wait_reported_witness :
    (demoHandler.Wait ([Event.reachSelect Verdict.graceful, Event.returns 1, Event.returns 0,
      Event.closeDone] ++ Event.closeErrChan :: [Event.logError])).reported =
        ["flush failed"] ∧
    failuresOf demoHandler.hooks (completionOrder demoHandler
      [Event.reachSelect Verdict.graceful, Event.returns 1, Event.returns 0,
        Event.closeDone]) = ["flush failed"] :=
  ⟨rfl, ((Wait_reported demoHandler [Event.reachSelect Verdict.graceful, Event.returns 1,
      Event.returns 0, Event.closeDone] [Event.logError] rfl rfl).2.1 rfl).symm.trans rfl⟩

/-- C12, the code at the failing input: with the handler whose second hook fails
and the schedule in which that hook returns after the deadline and after `Wait`
has run `close(errChan)`, the hook's send on `errChan` panics; its error is
neither reported nor discarded without fault. -/
theorem Wait_late_failure_panics :
    (demoHandler.Wait [Event.reachSelect Verdict.graceful, Event.returns 0, Event.deadline,
      Event.closeErrChan, Event.returns 1]).panicked = true ∧
    (demoHandler.Wait [Event.reachSelect Verdict.graceful, Event.returns 0, Event.deadline,
      Event.closeErrChan, Event.returns 1]).verdict = some Verdict.forced ∧
    (demoHandler.Wait [Event.reachSelect Verdict.graceful, Event.returns 0, Event.deadline,
      Event.closeErrChan, Event.returns 1]).reported = [] ∧
    (demoHandler.Wait [Event.reachSelect Verdict.graceful, Event.returns 0, Event.deadline,
      Event.closeErrChan]).panicked = false := by
  refine ⟨rfl, rfl, rfl, rfl⟩

/-- C13: `RegisterHook` appends, and the snapshot of a session is fixed. After
registering `hs` in order on a new handler the registry is exactly `hs`. A
session takes the registry as it is at its snapshot and starts one goroutine per
hook of it; under every schedule its snapshot stays that registry and no
goroutine is started a second time. In a process, the snapshot of a session that
has started is unchanged by whatever happens later, any `RegisterHook` included,
and a session starting now takes the registry as it is now. -/
theorem snapshot_immutable (timeout : Int) (hs : List Hook) :
    (hs.foldl ShutdownHandler.RegisterHook (NewShutdownHandler timeout)).hooks = hs ∧
    (∀ h : ShutdownHandler,
      (Session.start h).hooks = h.hooks ∧
      (Session.start h).running = List.range h.hooks.length ∧
      ∀ schedule, (h.Wait schedule).hooks = h.hooks ∧
        (h.Wait schedule).running.Sublist (List.range h.hooks.length)) ∧
    (∀ p : Process,
      ((p.step ProcessEvent.signal).sessions[p.sessions.length]?).map Session.hooks =
        some p.handler.hooks ∧
      (∀ hook, (p.step (ProcessEvent.register hook)).handler.hooks = p.handler.hooks ++ [hook]) ∧
      ∀ evs k, k < p.sessions.length →
        ((p.run evs).sessions[k]?).map Session.hooks = (p.sessions[k]?).map Session.hooks ∧
        ((p.run evs).sessions[k]?).map (fun s => s.hooks.length) =
          (p.sessions[k]?).map (fun s => s.hooks.length)) := by
  refine ⟨?_, ?_, ?_⟩
  · rw [registered_hooks]
    rfl
  · intro h
    refine ⟨Session.start_hooks h, Session.start_running h, ?_⟩
    intro schedule
    unfold ShutdownHandler.Wait
    refine ⟨?_, ?_⟩
    · rw [Session.foldl_hooks, Session.start_hooks]
    · have h1 := Session.foldl_running_sublist schedule (Session.start h)
      rw [Session.start_running] at h1
      exact h1
  · intro p
    refine ⟨?_, ?_, ?_⟩
    · simp [Process.step, Session.start_hooks]
    · intro hook
      rfl
    · intro evs k hk
      have h1 := Process.run_snapshot evs p k hk
      refine ⟨h1, ?_⟩
      have h2 := congrArg (Option.map List.length) h1
      simpa [Option.map_map] using h2

/-- C13 at a concrete process: a hook registered after the snapshot of a session
is in the registry and not in that session. -/
theorem snapshot_immutable_witness :
    (((Process.init demoHandler).run lateRegisterEvents).sessions[0]?).map
        (fun s => s.hooks.length) = some 2 ∧
    ((Process.init demoHandler).run lateRegisterEvents).handler.hooks.length = 3 := by
  have h := ((snapshot_immutable 30 [okHook, failingHook]).2.2
    ((Process.init demoHandler).step ProcessEvent.signal)).2.2
    [ProcessEvent.register okHook, ProcessEvent.inSession 0 (Event.returns 0)] 0 (by decide)
  exact ⟨h.2, rfl⟩

/-- C14 as stated fails: on a handler whose first `Wait` has completed
gracefully, a second `Wait` that gets a signal starts a second session; the
handler goes from Completed back to Triggered and both hooks run again. -/
theorem second_Wait_runs_hooks_again :
    ((Process.init demoHandler).run firstWaitEvents).phase = Phase.completed ∧
    ((Process.init demoHandler).run secondWaitEvents).phase = Phase.triggered ∧
    ((Process.init demoHandler).run secondWaitEvents).sessions.length = 2 ∧
    (((Process.init demoHandler).run secondWaitEvents).sessions[1]?).map Session.running =
      some [0, 1] := by
  refine ⟨rfl, rfl, rfl, rfl⟩

/-- C14, amended: each call of `Wait` is one session with the machine Triggered →
{Completed | TimedOut}: a session is never Idle, and no event leaves Completed or
TimedOut, so a session is in Triggered once. For the handler, Idle never recurs
once a session has started. The handler keeps no record of a session: a call of
`Wait` that gets its signal leaves the handler as it was and starts a further
session, in which every registered hook runs again. -/
theorem session_one_shot (p : Process) (ev : ProcessEvent) (s : Session) (e : Event) :
    s.phase ≠ Phase.idle ∧
    (s.phase = Phase.completed → (s.step e).phase = Phase.completed) ∧
    (s.phase = Phase.timedOut → (s.step e).phase = Phase.timedOut) ∧
    (p.phase ≠ Phase.idle → (p.step ev).phase ≠ Phase.idle) ∧
    (p.step ProcessEvent.signal).handler = p.handler ∧
    (p.step ProcessEvent.signal).sessions = p.sessions ++ [Session.start p.handler] ∧
    (Session.start p.handler).running = List.range p.handler.hooks.length := by
  have hterm : ∀ v, s.verdict = some v → (s.step e).phase = s.phase := by
    intro v hv
    unfold Session.phase
    rw [Session.step_verdict_some s e v hv, hv]
  refine ⟨Session.phase_ne_idle s, ?_, ?_, ?_, rfl, rfl, Session.start_running _⟩
  · intro h
    cases hv : s.verdict with
    | none => simp [Session.phase, hv] at h
    | some v => rw [hterm v hv, h]
  · intro h
    cases hv : s.verdict with
    | none => simp [Session.phase, hv] at h
    | some v => rw [hterm v hv, h]
  · intro h
    rw [Ne, Process.phase_idle_iff] at h ⊢
    intro h0
    have h1 := Process.step_sessions_length p ev
    rw [h0] at h1
    exact h (List.length_eq_zero.mp (Nat.le_zero.mp h1))

/-- C14 amended, at a concrete process: the first session stays Completed while
the second call of `Wait` starts its own. -/
theorem session_one_shot_witness :
    (((Process.init demoHandler).run secondWaitEvents).sessions[0]?).map Session.phase =
      some Phase.completed ∧
    ((Process.init demoHandler).run secondWaitEvents).phase ≠ Phase.idle :=
  ⟨rfl, (session_one_shot ((Process.init demoHandler).run firstWaitEvents)
    ProcessEvent.signal (Session.start demoHandler) Event.deadline).2.2.2.1 (by decide)⟩

/-- C15: `padString` pads on the left up to the minimum length. When
`len(s) >= minLen` the result is `s`. Otherwise it is the pad character repeated
`minLen - len(s)` times, followed by `s`: `s` is a suffix of it, and for a pad
character of one byte its length is exactly `minLen`. `padString("42", 5, '0')`
is `"00042"`. -/
theorem padString_spec (s : GoString) (minLen padChar : Int) :
    ((s.length : Int) ≥ minLen → padString s minLen padChar = s) ∧
    ((s.length : Int) < minLen →
      padString s minLen padChar =
        stringsRepeat (runeString padChar) (minLen - s.length).toNat ++ s ∧
      s <:+ padString s minLen padChar ∧
      (0 ≤ padChar ∧ padChar < 0x80 →
        runeString padChar = [padChar.toNat] ∧
        ((padString s minLen padChar).length : Int) = minLen)) ∧
    padString [52, 50] 5 48 = [48, 48, 48, 52, 50] := by
  refine ⟨?_, ?_, by decide⟩
  · intro h
    unfold padString
    rw [if_pos h]
  · intro h
    have hp : padString s minLen padChar =
        stringsRepeat (runeString padChar) (minLen - s.length).toNat ++ s := by
      unfold padString
      rw [if_neg (by omega)]
    refine ⟨hp, ?_, ?_⟩
    · rw [hp]
      exact List.suffix_append _ _
    · intro hc
      have h1 : runeString padChar = [padChar.toNat] := by
        unfold runeString
        rw [if_pos hc]
      refine ⟨h1, ?_⟩
      rw [hp, List.length_append, stringsRepeat_length, h1]
      simp only [List.length_singleton, mul_one, Nat.cast_add]
      omega

/-- C15 at concrete strings: a short string is padded, a long one is returned
as it is, and a pad character of three bytes makes the result longer than the
minimum. -/
theorem padString_spec_witness :
    padString [55] 3 32 = [32, 32, 55] ∧
    padString [52, 50] 2 48 = [52, 50] ∧
    padString [52, 50] 3 0x20AC = [0xE2, 0x82, 0xAC, 52, 50] :=
  ⟨((padString_spec [55] 3 32).2.1 (by decide)).1.trans (by decide),
   (padString_spec [52, 50] 2 48).1 (by decide),
   by decide⟩

/-- C19: `maxValue` returns the maximum. It returns an error exactly when the
slice is empty, and the value is then 0; for a slice that is not empty it returns
no error and a value that is an element of the slice and is at least every
element of it. -/
theorem maxValue_spec (nums : List Int) :
    ((maxValue nums).2.isSome = true ↔ nums = []) ∧
    (nums = [] → maxValue nums = (0, some "empty slice")) ∧
    (nums ≠ [] →
      (maxValue nums).2 = none ∧ (maxValue nums).1 ∈ nums ∧
      ∀ x ∈ nums, x ≤ (maxValue nums).1) := by
  cases nums with
  | nil =>
    refine ⟨by simp [maxValue], fun _ => rfl, fun h => absurd rfl h⟩
  | cons first rest =>
    obtain ⟨h1, h2, h3⟩ := maxLoop_spec rest first
    refine ⟨by simp [maxValue], fun h => (by cases h), fun _ => ⟨rfl, ?_, ?_⟩⟩
    · simp only [maxValue]
      rcases h1 with h1 | h1
      · rw [h1]; exact List.mem_cons_self _ _
      · exact List.mem_cons_of_mem _ h1
    · intro x hx
      simp only [maxValue]
      rcases List.mem_cons.mp hx with hx | hx
      · rw [hx]; exact h2
      · exact h3 x hx

/-- C19 at concrete slices. -/
theorem maxValue_spec_witness :
    maxValue [3, -7, 12, 5] = (12, none) ∧ maxValue [] = (0, some "empty slice") ∧
    (∀ x ∈ ([3, -7, 12, 5] : List Int), x ≤ (maxValue [3, -7, 12, 5]).1) :=
  ⟨by decide, (maxValue_spec []).2.1 rfl, ((maxValue_spec [3, -7, 12, 5]).2.2 (by decide)).2.2⟩

/-- C20: `validateJWTStructure` checks the shape only. Splitting on the dot gives
one part more than there are dots; when that is not 3 parts the error is
"invalid JWT: must have 3 parts". For a token of three parts the result is `nil`
exactly when each of the first two parts decodes and its decoding is accepted as
JSON; and two tokens of three parts that agree on the first two parts get the
same result, whatever their third parts. -/
theorem validateJWTStructure_spec (decodeString : GoString → Except String GoString)
    (unmarshalOk : GoString → Bool) (token : GoString) :
    (splitDot token).length = token.count 46 + 1 ∧
    ((splitDot token).length ≠ 3 ↔ token.count 46 ≠ 2) ∧
    ((splitDot token).length ≠ 3 →
      validateJWTStructure decodeString unmarshalOk token =
        some "invalid JWT: must have 3 parts") ∧
    (∀ a b c, splitDot token = [a, b, c] →
      (validateJWTStructure decodeString unmarshalOk token = none ↔
        (∃ da, decodeString a = Except.ok da ∧ unmarshalOk da = true) ∧
        (∃ db, decodeString b = Except.ok db ∧ unmarshalOk db = true))) ∧
    (∀ token2 a b c c2, splitDot token = [a, b, c] → splitDot token2 = [a, b, c2] →
      validateJWTStructure decodeString unmarshalOk token2 =
        validateJWTStructure decodeString unmarshalOk token) := by
  refine ⟨splitDot_length token, ?_, ?_, ?_, ?_⟩
  · rw [splitDot_length]
    omega
  · intro h
    unfold validateJWTStructure
    rw [if_pos h]
  · intro a b c h
    rw [validateJWTStructure_three _ _ _ a b c h, ← checkPart_none_iff, ← checkPart_none_iff]
    cases checkPart decodeString unmarshalOk a with
    | some err => simp
    | none => simp
  · intro token2 a b c c2 h h2
    rw [validateJWTStructure_three _ _ _ a b c h, validateJWTStructure_three _ _ _ a b c2 h2]

/-- C20 at concrete tokens, with the stand-in decoder and validity test: `{}.{}.x`
is accepted, `{}.{}` and `{}.{}.x.y` have the wrong number of parts, `{}.a.x`
has a second part that is not accepted, and the signature part does not matter. -/
theorem validateJWTStructure_spec_witness :
    validateJWTStructure demoDecode demoUnmarshalOk [123, 125, 46, 123, 125, 46, 120] = none ∧
    validateJWTStructure demoDecode demoUnmarshalOk [123, 125, 46, 123, 125] =
      some "invalid JWT: must have 3 parts" ∧
    validateJWTStructure demoDecode demoUnmarshalOk
      [123, 125, 46, 123, 125, 46, 120, 46, 121] = some "invalid JWT: must have 3 parts" ∧
    validateJWTStructure demoDecode demoUnmarshalOk [123, 125, 46, 97, 46, 120] =
      some "invalid JSON in JWT part" ∧
    validateJWTStructure demoDecode demoUnmarshalOk [123, 125, 46, 123, 125, 46] =
      validateJWTStructure demoDecode demoUnmarshalOk [123, 125, 46, 123, 125, 46, 120] := by
  refine ⟨?_, ?_, ?_, ?_, ?_⟩
  · exact ((validateJWTStructure_spec demoDecode demoUnmarshalOk
      [123, 125, 46, 123, 125, 46, 120]).2.2.2.1 [123, 125] [123, 125] [120] (by decide)).mpr
      ⟨⟨[123, 125], rfl, rfl⟩, ⟨[123, 125], rfl, rfl⟩⟩
  · exact (validateJWTStructure_spec demoDecode demoUnmarshalOk
      [123, 125, 46, 123, 125]).2.2.1 (by decide)
  · exact (validateJWTStructure_spec demoDecode demoUnmarshalOk
      [123, 125, 46, 123, 125, 46, 120, 46, 121]).2.2.1 (by decide)
  · rfl
  · exact (validateJWTStructure_spec demoDecode demoUnmarshalOk
      [123, 125, 46, 123, 125, 46, 120]).2.2.2.2 [123, 125, 46, 123, 125, 46]
      [123, 125] [123, 125] [120] [] (by decide) (by decide)

/-- C18 as stated fails for a negative `maxRequests`: after one call on
`NewRateLimiter(-1, 1)` no timestamp is stored, and 0 is not at most -1. -/
theorem stored_count_exceeds_negative_maxRequests :
    ((NewRateLimiter (-1) 1).Allow 0).1 = false ∧
    ((NewRateLimiter (-1) 1).Allow 0).2.timestamps = [] ∧
    ¬ ((((NewRateLimiter (-1) 1).Allow 0).2.timestamps.length : Int) ≤
        (NewRateLimiter (-1) 1).maxRequests) := by
  decide

/-- C18, amended: for every `maxRequests`, every `window > 0` and every sequence
of calls of `Allow` at non-decreasing instants, the calls that returned true with
instant in any interval `(t - window, t]` number at most `max(maxRequests, 0)`.
After each call the stored timestamps are all strictly later than `now - window`,
are in their original order (a sublist of the earlier ones followed by `now`), and
number at most `max(maxRequests, 0)`; `Allow` returns true exactly when fewer than
`maxRequests` unexpired timestamps remained, and only then records `now`. -/
theorem rateLimiter_window (maxRequests window : Int) (hw : 0 < window) (nows : List Int)
    (hs : nows.Sorted (fun a b => a ≤ b)) :
    (∀ t, countInWindow ((NewRateLimiter maxRequests window).granted nows) window t ≤
      (max maxRequests 0).toNat) ∧
    (∀ before now after, nows = before ++ now :: after →
      (∀ ts ∈ (((NewRateLimiter maxRequests window).allowAll before).Allow now).2.timestamps,
        ts > now - window) ∧
      (((NewRateLimiter maxRequests window).allowAll before).Allow now).2.timestamps.Sublist
        (((NewRateLimiter maxRequests window).allowAll before).timestamps ++ [now]) ∧
      (((((NewRateLimiter maxRequests window).allowAll before).Allow now).2.timestamps.length
        : Nat) : Int) ≤ max maxRequests 0 ∧
      ((((NewRateLimiter maxRequests window).allowAll before).Allow now).1 = true ↔
        (((((NewRateLimiter maxRequests window).allowAll before).timestamps.filter
          (fun ts => decide (ts > now - window))).length : Nat) : Int) < maxRequests) ∧
      (((NewRateLimiter maxRequests window).allowAll before).Allow now).2.timestamps =
        if (((NewRateLimiter maxRequests window).allowAll before).Allow now).1 then
          ((NewRateLimiter maxRequests window).allowAll before).timestamps.filter
            (fun ts => decide (ts > now - window)) ++ [now]
        else
          ((NewRateLimiter maxRequests window).allowAll before).timestamps.filter
            (fun ts => decide (ts > now - window))) := by
  constructor
  · intro t
    cases nows with
    | nil => simp [RateLimiter.granted, countInWindow]
    | cons now rest =>
      have h := RateLimiter.granted_window (now :: rest) (NewRateLimiter maxRequests window) []
        now hw ⟨rfl, by simp, by simp [countInWindow]⟩
        (by
          intro n hn
          rcases List.mem_cons.mp hn with hn | hn
          · rw [hn]
          · exact List.rel_of_sorted_cons hs n hn)
        hs t
      simpa using h
  · intro before now after _
    have hmw := RateLimiter.allowAll_maxRequests before (NewRateLimiter maxRequests window)
    have hm : ((NewRateLimiter maxRequests window).allowAll before).maxRequests = maxRequests :=
      hmw.1
    have hwin : ((NewRateLimiter maxRequests window).allowAll before).window = window := hmw.2
    have hlen := RateLimiter.allowAll_length before (NewRateLimiter maxRequests window)
      (by simp [NewRateLimiter])
    generalize (NewRateLimiter maxRequests window).allowAll before = rl at hm hwin hlen ⊢
    have hlen1 : (rl.timestamps.length : Int) ≤ max rl.maxRequests 0 := by
      rw [hm]; exact hlen
    have hB := RateLimiter.Allow_length rl now hlen1
    rw [hm] at hB
    have hun : unexpired rl now = rl.timestamps.filter (fun ts => decide (ts > now - window)) := by
      unfold unexpired
      rw [hwin]
    rw [← hun]
    by_cases hlt : ((unexpired rl now).length : Int) < rl.maxRequests
    · have h1 : rl.Allow now = (true, { rl with timestamps := unexpired rl now ++ [now] }) := by
        unfold RateLimiter.Allow
        rw [if_pos hlt]
      rw [h1] at hB ⊢
      refine ⟨?_, ?_, hB, ?_, ?_⟩
      · intro ts hts
        rcases List.mem_append.mp hts with hts | hts
        · rw [hun] at hts
          simpa using (List.mem_filter.mp hts).2
        · simp only [List.mem_singleton] at hts
          rw [hts]
          omega
      · exact List.Sublist.append (List.filter_sublist _) (List.Sublist.refl _)
      · rw [← hm]
        simp [hlt]
      · simp
    · have h1 : rl.Allow now = (false, { rl with timestamps := unexpired rl now }) := by
        unfold RateLimiter.Allow
        rw [if_neg hlt]
      rw [h1] at hB ⊢
      refine ⟨?_, ?_, hB, ?_, ?_⟩
      · intro ts hts
        have hts1 : ts ∈ unexpired rl now := hts
        rw [hun] at hts1
        simpa using (List.mem_filter.mp hts1).2
      · exact (List.filter_sublist _).trans (List.sublist_append_left _ _)
      · rw [← hm]
        simp [hlt]
      · simp

/-- C18 amended, at a concrete limiter of 2 requests per window of 10: the third
call is refused, and once the window has moved on calls are granted again. -/
theorem rateLimiter_window_witness :
    (NewRateLimiter 2 10).granted [0, 1, 2, 11, 12] = [0, 1, 11, 12] ∧
    (∀ t, countInWindow ((NewRateLimiter 2 10).granted [0, 1, 2, 11, 12]) 10 t ≤ 2) :=
  ⟨by decide, (rateLimiter_window 2 10 (by decide) [0, 1, 2, 11, 12] (by decide)).1⟩

/-- C16: on a cache from `NewLRU(capacity)` with `capacity >= 1`, after every
sequence of calls of `Get` and `Set`, the recency list holds at most `capacity`
entries, its keys are pairwise distinct, and the keys of the map are the keys of
the list, each map entry pointing at the list element that carries its key. -/
theorem LRU_invariant {V : Type} [Inhabited V] (capacity : Int) (hcap : 1 ≤ capacity)
    (ops : List (CacheOp V)) :
    (((NewLRU capacity : LRUCache V).run ops).order.length : Int) ≤ capacity ∧
    ((NewLRU capacity : LRUCache V).run ops).keys.Nodup ∧
    (∀ k, (((NewLRU capacity : LRUCache V).run ops).cache k).isSome = true ↔
      k ∈ ((NewLRU capacity : LRUCache V).run ops).keys) ∧
    (∀ k a, ((NewLRU capacity : LRUCache V).run ops).cache k = some a →
      a ∈ ((NewLRU capacity : LRUCache V).run ops).order ∧
      (((NewLRU capacity : LRUCache V).run ops).elems a).key = k) ∧
    (∀ a ∈ ((NewLRU capacity : LRUCache V).run ops).order,
      ((NewLRU capacity : LRUCache V).run ops).cache
        (((NewLRU capacity : LRUCache V).run ops).elems a).key = some a) := by
  have h := LRUCache.run_invariant ops (NewLRU capacity : LRUCache V) hcap
    (NewLRU_coherent capacity) (by simp [NewLRU]; omega)
  refine ⟨h.2.2, LRUCache.keys_nodup _ h.1, ?_, h.1.2.2.1, h.1.2.2.2⟩
  intro k
  exact (LRUCache.mem_keys_iff _ h.1 k).symm

/-- C16 at a concrete run on a cache of capacity 2: three keys set, two stored. -/
theorem LRU_invariant_witness :
    ((NewLRU 2 : LRUCache String).run demoCacheOps).keys = ["c", "a"] ∧
    (((NewLRU 2 : LRUCache String).run demoCacheOps).order.length : Int) ≤ 2 ∧
    ((NewLRU 2 : LRUCache String).run demoCacheOps).keys.Nodup :=
  ⟨by decide, (LRU_invariant 2 (by decide) demoCacheOps).1,
    (LRU_invariant 2 (by decide) demoCacheOps).2.1⟩

/-- C17: lookup and eviction, on the cache reached from `NewLRU(capacity)` with
`capacity >= 1` by any sequence of calls, traced with the instant of the most
recent `Set` or `Get` hit of every key. `Set(k, v)` followed by `Get(k)` returns
`(v, true)`. A `Set` of a key that is not stored, on a full cache, removes the key
at the back of the list and no other; that key is the one whose most recent use is
the oldest among the stored keys. A `Set` of a stored key and a `Get` hit move
that key to the front, change no other key's value or relative position and
remove nothing. A `Get` of a key that is not stored returns `(nil, false)` and
leaves the cache as it was. -/
theorem LRU_lookup_and_eviction {V : Type} [Inhabited V] (capacity : Int) (hcap : 1 ≤ capacity)
    (ops : List (CacheOp V)) (k : String) (v : V) :
    (((((Traced.init capacity : Traced V).run ops).cache.Set k v).Get k).1 = (v, true)) ∧
    ((((Traced.init capacity : Traced V).run ops).cache.cache k = none →
      ((((Traced.init capacity : Traced V).run ops).cache.order.length : Int) ≥ capacity) →
      ∃ e, ((Traced.init capacity : Traced V).run ops).cache.keys.getLast? = some e ∧
        (((Traced.init capacity : Traced V).run ops).cache.Set k v).keys =
          k :: ((Traced.init capacity : Traced V).run ops).cache.keys.dropLast ∧
        (((Traced.init capacity : Traced V).run ops).cache.Set k v).lookup e = none ∧
        (((Traced.init capacity : Traced V).run ops).cache.Set k v).lookup k = some v ∧
        ∀ j ∈ ((Traced.init capacity : Traced V).run ops).cache.keys, j ≠ e →
          (((Traced.init capacity : Traced V).run ops).cache.Set k v).lookup j =
            ((Traced.init capacity : Traced V).run ops).cache.lookup j ∧
          ((Traced.init capacity : Traced V).run ops).used e <
            ((Traced.init capacity : Traced V).run ops).used j)) ∧
    ((((Traced.init capacity : Traced V).run ops).cache.cache k).isSome = true →
      (((Traced.init capacity : Traced V).run ops).cache.Set k v).keys =
        k :: ((Traced.init capacity : Traced V).run ops).cache.keys.erase k ∧
      (((Traced.init capacity : Traced V).run ops).cache.Set k v).lookup k = some v ∧
      (∀ j, j ≠ k →
        (((Traced.init capacity : Traced V).run ops).cache.Set k v).lookup j =
          ((Traced.init capacity : Traced V).run ops).cache.lookup j) ∧
      ∃ w, ((Traced.init capacity : Traced V).run ops).cache.lookup k = some w ∧
        (((Traced.init capacity : Traced V).run ops).cache.Get k).1 = (w, true) ∧
        (((Traced.init capacity : Traced V).run ops).cache.Get k).2.keys =
          k :: ((Traced.init capacity : Traced V).run ops).cache.keys.erase k ∧
        ∀ j, (((Traced.init capacity : Traced V).run ops).cache.Get k).2.lookup j =
          ((Traced.init capacity : Traced V).run ops).cache.lookup j) ∧
    (((Traced.init capacity : Traced V).run ops).cache.cache k = none →
      ((Traced.init capacity : Traced V).run ops).cache.Get k =
        ((default, false), ((Traced.init capacity : Traced V).run ops).cache)) ∧
    ((Traced.init capacity : Traced V).run ops).cache = (NewLRU capacity : LRUCache V).run ops := by
  have hinit := Traced.init_ordered (V := V) capacity
  have hrun := Traced.run_ordered ops (Traced.init capacity : Traced V) hinit.1 hinit.2
  have hcapEq : ((Traced.init capacity : Traced V).run ops).cache.capacity = capacity := by
    rw [hrun.1]
    exact (LRUCache.run_invariant ops (NewLRU capacity : LRUCache V) hcap
      (NewLRU_coherent capacity) (by simp [NewLRU]; omega)).2.1
  generalize (Traced.init capacity : Traced V).run ops = t at hrun hcapEq ⊢
  obtain ⟨hcache, hco, hord⟩ := hrun
  refine ⟨LRUCache.Set_Get t.cache k v, ?_, ?_, LRUCache.Get_miss t.cache k, hcache⟩
  · intro hnone hfull
    have hfull1 : (t.cache.order.length : Int) ≥ t.cache.capacity := by rw [hcapEq]; exact hfull
    have hne : t.cache.order ≠ [] := by
      intro h0
      rw [h0] at hfull
      simp at hfull
      omega
    obtain ⟨hk1, oldest, hlast, hklast, _⟩ := LRUCache.evict_keys_full t.cache hco hfull1 hne
    have hev := LRUCache.evict_coherent t.cache hco
    have hpl := LRUCache.pushFront_lookup t.cache.evict hev k v
    have hel := LRUCache.evict_lookup t.cache oldest hfull1 hlast
    have hmem : (t.cache.elems oldest).key ∈ t.cache.keys := List.mem_of_getLast?_eq_some hklast
    have hek : (t.cache.elems oldest).key ≠ k := by
      intro hh
      rw [LRUCache.mem_keys_iff _ hco, hh, hnone] at hmem
      cases hmem
    refine ⟨(t.cache.elems oldest).key, hklast, ?_, ?_, ?_, ?_⟩
    · rw [LRUCache.Set_miss t.cache k v hnone, LRUCache.pushFront_keys _ hev, hk1]
    · rw [LRUCache.Set_miss t.cache k v hnone, hpl.2 _ hek]
      exact hel.1
    · rw [LRUCache.Set_miss t.cache k v hnone]
      exact hpl.1
    · intro j hj hje
      have hjk : j ≠ k := by
        intro hh
        rw [LRUCache.mem_keys_iff _ hco, hh, hnone] at hj
        cases hj
      refine ⟨?_, ?_⟩
      · rw [LRUCache.Set_miss t.cache k v hnone, hpl.2 j hjk]
        exact hel.2 j hje
      · obtain ⟨front, hfront⟩ := List.getLast?_eq_some_iff.mp hklast
        have hp := hord.1
        rw [hfront, List.map_append, List.pairwise_append] at hp
        have hjf : j ∈ front := by
          rw [hfront] at hj
          rcases List.mem_append.mp hj with hj | hj
          · exact hj
          · exact absurd (List.mem_singleton.mp hj) hje
        exact hp.2.2 _ (List.mem_map_of_mem _ hjf) _ (by simp)
  · intro hsome
    cases hc : t.cache.cache k with
    | none => rw [hc] at hsome; cases hsome
    | some a =>
      have hsl := LRUCache.Set_hit_lookup t.cache hco k v a hc
      have hgv := LRUCache.Get_hit_value t.cache k a hc
      exact ⟨LRUCache.Set_hit_keys t.cache hco k v a hc, hsl.1, hsl.2,
        (t.cache.elems a).value, hgv.1, hgv.2, LRUCache.Get_hit_keys t.cache hco k a hc,
        LRUCache.Get_lookup t.cache k⟩

/-- C17 at a concrete run on a cache of capacity 2 holding "a" (used last) and
"b": setting "c" removes "b", the key used least recently, and keeps "a". -/
theorem LRU_lookup_and_eviction_witness :
    ∃ e, ((Traced.init 2 : Traced String).run
        [CacheOp.set "a" "1", CacheOp.set "b" "2", CacheOp.get "a"]).cache.keys.getLast? =
        some e ∧
      (((Traced.init 2 : Traced String).run
        [CacheOp.set "a" "1", CacheOp.set "b" "2", CacheOp.get "a"]).cache.Set "c" "3").keys =
        "c" :: ((Traced.init 2 : Traced String).run
          [CacheOp.set "a" "1", CacheOp.set "b" "2", CacheOp.get "a"]).cache.keys.dropLast ∧
      (((Traced.init 2 : Traced String).run
        [CacheOp.set "a" "1", CacheOp.set "b" "2", CacheOp.get "a"]).cache.Set "c" "3").lookup
        e = none := by
  obtain ⟨e, h1, h2, h3, _⟩ := (LRU_lookup_and_eviction 2 (by decide)
    [CacheOp.set "a" "1", CacheOp.set "b" "2", CacheOp.get "a"] "c" "3").2.1 rfl (by decide)
  exact ⟨e, h1, h2, h3⟩

end TypeHero
